import Mathlib

/-!
# Verification of the graph-search engine

A shallow embedding of the repository's core (graph data model, binary
min-heap, k-d tree, Dijkstra engine) together with proofs about it.

Modelling conventions, fixed once for the whole development:

* Go `float32`/`float64` values are modelled as rationals (`ℚ`): the code
  only adds, subtracts, multiplies and compares, so every run on the graphs
  considered here is exact.  The sentinel constants `math.MaxFloat32` and
  `math.MaxFloat64` are modelled by their exact rational values.
* Go integer ids (`int32`/`int`) are modelled as `ℤ`.  The `int → int32`
  conversion in `AddNode` is the identity for all collections below `2^31`
  elements, the regime of every statement proved here.
* Go slice indexing panics when out of range; it is modelled totally
  (returning a default and making out-of-range writes a no-op), and every
  theorem carries validity hypotheses keeping all accesses in range.
* Go maps are modelled as functions into `Option`, `big.Int` bitsets as
  functions into `Bool`.
* The `Run` loop is modelled with explicit fuel; theorems about a completed
  run take the hypothesis that the fuel sufficed.  The input graph is
  threaded through the loop as part of the state, recording the effect (none)
  of each statement on it.
-/

namespace GraphSearch

/-- go `dijkstra.go`: `INFINITE = math.MaxFloat32`, the exact value
`(2 - 2^-23) * 2^127`. -/
def INFINITE : ℚ := 2 ^ 128 - 2 ^ 104

/-- `math.MaxFloat64 = (2 - 2^-52) * 2^1023`, used by `FindNearest`. -/
def maxFloat64 : ℚ := 2 ^ 1024 - 2 ^ 971

/-! ## Graph data model (`pbf.go`) -/

/-- go `pbf.go`: edge metadata. -/
structure MetaData where
  Speed : ℚ
  Distance : ℚ
  RoadType : String
  deriving DecidableEq, Inhabited, Repr

/-- go `pbf.go`: a graph node. -/
structure Node where
  ID : ℤ
  Location : ℕ
  Rank : ℤ
  deriving DecidableEq, Inhabited, Repr

/-- go `pbf.go`: a directed edge to node `ID`. -/
structure Edge where
  ID : ℤ
  Weight : ℚ
  Metadata : MetaData
  deriving DecidableEq, Inhabited, Repr

/-- go `pbf.go`: `Relations` is a slice of adjacency lists. -/
abbrev Relations := List (List Edge)

/-- go `pbf.go`: the graph structure. -/
structure Graph where
  Nodes : List Node
  IncomingEdges : Relations
  OutgoingEdges : Relations
  deriving DecidableEq, Inhabited, Repr

/-- go `pbf.go`: edge directions. -/
inductive EdgeDirection where
  | Bidirectional
  | LeftToRight
  | RightToLeft
  deriving DecidableEq, Repr

/-- go `pbf.go`: `EmptyGraph`. -/
def EmptyGraph : Graph := ⟨[], [], []⟩

/-- Read an adjacency list at id `i`.  Go indexes the slice directly,
panicking out of range; modelled totally by `[]` out of range. -/
def Relations.atIdx (r : Relations) (i : ℤ) : List Edge :=
  if 0 ≤ i then r.getD i.toNat [] else []

/-- Write the adjacency list at id `i` (no-op out of range, where Go panics). -/
def Relations.setIdx (r : Relations) (i : ℤ) (l : List Edge) : Relations :=
  if 0 ≤ i then r.set i.toNat l else r

/-- Number of nodes of a graph. -/
def Graph.n (g : Graph) : ℕ := g.Nodes.length

/-- `g.Nodes[i]`, modelled totally. -/
def Graph.nodeAt (g : Graph) (i : ℤ) : Node :=
  if 0 ≤ i then g.Nodes.getD i.toNat default else default

/-- go `pbf.go`: `AddNode` appends the node with its `ID` overwritten by the
current length of the node collection, appends fresh empty adjacency lists,
and returns the assigned id. -/
def Graph.AddNode (g : Graph) (nd : Node) : Graph × ℤ :=
  let id : ℤ := g.Nodes.length
  (⟨g.Nodes ++ [{ nd with ID := id }],
    g.IncomingEdges ++ [[]],
    g.OutgoingEdges ++ [[]]⟩, id)

/-- go `pbf.go`: `addOutgoingEdge(from, to, weight, metaData)` appends
`Edge{ID: to, ...}` to `OutgoingEdges[from]`. -/
def Graph.addOutgoingEdge (g : Graph) (frm toId : ℤ) (weight : ℚ)
    (metaData : MetaData) : Graph :=
  { g with OutgoingEdges :=
      g.OutgoingEdges.setIdx frm (g.OutgoingEdges.atIdx frm ++ [⟨toId, weight, metaData⟩]) }

/-- go `pbf.go`: `addIncomingEdge(from, to, weight, metaData)` appends
`Edge{ID: from, ...}` to `IncomingEdges[to]`. -/
def Graph.addIncomingEdge (g : Graph) (frm toId : ℤ) (weight : ℚ)
    (metaData : MetaData) : Graph :=
  { g with IncomingEdges :=
      g.IncomingEdges.setIdx toId (g.IncomingEdges.atIdx toId ++ [⟨frm, weight, metaData⟩]) }

/-- go `pbf.go`: `RelateNodes`, with the four writes of the `Bidirectional`
case and the two writes of each one-way case performed in source order. -/
def Graph.RelateNodes (g : Graph) (a b : Node) (weight : ℚ)
    (dir : EdgeDirection) (metaData : MetaData) : Graph :=
  match dir with
  | .Bidirectional =>
      ((((g.addOutgoingEdge a.ID b.ID weight metaData).addIncomingEdge
          b.ID a.ID weight metaData).addOutgoingEdge
          b.ID a.ID weight metaData).addIncomingEdge
          a.ID b.ID weight metaData)
  | .LeftToRight =>
      (g.addOutgoingEdge a.ID b.ID weight metaData).addIncomingEdge
        a.ID b.ID weight metaData
  | .RightToLeft =>
      (g.addOutgoingEdge b.ID a.ID weight metaData).addIncomingEdge
        b.ID a.ID weight metaData

/-! ## Binary min-heap (`dijkstra.go`, heap part)

The Go `Heap` keeps `size` equal to `len(items)` at all times (`Create` sets
both to zero, `Insert` increments both, `DeleteMin` decrements both, nothing
else writes them), so the model keeps only the item list. -/

/-- go: `HNode`. -/
structure HNode where
  Value : ℤ
  Cost : ℚ
  Depth : ℤ
  Previous : ℤ
  Dist : ℚ
  deriving DecidableEq, Inhabited, Repr

abbrev HNodes := List HNode

/-- go: `Heap`. -/
structure Heap where
  items : HNodes
  deriving DecidableEq, Inhabited, Repr

/-- go: `Create`. -/
def Create : Heap := ⟨[]⟩

/-- go: `parentIndex`.  Over `ℕ`, `(0-1)/2 = 0`, matching Go's truncated
`(-1)/2 = 0` at `i = 0`. -/
def parentIndex (i : ℕ) : ℕ := (i - 1) / 2

/-- go: `leftChildIndex`. -/
def leftChildIndex (i : ℕ) : ℕ := 2 * i + 1

/-- go: `rightChildIndex`. -/
def rightChildIndex (i : ℕ) : ℕ := 2 * i + 2

/-- `items[i]`, modelled totally (all accesses proved in range). -/
def nthH (l : HNodes) (i : ℕ) : HNode := l.getD i default

/-- The swap `temp := items[i]; items[i] = items[j]; items[j] = temp`. -/
def swapH (l : HNodes) (i j : ℕ) : HNodes := (l.set i (nthH l j)).set j (nthH l i)

/-- go: the `heapifyUp` loop, recursion on the current index.  At `i = 0` the
Go guard compares `items[0].Cost > items[0].Cost` (as `parentIndex 0 = 0`),
which is false and exits the loop; the `i = 0` case here is exactly that. -/
def heapifyUpAux (l : HNodes) (i : ℕ) : HNodes :=
  if _h : i = 0 then l
  else if (nthH l (parentIndex i)).Cost > (nthH l i).Cost then
    heapifyUpAux (swapH l i (parentIndex i)) (parentIndex i)
  else l
  termination_by i
  decreasing_by simp only [parentIndex]; omega

/-- go: `Insert` appends and sifts up from the last position. -/
def Heap.Insert (h : Heap) (n : HNode) : Heap :=
  ⟨heapifyUpAux (h.items ++ [n]) ((h.items ++ [n]).length - 1)⟩

/-- go: `IsEmpty`. -/
def Heap.IsEmpty (h : Heap) : Bool := h.items.length == 0

/-- go: `Min` returns the root, or `ErrHeapEmpty`; the error side is `none`. -/
def Heap.Min (h : Heap) : Option HNode :=
  if h.IsEmpty then none else some (nthH h.items 0)

/-- `min, _ := h.Min()`: callers that ignore the error observe the zero
`HNode` on an empty heap. -/
def minD (h : Heap) : HNode := h.Min.getD default

/-- The `smallerChildIndex` local variable of the `heapifyDown` loop body. -/
def smallerChildIndex (l : HNodes) (i : ℕ) : ℕ :=
  if rightChildIndex i < l.length ∧
      (nthH l (rightChildIndex i)).Cost < (nthH l (leftChildIndex i)).Cost then
    rightChildIndex i
  else leftChildIndex i

/-- go: the `heapifyDown` loop, recursion on the current index. -/
def heapifyDownAux (l : HNodes) (i : ℕ) : HNodes :=
  if _hl : leftChildIndex i < l.length then
    if (nthH l i).Cost < (nthH l (smallerChildIndex l i)).Cost then l
    else heapifyDownAux (swapH l i (smallerChildIndex l i)) (smallerChildIndex l i)
  else l
  termination_by l.length - i
  decreasing_by
    simp only [swapH, List.length_set, smallerChildIndex, leftChildIndex,
      rightChildIndex] at *
    split <;> omega

/-- go: `DeleteMin` moves the last item to the root, shrinks, and sifts down
(no-op with an error on an empty heap, error elided). -/
def Heap.DeleteMin (h : Heap) : Heap :=
  if h.IsEmpty then h
  else ⟨heapifyDownAux ((h.items.set 0 (nthH h.items (h.items.length - 1))).dropLast) 0⟩

/-! ## Bitset and cost map -/

/-- go `bitset`: a `big.Int` bitset, modelled by its characteristic function
(indices are never negative where the claims apply). -/
def Bitset := ℤ → Bool

/-- go: `NewBigInt`. -/
def NewBigInt : Bitset := fun _ => false

/-- go: `Bitset.Exists`. -/
def Bitset.Exists (b : Bitset) (i : ℤ) : Bool := b i

/-- go: `Bitset.Set`. -/
def Bitset.Set (b : Bitset) (i : ℤ) (value : Bool) : Bitset :=
  fun j => if j = i then value else b j

/-- go `dijkstra.go`: `Costs`, a Go map from node id to cost. -/
def Costs := ℤ → Option ℚ

/-- go: `GetCost` returns the stored cost with a nil error, or `INFINITE`
with the error `"path not found"` (`none` models the nil error). -/
def Costs.GetCost (costs : Costs) (id : ℤ) : ℚ × Option String :=
  match costs id with
  | some v => (v, none)
  | none => (INFINITE, some "path not found")

/-- A Go map read `costs[id]` yields the zero value `0` on a missing key. -/
def Costs.read0 (costs : Costs) (id : ℤ) : ℚ := (costs id).getD 0

/-- Insertion `costs[id] = v`. -/
def Costs.store (costs : Costs) (id : ℤ) (v : ℚ) : Costs :=
  fun j => if j = id then some v else costs j

/-! ## Dijkstra engine (`dijkstra.go`) -/

/-- go: `Criteria`. -/
structure Criteria where
  Source : List ℤ
  Targets : List ℤ
  deriving DecidableEq, Repr

/-- go: `Response`.  The `PathCost [150][150]` matrix field is never
populated by the algorithm and is omitted from the model. -/
structure Response where
  SearchSpace : Graph
  Costs : Costs

/-- go: `DijkstraSearch`. -/
structure DijkstraSearch where
  pq : Heap
  visited : Bitset
  previous : Graph
  costs : Costs
  sources : Bitset
  target : ℤ

/-- go: `NewDijkstra`. -/
def NewDijkstra (c : Criteria) : DijkstraSearch :=
  let target : ℤ := if 0 < c.Targets.length then c.Targets.headD (-1) else -1
  let search : DijkstraSearch :=
    ⟨Create, NewBigInt, EmptyGraph, fun _ => none, NewBigInt, target⟩
  c.Source.foldl (fun s v =>
    { s with
      costs := s.costs.store v 0
      pq := s.pq.Insert ⟨v, 0, 0, 0, 0⟩
      sources := s.sources.Set v true }) search

/-- go: `wasVisited`. -/
def DijkstraSearch.wasVisited (s : DijkstraSearch) (id : ℤ) : Bool :=
  s.visited.Exists id

/-- go: `isFinished`. -/
def DijkstraSearch.isFinished (s : DijkstraSearch) : Bool := s.pq.IsEmpty

/-- go: `reachTarget`. -/
def DijkstraSearch.reachTarget (s : DijkstraSearch) (currentValue : ℤ) : Bool :=
  s.target ≥ 0 && currentValue == s.target

/-- go: `addPrevious`: append a tree node of rank `min.Value`, and when the
entry's predecessor differs from the fresh tree id, record the tree edge
`RelateNodes(Node{ID: min.Previous}, Node{ID: currentID}, min.Cost,
LeftToRight, MetaData{Distance: min.Dist})`. -/
def DijkstraSearch.addPrevious (s : DijkstraSearch) : DijkstraSearch × ℤ :=
  let mn := minD s.pq
  let pr := s.previous.AddNode ⟨0, 0, mn.Value⟩
  let g2 :=
    if mn.Previous ≠ pr.2 then
      pr.1.RelateNodes ⟨mn.Previous, 0, 0⟩ ⟨pr.2, 0, 0⟩ mn.Cost .LeftToRight ⟨0, mn.Dist, ""⟩
    else pr.1
  ({ s with previous := g2 }, pr.2)

/-- go: `Relax`. -/
def DijkstraSearch.Relax (s : DijkstraSearch) (v : Node) (currentID : ℤ)
    (w distance : ℚ) : DijkstraSearch :=
  let mn := minD s.pq
  if ¬ s.wasVisited v.ID then
    let cost := s.costs.read0 mn.Value
    let currentPathValue := cost + w
    let currentDistancePathValue := cost + distance
    let edgeC := (s.costs.GetCost v.ID).1
    if currentPathValue < edgeC then
      { s with
        costs := s.costs.store v.ID currentPathValue
        pq := s.pq.Insert
          ⟨v.ID, currentPathValue, mn.Depth + 1, currentID, currentDistancePathValue⟩ }
    else s
  else s

/-- The edge loop of `Run`: `for _, e := range g.OutgoingEdges[min.Value] {
search.Relax(g.Nodes[e.ID], currentID, e.Weight, e.Metadata.Distance) }`. -/
def relaxEdges (g : Graph) (s : DijkstraSearch) (currentID : ℤ) (u : ℤ) :
    DijkstraSearch :=
  (g.OutgoingEdges.atIdx u).foldl
    (fun acc e => acc.Relax (g.nodeAt e.ID) currentID e.Weight e.Metadata.Distance) s

/-- go: the `Run` loop, with fuel for the iteration count and the input graph
threaded through as state (no statement of the loop writes to it).
`currentID` is the local variable of `Run`, initially `0`. -/
def runAux (fuel : ℕ) (s : DijkstraSearch) (g : Graph) (currentID : ℤ) :
    Option (Response × Graph) :=
  match fuel with
  | 0 => none
  | fuel + 1 =>
    if s.isFinished then some (⟨s.previous, s.costs⟩, g)
    else
      let mn := minD s.pq
      let p1 := if ¬ s.wasVisited mn.Value then s.addPrevious else (s, currentID)
      let s2 := { p1.1 with visited := p1.1.visited.Set mn.Value true }
      if s2.reachTarget mn.Value then some (⟨s2.previous, s2.costs⟩, g)
      else
        let s3 := relaxEdges g s2 p1.2 mn.Value
        runAux fuel { s3 with pq := s3.pq.DeleteMin } g p1.2

/-- go: `Run`, from the initial `currentID := 0`. -/
def DijkstraSearch.Run (s : DijkstraSearch) (g : Graph) (fuel : ℕ) :
    Option (Response × Graph) :=
  runAux fuel s g 0

/-! ## k-d tree (`kdtree.go`) -/

/-- go `vector.go`: `Vector`. -/
structure Vector where
  ID : ℤ
  Components : List ℚ
  deriving DecidableEq, Inhabited, Repr

/-- go `kdtree.go`: `node`, a tree node with optional children (`nil`
pointers become the `nil` constructor). -/
inductive KDNode where
  | nil
  | node (v : Vector) (l r : KDNode)
  deriving DecidableEq, Repr

/-- go: `KDTree`. -/
structure KDTree where
  root : KDNode
  deriving DecidableEq, Repr

/-- `v.Components[i]`, modelled totally (all accesses proved in range). -/
def compAt (v : Vector) (i : ℕ) : ℚ := v.Components.getD i 0

/-- go: `squaredDistance` sums `(u[i]-v[i])*(u[i]-v[i])` over the indices of
`u.Components` (Go panics when `v` is shorter; the claims keep lengths
equal, where `zipWith` coincides with the loop). -/
def squaredDistance (u v : Vector) : ℚ :=
  (List.zipWith (fun a b => (a - b) * (a - b)) u.Components v.Components).sum

/-- The comparator of `build`'s `sort.Slice` on one axis.  Go's sort
guarantees exactly that the result is a permutation that is non-decreasing
on the axis; `mergeSort` with this comparator is such a permutation, and
every proof below uses only those two properties. -/
def vecLE (axis : ℕ) (a b : Vector) : Bool := decide (compAt a axis ≤ compAt b axis)

/-- go: `build`: sort by the axis `depth % k`, split at the median. -/
def build (vectors : List Vector) (depth : ℕ) : KDNode :=
  match vectors with
  | [] => .nil
  | v0 :: rest =>
    let k := v0.Components.length
    let axis := depth % k
    let sorted := (v0 :: rest).mergeSort (vecLE axis)
    let medianIndex := sorted.length / 2
    .node (sorted.getD medianIndex default)
      (build (sorted.take medianIndex) (depth + 1))
      (build (sorted.drop (medianIndex + 1)) (depth + 1))
  termination_by vectors.length
  decreasing_by
    · simp only [sorted, List.length_mergeSort, List.length_take, List.length_cons]
      omega
    · simp only [sorted, List.length_mergeSort, List.length_drop, List.length_cons]
      omega

/-- go: `BuildKDTree`. -/
def BuildKDTree (vectors : List Vector) : KDTree := ⟨build vectors 0⟩

/-- `node != nil`. -/
def KDNode.isNil : KDNode → Bool
  | .nil => true
  | .node _ _ _ => false

/-- go: `rangeQuery`. -/
def rangeQuery (nd : KDNode) (center : Vector) (radius : ℚ) (depth : ℕ) :
    List Vector :=
  match nd with
  | .nil => []
  | .node v l r =>
    let k := v.Components.length
    let axis := depth % k
    let p0 : List Vector :=
      if squaredDistance v center ≤ radius * radius then [v] else []
    let p1 :=
      if ¬ l.isNil ∧ compAt center axis - radius ≤ compAt v axis then
        p0 ++ rangeQuery l center radius (depth + 1)
      else p0
    if ¬ r.isNil ∧ compAt center axis + radius ≥ compAt v axis then
      p1 ++ rangeQuery r center radius (depth + 1)
    else p1

/-- go: `RangeQuery`. -/
def KDTree.RangeQuery (t : KDTree) (center : Vector) (radius : ℚ) : List Vector :=
  rangeQuery t.root center radius 0

/-- go: `nearest`.  `best` is a node pointer of which only the stored vector
is ever consumed, modelled as `Option Vector`.  The Go pruning guard is
`math.Abs(d) < math.Sqrt(bestDist)`; for every `bestDist ≥ 0` this is
equivalent to `d*d < bestDist`, the form used here (for negative arguments
Go's `Sqrt` yields NaN and the comparison is false, as is this form). -/
def nearest (n : KDNode) (target : Vector) (depth : ℕ) (best : Option Vector)
    (bestDist : ℚ) : Option Vector × ℚ :=
  match n with
  | .nil => (best, bestDist)
  | .node v l r =>
    let k := target.Components.length
    let axis := depth % k
    let dist := squaredDistance v target
    let best1 : Option Vector := if dist < bestDist then some v else best
    let bestDist1 := if dist < bestDist then dist else bestDist
    let next := if compAt target axis < compAt v axis then l else r
    let other := if compAt target axis < compAt v axis then r else l
    let res := nearest next target (depth + 1) best1 bestDist1
    if (compAt v axis - compAt target axis) * (compAt v axis - compAt target axis)
        < res.2 then
      nearest other target (depth + 1) res.1 res.2
    else res
  termination_by n
  decreasing_by
    · split <;> (simp only [KDNode.node.sizeOf_spec]; omega)
    · split <;> (simp only [KDNode.node.sizeOf_spec]; omega)

/-- go: `FindNearest` returns `best.v` and the best (squared) distance;
dereferencing the nil `best` of an empty tree panics, modelled as `none`. -/
def KDTree.FindNearest (t : KDTree) (target : Vector) : Option (Vector × ℚ) :=
  match nearest t.root target 0 none maxFloat64 with
  | (some b, d) => some (b, d)
  | (none, _) => none

/-! ## Specification-side definitions -/

/-- The binary-heap order of the item array: every non-root item is at least
its parent. -/
def HeapProp (l : HNodes) : Prop :=
  ∀ j, 0 < j → j < l.length → (nthH l (parentIndex j)).Cost ≤ (nthH l j).Cost

/-- One public heap operation. -/
inductive HeapOp where
  | ins (n : HNode)
  | del
  deriving DecidableEq, Repr

/-- Apply a sequence of operations starting from `Create`. -/
def applyOps (ops : List HeapOp) : Heap :=
  ops.foldl (fun h o => match o with | .ins n => h.Insert n | .del => h.DeleteMin) Create

/-- The costs observed by repeatedly peeking `Min` and then calling
`DeleteMin`, `fuel` times or until the heap is empty. -/
def drainAux (fuel : ℕ) (h : Heap) : List ℚ :=
  match fuel with
  | 0 => []
  | fuel + 1 =>
    if h.IsEmpty then [] else (minD h).Cost :: drainAux fuel h.DeleteMin

/-- The mirror invariant of the two adjacency structures: an edge `a -> b`
recorded in `outgoing[a]` has a matching entry with source `a` in
`incoming[b]`, and vice versa. -/
def Mirror (g : Graph) : Prop :=
  ∀ a b : ℤ, ∀ w : ℚ, ∀ m : MetaData,
    ((⟨b, w, m⟩ : Edge) ∈ g.OutgoingEdges.atIdx a ↔
      (⟨a, w, m⟩ : Edge) ∈ g.IncomingEdges.atIdx b)

/-- A graph constructed by a sequence of `AddNode` calls. -/
def addNodes (ns : List Node) : Graph :=
  ns.foldl (fun g nd => (g.AddNode nd).1) EmptyGraph


/-- The points stored in a k-d subtree. -/
def KDNode.toList : KDNode → List Vector
  | .nil => []
  | .node v l r => v :: (l.toList ++ r.toList)

/-- The k-d search-tree invariant established by `build`: every stored point
has dimension `k`, and each node bounds its left (right) subtree from above
(below) on the axis of its depth. -/
def KDInv (k : ℕ) : KDNode → ℕ → Prop
  | .nil, _ => True
  | .node v l r, depth =>
      v.Components.length = k ∧
      (∀ p ∈ l.toList, compAt p (depth % k) ≤ compAt v (depth % k)) ∧
      (∀ p ∈ r.toList, compAt v (depth % k) ≤ compAt p (depth % k)) ∧
      KDInv k l (depth + 1) ∧ KDInv k r (depth + 1)

/-- The early-termination target of a `Criteria`: the first element of
`Targets`, or `-1` when there is none (as computed by `NewDijkstra`). -/
def Criteria.target (c : Criteria) : ℤ :=
  if 0 < c.Targets.length then c.Targets.headD (-1) else -1

/-- `PathCost g s v c l`: the node list `l` (endpoint first, source `s` last)
is a directed path from `s` to `v` in `g` whose edge weights sum to `c`. -/
inductive PathCost (g : Graph) (s : ℤ) : ℤ → ℚ → List ℤ → Prop where
  | nil : PathCost g s s 0 [s]
  | cons {v : ℤ} {c : ℚ} {l : List ℤ} {e : Edge} :
      PathCost g s v c l → e ∈ g.OutgoingEdges.atIdx v →
      PathCost g s e.ID (c + e.Weight) (e.ID :: l)

/-- `v` is reachable from one of the sources. -/
def ReachableFrom (g : Graph) (srcs : List ℤ) (v : ℤ) : Prop :=
  ∃ s ∈ srcs, ∃ c l, PathCost g s v c l

/-- `c` is the minimum over all sources of the minimal path cost to `v`. -/
def IsShortest (g : Graph) (srcs : List ℤ) (v : ℤ) (c : ℚ) : Prop :=
  (∃ s ∈ srcs, ∃ l, PathCost g s v c l) ∧
  ∀ s ∈ srcs, ∀ c' l', PathCost g s v c' l' → c ≤ c'

/-- Well-formedness of a graph as produced by `AddNode`/`RelateNodes` on
nodes of the graph: aligned collections, ids equal to positions, in-range
edge targets. -/
def Graph.WF (g : Graph) : Prop :=
  g.OutgoingEdges.length = g.n ∧ g.IncomingEdges.length = g.n ∧
  (∀ i, i < g.n → (g.Nodes.getD i default).ID = (i : ℤ)) ∧
  (∀ l ∈ g.OutgoingEdges, ∀ e ∈ l, 0 ≤ e.ID ∧ e.ID < (g.n : ℤ))

/-- All edge weights of the graph are non-negative. -/
def Graph.Nonneg (g : Graph) : Prop :=
  ∀ l ∈ g.OutgoingEdges, ∀ e ∈ l, 0 ≤ e.Weight

/-- The sum of all outgoing edge weights of the graph. -/
def totalWeight (g : Graph) : ℚ :=
  (g.OutgoingEdges.map (fun l => (l.map Edge.Weight).sum)).sum

/-- The sum of the outgoing edge weights of one node. -/
def sumOutAt (g : Graph) (v : ℤ) : ℚ :=
  ((g.OutgoingEdges.atIdx v).map Edge.Weight).sum

/-- A valid source list: non-empty, distinct, in-range ids. -/
def SourcesOK (g : Graph) (srcs : List ℤ) : Prop :=
  srcs ≠ [] ∧ srcs.Nodup ∧ ∀ s ∈ srcs, 0 ≤ s ∧ s < (g.n : ℤ)

/-- No iteration of `Run` can trigger the early-termination return: either no
non-negative target is configured, or the configured target is unreachable
(every processed frontier node is reachable). -/
def NoEarlyStop (g : Graph) (c : Criteria) : Prop :=
  c.target < 0 ∨ ¬ ReachableFrom g c.Source c.target

/-- The original-graph id stored in tree node `k` of the shortest-path tree. -/
def rankAt (t : Graph) (k : ℤ) : ℤ := (t.nodeAt k).Rank

/-- The state facts available at either exit of `Run` (they hold both when
the frontier is exhausted and at the early-termination return, which happens
before the final relaxation pass). -/
structure ExitInv (g : Graph) (srcs : List ℤ) (s : DijkstraSearch) : Prop where
  cost_path : ∀ v cv, s.costs v = some cv →
    (∃ sc ∈ srcs, ∃ l, PathCost g sc v cv l) ∧ 0 ≤ cv ∧ cv ≤ totalWeight g
  cost_src : ∀ v ∈ srcs, s.costs v = some 0
  cost_valid : ∀ v, (s.costs v).isSome = true → 0 ≤ v ∧ v < (g.n : ℤ)
  visited_cost : ∀ v, s.visited v = true →
    ∃ cv, s.costs v = some cv ∧ IsShortest g srcs v cv
  tree_ids : ∀ k, k < s.previous.Nodes.length →
    (s.previous.Nodes.getD k default).ID = (k : ℤ)
  tree_len_out : s.previous.OutgoingEdges.length = s.previous.Nodes.length
  tree_len_in : s.previous.IncomingEdges.length = s.previous.Nodes.length
  tree_rank_vis : ∀ k, k < s.previous.Nodes.length →
    s.visited (rankAt s.previous (k : ℤ)) = true
  vis_tree : ∀ v, s.visited v = true →
    ∃ k, k < s.previous.Nodes.length ∧ rankAt s.previous (k : ℤ) = v
  tree_edge : ∀ p : ℤ, 0 ≤ p → ∀ te ∈ s.previous.OutgoingEdges.atIdx p,
    p < (s.previous.Nodes.length : ℤ) ∧
    0 ≤ te.ID ∧ te.ID < (s.previous.Nodes.length : ℤ) ∧ te.ID ≠ p ∧
    (∃ cw, s.costs (rankAt s.previous te.ID) = some cw ∧ te.Weight = cw) ∧
    (⟨p, te.Weight, te.Metadata⟩ : Edge) ∈ s.previous.IncomingEdges.atIdx te.ID ∧
    ((p = 0 ∧ te.Weight = 0 ∧ te.Metadata = ⟨0, 0, ""⟩ ∧
        rankAt s.previous te.ID ∈ srcs) ∨
      (∃ ge cp, ge ∈ g.OutgoingEdges.atIdx (rankAt s.previous p) ∧
        ge.ID = rankAt s.previous te.ID ∧
        s.costs (rankAt s.previous p) = some cp ∧
        te.Weight = cp + ge.Weight ∧
        te.Metadata.Distance = cp + ge.Metadata.Distance))
  tree_in_edge : ∀ q : ℤ, 0 ≤ q → ∀ te ∈ s.previous.IncomingEdges.atIdx q,
    0 ≤ te.ID ∧
      (⟨q, te.Weight, te.Metadata⟩ : Edge) ∈ s.previous.OutgoingEdges.atIdx te.ID
  tree_src_edge : ∀ kk : ℤ, 0 < kk → kk < (s.previous.Nodes.length : ℤ) →
    rankAt s.previous kk ∈ srcs →
    (⟨kk, 0, ⟨0, 0, ""⟩⟩ : Edge) ∈ s.previous.OutgoingEdges.atIdx 0

/-- The full loop invariant of `Run`. -/
structure DInv (g : Graph) (srcs : List ℤ) (s : DijkstraSearch)
    extends ExitInv g srcs s : Prop where
  heap : HeapProp s.pq.items
  entry_path : ∀ e ∈ s.pq.items, ∃ sc ∈ srcs, ∃ l, PathCost g sc e.Value e.Cost l
  entry_cost : ∀ e ∈ s.pq.items, ∃ cv, s.costs e.Value = some cv ∧ cv ≤ e.Cost
  entry_src : ∀ e ∈ s.pq.items, e.Value ∈ srcs →
    e.Cost = 0 ∧ e.Previous = 0 ∧ e.Dist = 0
  entry_prov : ∀ e ∈ s.pq.items,
    (e.Previous = 0 ∧ e.Cost = 0 ∧ e.Dist = 0 ∧ e.Value ∈ srcs) ∨
    (∃ u cu ge, s.visited u = true ∧ s.costs u = some cu ∧
      ge ∈ g.OutgoingEdges.atIdx u ∧ ge.ID = e.Value ∧
      e.Cost = cu + ge.Weight ∧ e.Dist = cu + ge.Metadata.Distance ∧
      0 ≤ e.Previous ∧ e.Previous < (s.previous.Nodes.length : ℤ) ∧
      rankAt s.previous e.Previous = u)
  visited_relaxed : ∀ u cu, s.visited u = true → s.costs u = some cu →
    ∀ ge ∈ g.OutgoingEdges.atIdx u,
      ∃ cw, s.costs ge.ID = some cw ∧ cw ≤ cu + ge.Weight
  frontier : ∀ v cv, s.costs v = some cv → s.visited v = false →
    ∃ e ∈ s.pq.items, e.Value = v ∧ e.Cost = cv

/-- The state facts holding while the freshly finalized node `u` (popped as
heap entry `e0`, with final cost `cu`) has its out-edges relaxed: everything
of `DInv` except that only the other visited nodes are known to be fully
relaxed. -/
structure MidInv (g : Graph) (srcs : List ℤ) (u : ℤ) (cu : ℚ) (e0 : HNode)
    (s : DijkstraSearch) extends ExitInv g srcs s : Prop where
  heap : HeapProp s.pq.items
  pq_ne : s.pq.items ≠ []
  root_eq : nthH s.pq.items 0 = e0
  e0_val : e0.Value = u
  e0_cost : e0.Cost = cu
  u_vis : s.visited u = true
  u_cost : s.costs u = some cu
  u_short : IsShortest g srcs u cu
  entry_path : ∀ e ∈ s.pq.items, ∃ sc ∈ srcs, ∃ l, PathCost g sc e.Value e.Cost l
  entry_cost : ∀ e ∈ s.pq.items, ∃ cv, s.costs e.Value = some cv ∧ cv ≤ e.Cost
  entry_src : ∀ e ∈ s.pq.items, e.Value ∈ srcs →
    e.Cost = 0 ∧ e.Previous = 0 ∧ e.Dist = 0
  entry_prov : ∀ e ∈ s.pq.items,
    (e.Previous = 0 ∧ e.Cost = 0 ∧ e.Dist = 0 ∧ e.Value ∈ srcs) ∨
    (∃ u2 cu2 ge, s.visited u2 = true ∧ s.costs u2 = some cu2 ∧
      ge ∈ g.OutgoingEdges.atIdx u2 ∧ ge.ID = e.Value ∧
      e.Cost = cu2 + ge.Weight ∧ e.Dist = cu2 + ge.Metadata.Distance ∧
      0 ≤ e.Previous ∧ e.Previous < (s.previous.Nodes.length : ℤ) ∧
      rankAt s.previous e.Previous = u2)
  vrx : ∀ u2 cu2, s.visited u2 = true → u2 ≠ u → s.costs u2 = some cu2 →
    ∀ ge ∈ g.OutgoingEdges.atIdx u2,
      ∃ cw, s.costs ge.ID = some cw ∧ cw ≤ cu2 + ge.Weight
  frontier : ∀ v cv, s.costs v = some cv → s.visited v = false →
    ∃ e ∈ s.pq.items, e.Value = v ∧ e.Cost = cv

/-! ## Concrete graphs and runs used to check the claims on explicit inputs -/

/-- The empty response used as the default when destructuring a run result. -/
def emptyResp : Response := ⟨EmptyGraph, fun _ => none⟩

/-- Three nodes: edges `0 → 1` (weight 1), `0 → 2` (weight 5), `1 → 2`
(weight 1); the shortest `0 → 2` cost is 2 via node 1. -/
def cexGraph : Graph :=
  (((addNodes [⟨0, 0, 0⟩, ⟨0, 0, 0⟩, ⟨0, 0, 0⟩]).RelateNodes
      ⟨0, 0, 0⟩ ⟨1, 0, 0⟩ 1 .LeftToRight ⟨0, 0, ""⟩).RelateNodes
      ⟨0, 0, 0⟩ ⟨2, 0, 0⟩ 5 .LeftToRight ⟨0, 0, ""⟩).RelateNodes
      ⟨1, 0, 0⟩ ⟨2, 0, 0⟩ 1 .LeftToRight ⟨0, 0, ""⟩

/-- Source 0 with early-termination targets `[1, 2]`. -/
def cexCrit : Criteria := ⟨[0], [1, 2]⟩

/-- The response of the early-terminating run on `cexGraph`. -/
def cexResp : Response :=
  (((NewDijkstra cexCrit).Run cexGraph 10).getD (emptyResp, EmptyGraph)).1

/-- Source 0, no targets (the frontier is drained completely). -/
def okCrit : Criteria := ⟨[0], []⟩

/-- The response of the complete run on `cexGraph`. -/
def okResp : Response :=
  (((NewDijkstra okCrit).Run cexGraph 10).getD (emptyResp, EmptyGraph)).1

/-- Four nodes: chain `0 → 1 → 2` of weight 1 each, node 3 unreachable. -/
def chainGraph : Graph :=
  ((addNodes [⟨0, 0, 0⟩, ⟨0, 0, 0⟩, ⟨0, 0, 0⟩, ⟨0, 0, 0⟩]).RelateNodes
      ⟨0, 0, 0⟩ ⟨1, 0, 0⟩ 1 .LeftToRight ⟨0, 0, ""⟩).RelateNodes
      ⟨1, 0, 0⟩ ⟨2, 0, 0⟩ 1 .LeftToRight ⟨0, 0, ""⟩

/-- The response of the complete run on `chainGraph` from source 0. -/
def chainResp : Response :=
  (((NewDijkstra okCrit).Run chainGraph 10).getD (emptyResp, EmptyGraph)).1

/-- Two isolated nodes, both of which are sources. -/
def msGraph : Graph := addNodes [⟨0, 0, 0⟩, ⟨0, 0, 0⟩]

/-- The two-source criteria with no targets. -/
def msCrit : Criteria := ⟨[0, 1], []⟩

/-- The response of the run on `msGraph` from sources 0 and 1. -/
def msResp : Response :=
  (((NewDijkstra msCrit).Run msGraph 10).getD (emptyResp, EmptyGraph)).1

/-! # Theorems -/

/-! ## Index and swap lemmas -/

theorem parentIndex_lt {i : ℕ} (h : 0 < i) : parentIndex i < i := by
  simp only [parentIndex]; omega

theorem child_of_parentIndex {i j : ℕ} (hj : 0 < j) (h : parentIndex j = i) :
    j = leftChildIndex i ∨ j = rightChildIndex i := by
  simp only [parentIndex] at h
  simp only [leftChildIndex, rightChildIndex]
  omega

theorem nthH_eq_getElem (l : HNodes) (i : ℕ) (h : i < l.length) : nthH l i = l[i] := by
  simp [nthH, List.getD_eq_getElem?_getD, List.getElem?_eq_getElem h]

theorem nthH_mem {l : HNodes} {i : ℕ} (h : i < l.length) : nthH l i ∈ l := by
  rw [nthH_eq_getElem l i h]; exact List.getElem_mem h

theorem nthH_set_same {l : HNodes} {i : ℕ} (h : i < l.length) (x : HNode) :
    nthH (l.set i x) i = x := by
  simp [nthH, List.getD_eq_getElem?_getD, List.getElem?_set, h]

theorem nthH_set_other {l : HNodes} (i j : ℕ) (h : i ≠ j) (x : HNode) :
    nthH (l.set i x) j = nthH l j := by
  simp [nthH, List.getD_eq_getElem?_getD, List.getElem?_set, h]

theorem swapH_length (l : HNodes) (i j : ℕ) : (swapH l i j).length = l.length := by
  simp [swapH]

theorem nthH_swapH (l : HNodes) {i j : ℕ} (hi : i < l.length) (hj : j < l.length)
    (x : ℕ) :
    nthH (swapH l i j) x =
      if x = j then nthH l i else if x = i then nthH l j else nthH l x := by
  by_cases hxj : x = j
  · subst hxj
    simp only [swapH, if_pos rfl]
    exact nthH_set_same (by simpa using hj) _
  · by_cases hxi : x = i
    · subst hxi
      simp only [swapH, if_neg hxj, if_pos rfl]
      rw [nthH_set_other j x (fun hh => hxj hh.symm), nthH_set_same hi]
      simp
    · simp only [swapH, if_neg hxj, if_neg hxi]
      rw [nthH_set_other j x (fun hh => hxj hh.symm),
        nthH_set_other i x (fun hh => hxi hh.symm)]

theorem cons_set_perm {α : Type} (d a : α) :
    ∀ (t : List α) (k : ℕ), k < t.length → ((t.getD k d) :: t.set k a).Perm (a :: t) := by
  intro t
  induction t with
  | nil => intro k hk; simp at hk
  | cons b t' IH =>
    intro k hk
    match k with
    | 0 => simpa using List.Perm.swap a b t'
    | k' + 1 =>
      have h1 : (t'.getD k' d :: b :: t'.set k' a).Perm (b :: t'.getD k' d :: t'.set k' a) :=
        List.Perm.swap b (t'.getD k' d) _
      have h2 : (b :: t'.getD k' d :: t'.set k' a).Perm (b :: a :: t') :=
        (IH k' (by simpa using hk)).cons b
      have h3 : (b :: a :: t').Perm (a :: b :: t') := List.Perm.swap a b t'
      simpa using (h1.trans h2).trans h3

theorem swap_perm_le {α : Type} (d : α) :
    ∀ (l : List α) (i j : ℕ), i ≤ j → j < l.length →
      ((l.set i (l.getD j d)).set j (l.getD i d)).Perm l := by
  intro l
  induction l with
  | nil => intro i j _ hj; simp at hj
  | cons a t IH =>
    intro i j hij hj
    match i, j with
    | 0, 0 => simp
    | 0, k + 1 =>
      simp only [List.getD_cons_zero, List.getD_cons_succ, List.set_cons_zero,
        List.set_cons_succ]
      exact cons_set_perm d a t k (by simpa using hj)
    | m + 1, k + 1 =>
      simp only [List.getD_cons_succ, List.set_cons_succ]
      exact (IH m k (by omega) (by simpa using hj)).cons a

theorem swapH_perm (l : HNodes) {i j : ℕ} (hi : i < l.length) (hj : j < l.length) :
    (swapH l i j).Perm l := by
  rcases le_or_lt i j with h | h
  · exact swap_perm_le default l i j h hj
  · rw [swapH, List.set_comm _ _ _ (Nat.ne_of_gt h)]
    exact swap_perm_le default l j i h.le hi

/-! ## heapifyUp -/

theorem heapifyUpAux_length (l : HNodes) (i : ℕ) :
    (heapifyUpAux l i).length = l.length := by
  induction i using Nat.strong_induction_on generalizing l with
  | _ i IH =>
    rw [heapifyUpAux]
    by_cases h0 : i = 0
    · simp [h0]
    · simp only [dif_neg h0]
      split
      · rw [IH (parentIndex i) (parentIndex_lt (Nat.pos_of_ne_zero h0)), swapH_length]
      · rfl

theorem heapifyUpAux_perm (l : HNodes) (i : ℕ) (hi : i < l.length) :
    (heapifyUpAux l i).Perm l := by
  induction i using Nat.strong_induction_on generalizing l with
  | _ i IH =>
    rw [heapifyUpAux]
    by_cases h0 : i = 0
    · simp [h0]
    · simp only [dif_neg h0]
      split
      · have hp : parentIndex i < i := parentIndex_lt (Nat.pos_of_ne_zero h0)
        have hple : parentIndex i < l.length := hp.trans hi
        exact (IH (parentIndex i) hp _ (by rw [swapH_length]; exact hple)).trans
          (swapH_perm l hi hple)
      · exact List.Perm.refl l

theorem heapifyUpAux_heapProp (l : HNodes) (i : ℕ) (hi : i < l.length)
    (h1 : ∀ j, 0 < j → j < l.length → j ≠ i →
      (nthH l (parentIndex j)).Cost ≤ (nthH l j).Cost)
    (h2 : 0 < i → ∀ j, 0 < j → j < l.length → parentIndex j = i →
      (nthH l (parentIndex i)).Cost ≤ (nthH l j).Cost) :
    HeapProp (heapifyUpAux l i) := by
  induction i using Nat.strong_induction_on generalizing l with
  | _ i IH =>
    rw [heapifyUpAux]
    by_cases h0 : i = 0
    · subst h0
      simp only [dif_pos rfl]
      intro j hj hjl
      exact h1 j hj hjl (Nat.pos_iff_ne_zero.mp hj)
    · have hipos : 0 < i := Nat.pos_of_ne_zero h0
      have hp : parentIndex i < i := parentIndex_lt hipos
      have hple : parentIndex i < l.length := hp.trans hi
      simp only [dif_neg h0]
      split
      next hswap =>
        set p := parentIndex i with hpdef
        have hpi : p ≠ i := Nat.ne_of_lt hp
        have hkey : ∀ x, nthH (swapH l i p) x =
            if x = p then nthH l i else if x = i then nthH l p else nthH l x :=
          nthH_swapH l hi hple
        apply IH p hp _ (by rw [swapH_length]; exact hple)
        · -- h1 for the swapped list at moving index p
          intro j hj hjl hjp
          rw [swapH_length] at hjl
          rw [hkey j, hkey (parentIndex j)]
          by_cases hji : j = i
          · -- the repaired edge (p, i)
            subst hji
            rw [if_neg hjp, if_pos rfl, if_pos rfl]
            exact le_of_lt hswap
          · by_cases hpj : parentIndex j = i
            · -- children of i keep their (strengthened) bound
              have hji2 : j ≠ p := by
                intro hh; rw [hh] at hpj
                have := parentIndex_lt (show 0 < p by
                  cases Nat.eq_zero_or_pos p with
                  | inl hz => rw [hz] at hpj; simp [parentIndex] at hpj; omega
                  | inr hpos => exact hpos)
                omega
              rw [if_neg hji2, if_neg hji, hpj, if_neg hpi.symm, if_pos rfl]
              exact h2 hipos j hj hjl hpj
            · by_cases hpj2 : parentIndex j = p
              · -- siblings of i under p
                rw [if_neg hjp, if_neg hji, hpj2, if_pos rfl]
                have h4 := h1 j hj hjl hji
                rw [hpj2] at h4
                exact le_of_lt (lt_of_lt_of_le hswap h4)
              · -- untouched edges
                have hjip : parentIndex j ≠ i := hpj
                rw [if_neg hjp, if_neg hji, if_neg hpj2, if_neg hjip]
                exact h1 j hj hjl hji
        · -- h2 for the swapped list at moving index p
          intro hppos j hj hjl hpj
          rw [swapH_length] at hjl
          have hgp : parentIndex p < p := parentIndex_lt hppos
          have hgi : parentIndex p ≠ i := by omega
          have hgpne : parentIndex p ≠ p := Nat.ne_of_lt hgp
          rw [hkey j, hkey (parentIndex p), if_neg hgpne, if_neg hgi]
          have hjgt : p < j := by
            rcases child_of_parentIndex hj hpj with h | h <;>
              simp only [leftChildIndex, rightChildIndex] at h <;> omega
          have hjne_p : j ≠ p := Nat.ne_of_gt hjgt
          rw [if_neg hjne_p]
          by_cases hji : j = i
          · rw [if_pos hji]
            subst hji
            exact h1 p hppos hple hpi
          · rw [if_neg hji]
            have h4 := h1 j hj hjl hji
            rw [hpj] at h4
            exact (h1 p hppos hple hpi).trans h4
      next hnoswap =>
        intro j hj hjl
        by_cases hji : j = i
        · subst hji
          exact le_of_not_lt hnoswap
        · exact h1 j hj hjl hji

theorem heapifyUpAux_root_stable (l : HNodes) (i : ℕ) (hi : i < l.length)
    (h0 : 0 < i) (hroot : (nthH l 0).Cost ≤ (nthH l i).Cost) :
    nthH (heapifyUpAux l i) 0 = nthH l 0 := by
  induction i using Nat.strong_induction_on generalizing l with
  | _ i IH =>
    rw [heapifyUpAux]
    simp only [dif_neg (Nat.pos_iff_ne_zero.mp h0)]
    split
    next hswap =>
      set p := parentIndex i with hpdef
      have hp : p < i := parentIndex_lt h0
      have hple : p < l.length := hp.trans hi
      have hppos : 0 < p := by
        rcases Nat.eq_zero_or_pos p with hz | hz
        · exfalso
          rw [hz] at hswap
          exact absurd hswap (not_lt_of_le hroot)
        · exact hz
      have hkey : ∀ x, nthH (swapH l i p) x =
          if x = p then nthH l i else if x = i then nthH l p else nthH l x :=
        nthH_swapH l hi hple
      rw [IH p hp _ (by rw [swapH_length]; exact hple) hppos ?_]
      · rw [hkey 0, if_neg (Nat.pos_iff_ne_zero.mp hppos).symm ]
        rw [if_neg (by omega : (0:ℕ) ≠ i)]
      · rw [hkey 0, hkey p, if_pos rfl,
          if_neg (Nat.pos_iff_ne_zero.mp hppos).symm, if_neg (by omega : (0:ℕ) ≠ i)]
        exact hroot
    next => rfl

theorem Insert_length (h : Heap) (n : HNode) :
    (h.Insert n).items.length = h.items.length + 1 := by
  simp [Heap.Insert, heapifyUpAux_length]

theorem Insert_perm (h : Heap) (n : HNode) :
    (h.Insert n).items.Perm (n :: h.items) := by
  have h1 : (h.Insert n).items.Perm (h.items ++ [n]) := by
    apply heapifyUpAux_perm
    simp
  exact h1.trans (List.perm_append_singleton n h.items)

theorem Insert_heapProp (h : Heap) (n : HNode) (hp : HeapProp h.items) :
    HeapProp (h.Insert n).items := by
  apply heapifyUpAux_heapProp
  · simp
  · -- h1 : existing edges are undisturbed by the append
    intro j hj hjl hji
    simp only [List.length_append, List.length_cons, List.length_nil] at hjl hji
    have hjlt : j < h.items.length := by omega
    have hplt : parentIndex j < h.items.length := (parentIndex_lt hj).trans hjlt
    rw [nthH, nthH, List.getD_append _ _ _ _ hjlt, List.getD_append _ _ _ _ hplt]
    exact hp j hj hjlt
  · -- h2 : the appended position has no children
    intro hpos j hj hjl hpj
    exfalso
    have hlen : (h.items ++ [n]).length = h.items.length + 1 := by simp
    rw [hlen] at hjl hpj
    rcases child_of_parentIndex hj hpj with hc | hc <;>
      simp only [leftChildIndex, rightChildIndex] at hc <;> omega

/-! ## heapifyDown -/

theorem smallerChildIndex_gt (l : HNodes) (i : ℕ) : i < smallerChildIndex l i := by
  rw [smallerChildIndex]
  split <;> simp only [leftChildIndex, rightChildIndex] <;> omega

theorem smallerChildIndex_lt (l : HNodes) (i : ℕ) (hl : leftChildIndex i < l.length) :
    smallerChildIndex l i < l.length := by
  rw [smallerChildIndex]
  split
  · rename_i hcond; exact hcond.1
  · exact hl

theorem smallerChildIndex_parent (l : HNodes) (i : ℕ) :
    parentIndex (smallerChildIndex l i) = i := by
  rw [smallerChildIndex]
  split <;> simp only [parentIndex, leftChildIndex, rightChildIndex] <;> omega

theorem smallerChildIndex_le (l : HNodes) (i : ℕ) :
    ∀ j, 0 < j → j < l.length → parentIndex j = i →
      (nthH l (smallerChildIndex l i)).Cost ≤ (nthH l j).Cost := by
  intro j hj hjl hpj
  rcases child_of_parentIndex hj hpj with hc | hc
  · rw [smallerChildIndex]
    split
    · rename_i hcond
      rw [hc]; exact le_of_lt hcond.2
    · rw [hc]
  · rw [smallerChildIndex]
    split
    · rw [hc]
    · rename_i hcond
      rw [hc]
      rcases not_and_or.mp hcond with hout | hge
      · exact absurd (hc ▸ hjl) hout
      · exact le_of_not_lt hge

theorem heapifyDownAux_length (l0 : HNodes) (i0 : ℕ) :
    (heapifyDownAux l0 i0).length = l0.length := by
  suffices h : ∀ n (l : HNodes) (i : ℕ), l.length - i = n →
      (heapifyDownAux l i).length = l.length from h _ l0 i0 rfl
  intro n
  induction n using Nat.strong_induction_on with
  | _ n IH =>
    intro l i hn
    rw [heapifyDownAux]
    split
    next hl =>
      split
      · rfl
      · have hgt := smallerChildIndex_gt l i
        have hil : i < l.length := by
          simp only [leftChildIndex] at hl; omega
        rw [IH (l.length - smallerChildIndex l i) (by omega) _ _ (by rw [swapH_length]),
          swapH_length]
    · rfl

theorem heapifyDownAux_perm (l0 : HNodes) (i0 : ℕ) :
    (heapifyDownAux l0 i0).Perm l0 := by
  suffices h : ∀ n (l : HNodes) (i : ℕ), l.length - i = n →
      (heapifyDownAux l i).Perm l from h _ l0 i0 rfl
  intro n
  induction n using Nat.strong_induction_on with
  | _ n IH =>
    intro l i hn
    rw [heapifyDownAux]
    split
    next hl =>
      split
      · exact List.Perm.refl l
      · have hil : i < l.length := by
          simp only [leftChildIndex] at hl; omega
        have hgt := smallerChildIndex_gt l i
        have hsl := smallerChildIndex_lt l i hl
        exact (IH (l.length - smallerChildIndex l i) (by omega) _ _
          (by rw [swapH_length])).trans (swapH_perm l hil hsl)
    · exact List.Perm.refl l

theorem heapifyDownAux_heapProp (l0 : HNodes) (i0 : ℕ)
    (h01 : ∀ j, 0 < j → j < l0.length → parentIndex j ≠ i0 →
      (nthH l0 (parentIndex j)).Cost ≤ (nthH l0 j).Cost)
    (h02 : 0 < i0 → ∀ j, 0 < j → j < l0.length → parentIndex j = i0 →
      (nthH l0 (parentIndex i0)).Cost ≤ (nthH l0 j).Cost) :
    HeapProp (heapifyDownAux l0 i0) := by
  suffices h : ∀ n (l : HNodes) (i : ℕ), l.length - i = n →
      (∀ j, 0 < j → j < l.length → parentIndex j ≠ i →
        (nthH l (parentIndex j)).Cost ≤ (nthH l j).Cost) →
      (0 < i → ∀ j, 0 < j → j < l.length → parentIndex j = i →
        (nthH l (parentIndex i)).Cost ≤ (nthH l j).Cost) →
      HeapProp (heapifyDownAux l i) from h _ l0 i0 rfl h01 h02
  intro n
  induction n using Nat.strong_induction_on with
  | _ n IH =>
    intro l i hn h1 h2
    rw [heapifyDownAux]
    split
    next hl =>
      have hil : i < l.length := by simp only [leftChildIndex] at hl; omega
      have hsl := smallerChildIndex_lt l i hl
      have hsgt := smallerChildIndex_gt l i
      have hsparent := smallerChildIndex_parent l i
      have hsmaller := smallerChildIndex_le l i
      set s := smallerChildIndex l i with hsdef
      split
      next hstop =>
        -- the heap condition already holds at i
        intro j hj hjl
        by_cases hpji : parentIndex j = i
        · rw [hpji]
          exact (le_of_lt hstop).trans (hsmaller j hj hjl hpji)
        · exact h1 j hj hjl hpji
      next hcont =>
        have hkey : ∀ x, nthH (swapH l i s) x =
            if x = s then nthH l i else if x = i then nthH l s else nthH l x :=
          nthH_swapH l hil hsl
        have hsne : s ≠ i := Nat.ne_of_gt hsgt
        apply IH (l.length - s) (by omega) _ _ (by rw [swapH_length])
        · -- h1 for the swapped list at index s
          intro j hj hjl hjps
          rw [swapH_length] at hjl
          rw [hkey j, hkey (parentIndex j)]
          by_cases hjs : j = s
          · -- the repaired edge (i, s)
            subst hjs
            rw [if_pos rfl, hsparent, if_neg (Ne.symm hsne), if_pos rfl]
            exact le_of_not_lt hcont
          · by_cases hji : j = i
            · -- the edge from i's parent into i, now holding the smaller child
              subst hji
              have hpj_ne : parentIndex j ≠ j := Nat.ne_of_lt (parentIndex_lt hj)
              have hpj_ne_s : parentIndex j ≠ s := by
                have := parentIndex_lt hj; omega
              rw [if_neg hpj_ne_s, if_neg hpj_ne, if_neg (Ne.symm hsne), if_pos rfl]
              exact h2 hj s (by omega) hsl hsparent
            · by_cases hpji : parentIndex j = i
              · -- siblings of s under i
                rw [if_neg hjs, if_neg hji, hpji, if_neg (Ne.symm hsne), if_pos rfl]
                exact hsmaller j hj hjl hpji
              · -- untouched edges
                rw [if_neg hjs, if_neg hji, if_neg hjps, if_neg hpji]
                exact h1 j hj hjl hpji
        · -- h2 for the swapped list at index s
          intro _ j hj hjl hpjs
          rw [swapH_length] at hjl
          have hjgs : s < j := by
            rcases child_of_parentIndex hj hpjs with hc | hc <;>
              simp only [leftChildIndex, rightChildIndex] at hc <;> omega
          have hjne_s : j ≠ s := Nat.ne_of_gt hjgs
          have hjne_i : j ≠ i := by omega
          rw [hkey j, hkey (parentIndex s), hsparent, if_neg (Ne.symm hsne), if_pos rfl,
            if_neg hjne_s, if_neg hjne_i]
          have h4 := h1 j hj hjl (by rw [hpjs]; exact Nat.ne_of_gt hsgt)
          rw [hpjs] at h4
          exact h4
    next =>
      -- no left child: i is a leaf, the property is h1 alone
      rename_i hout
      intro j hj hjl
      apply h1 j hj hjl
      intro hpj
      rcases child_of_parentIndex hj hpj with hc | hc <;>
        simp only [leftChildIndex, rightChildIndex] at hc hout <;> omega

/-! ## Heap operations -/

theorem minD_eq (h : Heap) (hne : h.items ≠ []) : minD h = nthH h.items 0 := by
  have : h.IsEmpty = false := by
    simp [Heap.IsEmpty, List.length_eq_zero, hne]
  simp [minD, Heap.Min, this]

theorem Min_eq_some (h : Heap) (hne : h.items ≠ []) :
    h.Min = some (nthH h.items 0) := by
  have : h.IsEmpty = false := by
    simp [Heap.IsEmpty, List.length_eq_zero, hne]
  simp [Heap.Min, this]

theorem nthH_dropLast (l : HNodes) (x : ℕ) (hx : x < l.length - 1) :
    nthH l.dropLast x = nthH l x := by
  rw [nthH, nthH, List.getD_eq_getElem?_getD, List.getD_eq_getElem?_getD,
    List.getElem?_dropLast]
  rw [if_pos hx]

theorem DeleteMin_not_empty (h : Heap) (hne : h.items ≠ []) :
    h.DeleteMin = ⟨heapifyDownAux ((h.items.set 0
      (nthH h.items (h.items.length - 1))).dropLast) 0⟩ := by
  have : h.IsEmpty = false := by
    simp [Heap.IsEmpty, List.length_eq_zero, hne]
  simp [Heap.DeleteMin, this]

theorem DeleteMin_length (h : Heap) (hne : h.items ≠ []) :
    (h.DeleteMin).items.length = h.items.length - 1 := by
  rw [DeleteMin_not_empty h hne]
  simp [heapifyDownAux_length]

theorem set_last_dropLast_perm (a : HNode) (t : HNodes) :
    (a :: t).Perm (nthH (a :: t) 0 ::
      ((a :: t).set 0 (nthH (a :: t) ((a :: t).length - 1))).dropLast) := by
  rcases t.eq_nil_or_concat with rfl | ⟨t', b, rfl⟩
  · simp [nthH]
  · simp only [List.concat_eq_append]
    have hlast : nthH (a :: (t' ++ [b])) ((a :: (t' ++ [b])).length - 1) = b := by
      rw [nthH, List.getD_eq_getElem?_getD]
      simp
    have h0 : nthH (a :: (t' ++ [b])) 0 = a := by simp [nthH]
    have hset : ((a :: (t' ++ [b])).set 0 b) = b :: (t' ++ [b]) := by simp
    have hdl : (b :: (t' ++ [b])).dropLast = b :: t' := by
      rw [List.dropLast_cons_of_ne_nil (by simp), List.dropLast_concat]
    rw [hlast, h0, hset, hdl]
    -- a :: (t' ++ [b]) ~ a :: b :: t'
    have h1 : (t' ++ [b]).Perm (b :: t') :=
      List.perm_append_singleton b t'
    exact h1.cons a

theorem DeleteMin_perm (h : Heap) (hne : h.items ≠ []) :
    h.items.Perm (nthH h.items 0 :: (h.DeleteMin).items) := by
  rw [DeleteMin_not_empty h hne]
  obtain ⟨a, t, hcons⟩ : ∃ a t, h.items = a :: t := by
    cases hl : h.items with
    | nil => exact absurd hl hne
    | cons a t => exact ⟨a, t, rfl⟩
  rw [hcons]
  have hperm := heapifyDownAux_perm (((a :: t).set 0
    (nthH (a :: t) ((a :: t).length - 1))).dropLast) 0
  exact (set_last_dropLast_perm a t).trans ((hperm.cons (nthH (a :: t) 0)).symm)

theorem DeleteMin_heapProp (h : Heap) (hp : HeapProp h.items) :
    HeapProp (h.DeleteMin).items := by
  by_cases hne : h.items = []
  · have : h.IsEmpty = true := by simp [Heap.IsEmpty, hne]
    simpa [Heap.DeleteMin, this] using hp
  · rw [DeleteMin_not_empty h hne]
    apply heapifyDownAux_heapProp
    · -- away from the root nothing changed
      intro j hj hjl hpj
      have hjlen : j < h.items.length - 1 := by
        simpa using hjl
      have hppos : 0 < parentIndex j := Nat.pos_of_ne_zero hpj
      have hplt : parentIndex j < h.items.length - 1 := (parentIndex_lt hj).trans hjlen
      rw [nthH_dropLast _ _ (by simpa using hplt),
        nthH_dropLast _ _ (by simpa using hjlen),
        nthH_set_other 0 j (by omega), nthH_set_other 0 (parentIndex j) (by omega)]
      exact hp j hj (by omega)
    · intro h0; exact absurd h0 (lt_irrefl 0)

theorem root_min (l : HNodes) (hp : HeapProp l) :
    ∀ e ∈ l, (nthH l 0).Cost ≤ e.Cost := by
  have key : ∀ j, j < l.length → (nthH l 0).Cost ≤ (nthH l j).Cost := by
    intro j
    induction j using Nat.strong_induction_on with
    | _ j IH =>
      intro hjl
      rcases Nat.eq_zero_or_pos j with rfl | hj
      · exact le_refl _
      · have hpar := parentIndex_lt hj
        exact (IH (parentIndex j) hpar (hpar.trans hjl)).trans (hp j hj hjl)
  intro e he
  obtain ⟨j, hjl, rfl⟩ := List.mem_iff_getElem.mp he
  rw [← nthH_eq_getElem l j hjl]
  exact key j hjl

theorem Create_heapProp : HeapProp Create.items := by
  intro j hj hjl
  simp [Create] at hjl

theorem applyOps_heapProp (ops : List HeapOp) : HeapProp (applyOps ops).items := by
  suffices h : ∀ (h0 : Heap), HeapProp h0.items →
      HeapProp (ops.foldl (fun h o =>
        match o with | .ins n => h.Insert n | .del => h.DeleteMin) h0).items by
    exact h Create Create_heapProp
  induction ops with
  | nil => intro h0 hp; simpa using hp
  | cons o t IH =>
    intro h0 hp
    rcases o with n | _
    · exact IH _ (Insert_heapProp h0 n hp)
    · exact IH _ (DeleteMin_heapProp h0 hp)

/-- **C4.** For every heap obtained from `Create` by any finite sequence of
`Insert` and `DeleteMin` operations, repeatedly calling `Min` and then
`DeleteMin` (any number of times, in particular until the heap is empty)
yields entries whose `Cost` fields form a non-decreasing sequence. -/
theorem heap_drain_nondecreasing (ops : List HeapOp) (fuel : ℕ) :
    List.Chain' (fun a b => a ≤ b) (drainAux fuel (applyOps ops)) := by
  suffices key : ∀ (f : ℕ) (h : Heap), HeapProp h.items →
      List.Chain' (fun a b => a ≤ b) (drainAux f h) from
    key fuel (applyOps ops) (applyOps_heapProp ops)
  intro f
  induction f with
  | zero => intro h _; simp [drainAux]
  | succ f IH =>
    intro h hp
    rw [drainAux]
    by_cases hemp : h.IsEmpty
    · simp [hemp]
    · rw [if_neg hemp]
      have hne : h.items ≠ [] := by
        simpa [Heap.IsEmpty, List.length_eq_zero] using hemp
      refine List.chain'_cons'.mpr ⟨?_, IH h.DeleteMin (DeleteMin_heapProp h hp)⟩
      intro b hb
      -- b is the head of the next drain, i.e. the new root's cost
      rcases f with _ | f
      · simp [drainAux] at hb
      · rw [drainAux] at hb
        by_cases hemp2 : h.DeleteMin.IsEmpty
        · simp [hemp2] at hb
        · rw [if_neg hemp2] at hb
          simp only [List.head?_cons, Option.mem_def, Option.some.injEq] at hb
          subst hb
          have hne2 : h.DeleteMin.items ≠ [] := by
            simpa [Heap.IsEmpty, List.length_eq_zero] using hemp2
          rw [minD_eq h hne, minD_eq h.DeleteMin hne2]
          apply root_min h.items hp
          have hmem : nthH h.DeleteMin.items 0 ∈ h.DeleteMin.items :=
            nthH_mem (by rw [List.length_pos]; exact hne2)
          exact (DeleteMin_perm h hne).mem_iff.mpr (List.mem_cons_of_mem _ hmem)

/-! ## Graph construction: AddNode and RelateNodes -/

theorem Relations.length_setIdx (r : Relations) (i : ℤ) (l : List Edge) :
    (r.setIdx i l).length = r.length := by
  rw [Relations.setIdx]
  split <;> simp

theorem Relations.atIdx_setIdx_same (r : Relations) (i : ℤ) (l : List Edge)
    (h0 : 0 ≤ i) (hl : i.toNat < r.length) : (r.setIdx i l).atIdx i = l := by
  rw [Relations.setIdx, Relations.atIdx, if_pos h0, if_pos h0]
  simp [List.getD_eq_getElem?_getD, List.getElem?_set, hl]

theorem Relations.atIdx_setIdx_other (r : Relations) (i j : ℤ) (l : List Edge)
    (hne : j ≠ i) : (r.setIdx i l).atIdx j = r.atIdx j := by
  rw [Relations.setIdx, Relations.atIdx, Relations.atIdx]
  split
  next hi =>
    split
    next hj =>
      have : i.toNat ≠ j.toNat := fun hh => hne (by omega)
      simp [List.getD_eq_getElem?_getD, List.getElem?_set, this]
    next => rfl
  next => rfl

theorem mem_addOut_iff (g : Graph) (frm toId : ℤ) (w : ℚ) (m : MetaData)
    (h0 : 0 ≤ frm) (hl : frm.toNat < g.OutgoingEdges.length) (x : ℤ) (e : Edge) :
    e ∈ (g.addOutgoingEdge frm toId w m).OutgoingEdges.atIdx x ↔
      e ∈ g.OutgoingEdges.atIdx x ∨ (x = frm ∧ e = ⟨toId, w, m⟩) := by
  rw [Graph.addOutgoingEdge]
  by_cases hx : x = frm
  · subst hx
    rw [Relations.atIdx_setIdx_same _ _ _ h0 hl]
    simp
  · rw [Relations.atIdx_setIdx_other _ _ _ _ hx]
    simp [hx]

theorem mem_addIn_iff (g : Graph) (frm toId : ℤ) (w : ℚ) (m : MetaData)
    (h0 : 0 ≤ toId) (hl : toId.toNat < g.IncomingEdges.length) (x : ℤ) (e : Edge) :
    e ∈ (g.addIncomingEdge frm toId w m).IncomingEdges.atIdx x ↔
      e ∈ g.IncomingEdges.atIdx x ∨ (x = toId ∧ e = ⟨frm, w, m⟩) := by
  rw [Graph.addIncomingEdge]
  by_cases hx : x = toId
  · subst hx
    rw [Relations.atIdx_setIdx_same _ _ _ h0 hl]
    simp
  · rw [Relations.atIdx_setIdx_other _ _ _ _ hx]
    simp [hx]

theorem addOut_incoming (g : Graph) (frm toId : ℤ) (w : ℚ) (m : MetaData) :
    (g.addOutgoingEdge frm toId w m).IncomingEdges = g.IncomingEdges := rfl

theorem addIn_outgoing (g : Graph) (frm toId : ℤ) (w : ℚ) (m : MetaData) :
    (g.addIncomingEdge frm toId w m).OutgoingEdges = g.OutgoingEdges := rfl

theorem addOut_out_length (g : Graph) (frm toId : ℤ) (w : ℚ) (m : MetaData) :
    (g.addOutgoingEdge frm toId w m).OutgoingEdges.length = g.OutgoingEdges.length := by
  rw [Graph.addOutgoingEdge]
  exact Relations.length_setIdx _ _ _

theorem addIn_in_length (g : Graph) (frm toId : ℤ) (w : ℚ) (m : MetaData) :
    (g.addIncomingEdge frm toId w m).IncomingEdges.length = g.IncomingEdges.length := by
  rw [Graph.addIncomingEdge]
  exact Relations.length_setIdx _ _ _

theorem mem_relate_out_bid (g : Graph) (a b : Node) (w : ℚ) (m : MetaData)
    (ha0 : 0 ≤ a.ID) (hao : a.ID.toNat < g.OutgoingEdges.length)
    (hb0 : 0 ≤ b.ID) (hbo : b.ID.toNat < g.OutgoingEdges.length)
    (x : ℤ) (e : Edge) :
    e ∈ (g.RelateNodes a b w .Bidirectional m).OutgoingEdges.atIdx x ↔
      e ∈ g.OutgoingEdges.atIdx x ∨ (x = a.ID ∧ e = ⟨b.ID, w, m⟩) ∨
        (x = b.ID ∧ e = ⟨a.ID, w, m⟩) := by
  rw [Graph.RelateNodes, addIn_outgoing,
    mem_addOut_iff _ _ _ _ _ hb0
      (by rw [addIn_outgoing, addOut_out_length]; exact hbo),
    addIn_outgoing, mem_addOut_iff _ _ _ _ _ ha0 hao]
  tauto

theorem mem_relate_in_bid (g : Graph) (a b : Node) (w : ℚ) (m : MetaData)
    (ha0 : 0 ≤ a.ID) (hai : a.ID.toNat < g.IncomingEdges.length)
    (hb0 : 0 ≤ b.ID) (hbi : b.ID.toNat < g.IncomingEdges.length)
    (x : ℤ) (e : Edge) :
    e ∈ (g.RelateNodes a b w .Bidirectional m).IncomingEdges.atIdx x ↔
      e ∈ g.IncomingEdges.atIdx x ∨ (x = a.ID ∧ e = ⟨b.ID, w, m⟩) ∨
        (x = b.ID ∧ e = ⟨a.ID, w, m⟩) := by
  rw [Graph.RelateNodes,
    mem_addIn_iff _ _ _ _ _ hb0
      (by rw [addOut_incoming, addIn_in_length, addOut_incoming]; exact hbi),
    addOut_incoming,
    mem_addIn_iff _ _ _ _ _ ha0 (by rw [addOut_incoming]; exact hai),
    addOut_incoming]
  tauto

theorem mem_relate_out_ltr (g : Graph) (a b : Node) (w : ℚ) (m : MetaData)
    (ha0 : 0 ≤ a.ID) (hao : a.ID.toNat < g.OutgoingEdges.length)
    (x : ℤ) (e : Edge) :
    e ∈ (g.RelateNodes a b w .LeftToRight m).OutgoingEdges.atIdx x ↔
      e ∈ g.OutgoingEdges.atIdx x ∨ (x = a.ID ∧ e = ⟨b.ID, w, m⟩) := by
  rw [Graph.RelateNodes, addIn_outgoing, mem_addOut_iff _ _ _ _ _ ha0 hao]

theorem mem_relate_in_ltr (g : Graph) (a b : Node) (w : ℚ) (m : MetaData)
    (hb0 : 0 ≤ b.ID) (hbi : b.ID.toNat < g.IncomingEdges.length)
    (x : ℤ) (e : Edge) :
    e ∈ (g.RelateNodes a b w .LeftToRight m).IncomingEdges.atIdx x ↔
      e ∈ g.IncomingEdges.atIdx x ∨ (x = b.ID ∧ e = ⟨a.ID, w, m⟩) := by
  rw [Graph.RelateNodes,
    mem_addIn_iff _ _ _ _ _ hb0 (by rw [addOut_incoming]; exact hbi),
    addOut_incoming]

theorem mem_relate_out_rtl (g : Graph) (a b : Node) (w : ℚ) (m : MetaData)
    (hb0 : 0 ≤ b.ID) (hbo : b.ID.toNat < g.OutgoingEdges.length)
    (x : ℤ) (e : Edge) :
    e ∈ (g.RelateNodes a b w .RightToLeft m).OutgoingEdges.atIdx x ↔
      e ∈ g.OutgoingEdges.atIdx x ∨ (x = b.ID ∧ e = ⟨a.ID, w, m⟩) := by
  rw [Graph.RelateNodes, addIn_outgoing, mem_addOut_iff _ _ _ _ _ hb0 hbo]

theorem mem_relate_in_rtl (g : Graph) (a b : Node) (w : ℚ) (m : MetaData)
    (ha0 : 0 ≤ a.ID) (hai : a.ID.toNat < g.IncomingEdges.length)
    (x : ℤ) (e : Edge) :
    e ∈ (g.RelateNodes a b w .RightToLeft m).IncomingEdges.atIdx x ↔
      e ∈ g.IncomingEdges.atIdx x ∨ (x = a.ID ∧ e = ⟨b.ID, w, m⟩) := by
  rw [Graph.RelateNodes,
    mem_addIn_iff _ _ _ _ _ ha0 (by rw [addOut_incoming]; exact hai),
    addOut_incoming]

/-- **C5.** After `RelateNodes(a, b, w, Bidirectional, m)` on a graph
containing nodes `a` and `b`, `OutgoingEdges[a.ID]` has an edge to `b.ID`
with weight `w`, `IncomingEdges[b.ID]` an edge from `a.ID`, and symmetrically
for the `b -> a` direction; moreover every `RelateNodes` call in any
direction preserves the mirror invariant between the two adjacency
structures. -/
theorem relateNodes_bidirectional_and_mirror (g : Graph) (a b : Node)
    (w : ℚ) (m : MetaData)
    (ha0 : 0 ≤ a.ID) (hao : a.ID.toNat < g.OutgoingEdges.length)
    (hai : a.ID.toNat < g.IncomingEdges.length)
    (hb0 : 0 ≤ b.ID) (hbo : b.ID.toNat < g.OutgoingEdges.length)
    (hbi : b.ID.toNat < g.IncomingEdges.length) :
    ((⟨b.ID, w, m⟩ : Edge) ∈
        (g.RelateNodes a b w .Bidirectional m).OutgoingEdges.atIdx a.ID ∧
      (⟨a.ID, w, m⟩ : Edge) ∈
        (g.RelateNodes a b w .Bidirectional m).IncomingEdges.atIdx b.ID ∧
      (⟨a.ID, w, m⟩ : Edge) ∈
        (g.RelateNodes a b w .Bidirectional m).OutgoingEdges.atIdx b.ID ∧
      (⟨b.ID, w, m⟩ : Edge) ∈
        (g.RelateNodes a b w .Bidirectional m).IncomingEdges.atIdx a.ID) ∧
    (∀ dir : EdgeDirection, Mirror g → Mirror (g.RelateNodes a b w dir m)) := by
  refine ⟨⟨?_, ?_, ?_, ?_⟩, ?_⟩
  · rw [mem_relate_out_bid g a b w m ha0 hao hb0 hbo]
    exact Or.inr (Or.inl ⟨rfl, rfl⟩)
  · rw [mem_relate_in_bid g a b w m ha0 hai hb0 hbi]
    exact Or.inr (Or.inr ⟨rfl, rfl⟩)
  · rw [mem_relate_out_bid g a b w m ha0 hao hb0 hbo]
    exact Or.inr (Or.inr ⟨rfl, rfl⟩)
  · rw [mem_relate_in_bid g a b w m ha0 hai hb0 hbi]
    exact Or.inr (Or.inl ⟨rfl, rfl⟩)
  · intro dir hm x y w' m'
    have hmm := hm x y w' m'
    cases dir with
    | Bidirectional =>
      rw [mem_relate_out_bid g a b w m ha0 hao hb0 hbo,
        mem_relate_in_bid g a b w m ha0 hai hb0 hbi]
      simp only [Edge.mk.injEq]
      tauto
    | LeftToRight =>
      rw [mem_relate_out_ltr g a b w m ha0 hao,
        mem_relate_in_ltr g a b w m hb0 hbi]
      simp only [Edge.mk.injEq]
      tauto
    | RightToLeft =>
      rw [mem_relate_out_rtl g a b w m hb0 hbo,
        mem_relate_in_rtl g a b w m ha0 hai]
      simp only [Edge.mk.injEq]
      tauto

/-- Witness for C5 at a concrete two-node graph. -/
theorem relateNodes_bidirectional_and_mirror_witness :
    ((⟨1, 7, ⟨0, 0, ""⟩⟩ : Edge) ∈
        ((addNodes [default, default]).RelateNodes ⟨0, 0, 0⟩ ⟨1, 0, 0⟩ 7
          .Bidirectional ⟨0, 0, ""⟩).OutgoingEdges.atIdx 0 ∧
      (⟨0, 7, ⟨0, 0, ""⟩⟩ : Edge) ∈
        ((addNodes [default, default]).RelateNodes ⟨0, 0, 0⟩ ⟨1, 0, 0⟩ 7
          .Bidirectional ⟨0, 0, ""⟩).IncomingEdges.atIdx 1 ∧
      (⟨0, 7, ⟨0, 0, ""⟩⟩ : Edge) ∈
        ((addNodes [default, default]).RelateNodes ⟨0, 0, 0⟩ ⟨1, 0, 0⟩ 7
          .Bidirectional ⟨0, 0, ""⟩).OutgoingEdges.atIdx 1 ∧
      (⟨1, 7, ⟨0, 0, ""⟩⟩ : Edge) ∈
        ((addNodes [default, default]).RelateNodes ⟨0, 0, 0⟩ ⟨1, 0, 0⟩ 7
          .Bidirectional ⟨0, 0, ""⟩).IncomingEdges.atIdx 0) ∧
    (∀ dir : EdgeDirection, Mirror (addNodes [default, default]) →
      Mirror ((addNodes [default, default]).RelateNodes ⟨0, 0, 0⟩ ⟨1, 0, 0⟩ 7 dir
        ⟨0, 0, ""⟩)) :=
  relateNodes_bidirectional_and_mirror (addNodes [default, default])
    ⟨0, 0, 0⟩ ⟨1, 0, 0⟩ 7 ⟨0, 0, ""⟩
    (by decide) (by decide) (by decide) (by decide) (by decide) (by decide)
/-! ## C9: AddNode assigns dense sequential ids -/

theorem addNodes_aligned_ids (ns : List Node) :
    ∀ g : Graph,
      g.OutgoingEdges.length = g.Nodes.length →
      g.IncomingEdges.length = g.Nodes.length →
      (∀ i, i < g.Nodes.length → (g.Nodes.getD i default).ID = (i : ℤ)) →
      (ns.foldl (fun g nd => (g.AddNode nd).1) g).Nodes.length
          = g.Nodes.length + ns.length ∧
        (ns.foldl (fun g nd => (g.AddNode nd).1) g).OutgoingEdges.length
          = (ns.foldl (fun g nd => (g.AddNode nd).1) g).Nodes.length ∧
        (ns.foldl (fun g nd => (g.AddNode nd).1) g).IncomingEdges.length
          = (ns.foldl (fun g nd => (g.AddNode nd).1) g).Nodes.length ∧
        (∀ i, i < (ns.foldl (fun g nd => (g.AddNode nd).1) g).Nodes.length →
          ((ns.foldl (fun g nd => (g.AddNode nd).1) g).Nodes.getD i default).ID
            = (i : ℤ)) := by
  induction ns with
  | nil =>
    intro g ho hi hid
    exact ⟨by simp, by simpa using ho, by simpa using hi, by simpa using hid⟩
  | cons nd t IH =>
    intro g ho hi hid
    simp only [List.foldl_cons]
    have hstep := IH (g.AddNode nd).1
      (by simp [Graph.AddNode, ho]) (by simp [Graph.AddNode, hi]) ?_
    · refine ⟨?_, hstep.2.1, hstep.2.2.1, hstep.2.2.2⟩
      rw [hstep.1]
      simp [Graph.AddNode]
      omega
    · intro i hlen
      simp only [Graph.AddNode] at hlen ⊢
      simp only [List.length_append, List.length_cons, List.length_nil] at hlen
      rcases Nat.lt_or_ge i g.Nodes.length with hlt | hge
      · rw [List.getD_append _ _ _ _ hlt]
        exact hid i hlt
      · have hieq : i = g.Nodes.length := by omega
        subst hieq
        rw [List.getD_append_right _ _ _ _ (le_refl _), Nat.sub_self]
        rfl

/-- **C9.** A graph built by a sequence of `AddNode` calls stores at index `i`
a node whose `ID` is `i`: `AddNode` assigns the next sequential id starting at
0 (overwriting any supplied `ID`), returns that id, and keeps `Nodes`,
`OutgoingEdges` and `IncomingEdges` index-aligned with equal lengths. -/
theorem addNode_sequential_ids (ns : List Node) :
    ((addNodes ns).Nodes.length = ns.length ∧
      (addNodes ns).OutgoingEdges.length = (addNodes ns).Nodes.length ∧
      (addNodes ns).IncomingEdges.length = (addNodes ns).Nodes.length) ∧
    (∀ i, i < (addNodes ns).Nodes.length →
      ((addNodes ns).Nodes.getD i default).ID = (i : ℤ)) ∧
    (∀ (g : Graph) (nd : Node),
      (g.AddNode nd).2 = (g.Nodes.length : ℤ) ∧
      (g.AddNode nd).1.Nodes.getD g.Nodes.length default
        = { nd with ID := (g.Nodes.length : ℤ) }) := by
  have h := addNodes_aligned_ids ns EmptyGraph (by simp [EmptyGraph]) (by simp [EmptyGraph])
    (by intro i hi; simp [EmptyGraph] at hi)
  refine ⟨⟨?_, h.2.1, h.2.2.1⟩, h.2.2.2, ?_⟩
  · rw [addNodes]; rw [h.1]; simp [EmptyGraph]
  · intro g nd
    refine ⟨rfl, ?_⟩
    simp only [Graph.AddNode]
    rw [List.getD_append_right _ _ _ _ (le_refl _), Nat.sub_self]
    rfl

/-- Witness for C9 at a concrete two-node build with scrambled input ids. -/
theorem addNode_sequential_ids_witness :
    ((addNodes [⟨5, 0, 0⟩, ⟨-3, 1, 2⟩]).Nodes.getD 1 default).ID = ((1 : ℕ) : ℤ) :=
  (addNode_sequential_ids [⟨5, 0, 0⟩, ⟨-3, 1, 2⟩]).2.1 1 (by decide)

/-! ## k-d tree: build -/

theorem vecLE_trans (axis : ℕ) : ∀ a b c : Vector,
    vecLE axis a b = true → vecLE axis b c = true → vecLE axis a c = true := by
  intro a b c hab hbc
  simp only [vecLE, decide_eq_true_eq] at *
  exact hab.trans hbc

theorem vecLE_total (axis : ℕ) : ∀ a b : Vector,
    (vecLE axis a b || vecLE axis b a) = true := by
  intro a b
  simp only [vecLE, Bool.or_eq_true, decide_eq_true_eq]
  exact le_total _ _

theorem build_toList_perm (l0 : List Vector) (d0 : ℕ) :
    (build l0 d0).toList.Perm l0 := by
  suffices h : ∀ n (l : List Vector) (d : ℕ), l.length = n →
      (build l d).toList.Perm l from h _ l0 d0 rfl
  intro n
  induction n using Nat.strong_induction_on with
  | _ n IH =>
    intro l d hn
    match l with
    | [] => rw [build]; simp [KDNode.toList]
    | v0 :: rest =>
      rw [build]
      simp only [KDNode.toList]
      set axis := d % v0.Components.length with haxis
      set sorted := (v0 :: rest).mergeSort (vecLE axis) with hsorted
      have hslen : sorted.length = (v0 :: rest).length := List.length_mergeSort _
      have hmlt : sorted.length / 2 < sorted.length := by
        rw [hslen]; simp; omega
      have hperm : sorted.Perm (v0 :: rest) := List.mergeSort_perm _ _
      have htake : (build (sorted.take (sorted.length / 2)) (d + 1)).toList.Perm
          (sorted.take (sorted.length / 2)) := by
        apply IH (sorted.take (sorted.length / 2)).length _ _ _ rfl
        rw [List.length_take]
        omega
      have hdrop : (build (sorted.drop (sorted.length / 2 + 1)) (d + 1)).toList.Perm
          (sorted.drop (sorted.length / 2 + 1)) := by
        apply IH (sorted.drop (sorted.length / 2 + 1)).length _ _ _ rfl
        rw [List.length_drop]
        omega
      refine List.Perm.trans ?_ hperm
      have hsplit : sorted.Perm (sorted.getD (sorted.length / 2) default ::
          (sorted.take (sorted.length / 2) ++ sorted.drop (sorted.length / 2 + 1))) := by
        conv_lhs => rw [← List.take_append_drop (sorted.length / 2) sorted]
        rw [List.drop_eq_getElem_cons hmlt]
        rw [List.getD_eq_getElem?_getD, List.getElem?_eq_getElem hmlt]
        exact List.perm_middle
      exact (((htake.append hdrop).cons _).trans hsplit.symm)

theorem build_dims {k : ℕ} {l : List Vector} (hlen : ∀ p ∈ l, p.Components.length = k)
    (d : ℕ) : ∀ p ∈ (build l d).toList, p.Components.length = k := by
  intro p hp
  exact hlen p ((build_toList_perm l d).mem_iff.mp hp)

theorem sorted_mergeSort_axis (l : List Vector) (axis : ℕ) :
    List.Pairwise (fun a b => vecLE axis a b = true) (l.mergeSort (vecLE axis)) :=
  List.sorted_mergeSort (vecLE_trans axis) (vecLE_total axis) l

theorem build_KDInv (k : ℕ) (hk : 0 < k) (l0 : List Vector) (d0 : ℕ)
    (hlen0 : ∀ p ∈ l0, p.Components.length = k) : KDInv k (build l0 d0) d0 := by
  suffices h : ∀ n (l : List Vector) (d : ℕ), l.length = n →
      (∀ p ∈ l, p.Components.length = k) → KDInv k (build l d) d from
    h _ l0 d0 rfl hlen0
  intro n
  induction n using Nat.strong_induction_on with
  | _ n IH =>
    intro l d hn hlen
    match l with
    | [] => rw [build]; trivial
    | v0 :: rest =>
      rw [build]
      have hk0 : v0.Components.length = k := hlen v0 (by simp)
      set axis := d % v0.Components.length with haxis
      have haxisk : axis = d % k := by rw [haxis, hk0]
      set sorted := (v0 :: rest).mergeSort (vecLE axis) with hsorted
      have hslen : sorted.length = (v0 :: rest).length := List.length_mergeSort _
      have hperm : sorted.Perm (v0 :: rest) := List.mergeSort_perm _ _
      have hlens : ∀ p ∈ sorted, p.Components.length = k := fun p hp =>
        hlen p (hperm.mem_iff.mp hp)
      have hmlt : sorted.length / 2 < sorted.length := by
        rw [hslen]; simp; omega
      have hpair := sorted_mergeSort_axis (v0 :: rest) axis
      rw [← hsorted] at hpair
      have hpairwise := List.pairwise_iff_getElem.mp hpair
      have hmedian : sorted.getD (sorted.length / 2) default = sorted[sorted.length / 2] := by
        rw [List.getD_eq_getElem?_getD, List.getElem?_eq_getElem hmlt]
        rfl
      constructor
      · -- the median has dimension k
        rw [hmedian]
        exact hlens _ (List.getElem_mem hmlt)
      refine ⟨?_, ?_, ?_, ?_⟩
      · -- left subtree is bounded above by the median on the axis
        intro p hp
        have hp2 := (build_toList_perm _ _).mem_iff.mp hp
        obtain ⟨i, hi, rfl⟩ := List.mem_iff_getElem.mp hp2
        rw [List.length_take] at hi
        have hil : i < sorted.length / 2 := by omega
        rw [List.getElem_take]
        rw [hmedian, ← haxisk]
        have := hpairwise i (sorted.length / 2) (by omega) hmlt hil
        simpa [vecLE, decide_eq_true_eq] using this
      · -- right subtree is bounded below by the median on the axis
        intro p hp
        have hp2 := (build_toList_perm _ _).mem_iff.mp hp
        obtain ⟨i, hi, rfl⟩ := List.mem_iff_getElem.mp hp2
        rw [List.length_drop] at hi
        rw [List.getElem_drop]
        rw [hmedian, ← haxisk]
        have := hpairwise (sorted.length / 2) (sorted.length / 2 + 1 + i)
          (by omega) (by omega) (by omega)
        simpa [vecLE, decide_eq_true_eq] using this
      · -- left subtree invariant
        apply IH (sorted.take (sorted.length / 2)).length ?_ _ _ rfl
        · intro p hp
          exact hlens p (List.mem_of_mem_take hp)
        · rw [List.length_take]; omega
      · -- right subtree invariant
        apply IH (sorted.drop (sorted.length / 2 + 1)).length ?_ _ _ rfl
        · intro p hp
          exact hlens p (List.mem_of_mem_drop hp)
        · rw [List.length_drop]; omega

/-! ## k-d tree: squared distance -/

theorem zip_sq_nonneg : ∀ (as bs : List ℚ),
    ∀ x ∈ List.zipWith (fun a b => (a - b) * (a - b)) as bs, 0 ≤ x := by
  intro as
  induction as with
  | nil => intro bs x hx; simp at hx
  | cons a t IH =>
    intro bs x hx
    cases bs with
    | nil => simp at hx
    | cons b tb =>
      simp only [List.zipWith_cons_cons, List.mem_cons] at hx
      rcases hx with rfl | hx
      · exact mul_self_nonneg _
      · exact IH tb x hx

theorem squaredDistance_nonneg (u v : Vector) : 0 ≤ squaredDistance u v :=
  List.sum_nonneg (zip_sq_nonneg u.Components v.Components)

theorem term_le_squaredDistance (u v : Vector) (i : ℕ)
    (hlen : u.Components.length = v.Components.length)
    (hi : i < u.Components.length) :
    (compAt u i - compAt v i) * (compAt u i - compAt v i) ≤ squaredDistance u v := by
  have hiz : i < (List.zipWith (fun a b => (a - b) * (a - b))
      u.Components v.Components).length := by
    rw [List.length_zipWith]
    omega
  have hterm : (List.zipWith (fun a b => (a - b) * (a - b))
      u.Components v.Components)[i] =
      (compAt u i - compAt v i) * (compAt u i - compAt v i) := by
    rw [List.getElem_zipWith]
    rw [compAt, compAt, List.getD_eq_getElem?_getD, List.getD_eq_getElem?_getD,
      List.getElem?_eq_getElem hi, List.getElem?_eq_getElem (by omega)]
    rfl
  rw [← hterm]
  apply List.single_le_sum (zip_sq_nonneg u.Components v.Components)
  exact List.getElem_mem hiz

theorem squaredDistance_eq_zero_of_comps (u v : Vector)
    (h : u.Components = v.Components) : squaredDistance u v = 0 := by
  rw [squaredDistance, h]
  have : ∀ l : List ℚ, (List.zipWith (fun a b => (a - b) * (a - b)) l l).sum = 0 := by
    intro l
    induction l with
    | nil => simp
    | cons a t IH => simp [IH]
  exact this _

theorem comps_eq_of_squaredDistance_eq_zero (u v : Vector)
    (hlen : u.Components.length = v.Components.length)
    (h : squaredDistance u v = 0) : u.Components = v.Components := by
  apply List.ext_getElem hlen
  intro i h1 h2
  by_contra hne
  have hterm := term_le_squaredDistance u v i hlen h1
  have hc : compAt u i = u.Components[i] := by
    rw [compAt, List.getD_eq_getElem?_getD, List.getElem?_eq_getElem h1]; rfl
  have hc2 : compAt v i = v.Components[i] := by
    rw [compAt, List.getD_eq_getElem?_getD, List.getElem?_eq_getElem h2]; rfl
  rw [hc, hc2] at hterm
  have hpos : 0 < (u.Components[i] - v.Components[i]) * (u.Components[i] - v.Components[i]) := by
    apply mul_self_pos.mpr
    intro hz
    exact hne (by linarith [sub_eq_zero.mp hz])
  rw [h] at hterm
  linarith

theorem abs_bound_of_sq_le (x r : ℚ) (h : x * x ≤ r * r) (hr : 0 ≤ r) :
    -r ≤ x ∧ x ≤ r := by
  constructor <;> nlinarith [sq_nonneg (x - r), sq_nonneg (x + r)]

/-! ## k-d tree: range query -/

theorem KDNode.not_isNil_of_mem {t : KDNode} {p : Vector} (hp : p ∈ t.toList) :
    t.isNil = false := by
  cases t with
  | nil => simp [KDNode.toList] at hp
  | node v l r => rfl

theorem rangeQuery_sound (t : KDNode) (center : Vector) (radius : ℚ) (d : ℕ)
    (p : Vector) (hp : p ∈ rangeQuery t center radius d) :
    p ∈ t.toList ∧ squaredDistance p center ≤ radius * radius := by
  induction t generalizing d with
  | nil => simp [rangeQuery] at hp
  | node v l r IHl IHr =>
    simp only [rangeQuery] at hp
    have hnode : p ∈ (if squaredDistance v center ≤ radius * radius
        then [v] else []) → p ∈ KDNode.toList (.node v l r) ∧
          squaredDistance p center ≤ radius * radius := by
      intro hq
      split at hq
      · rename_i hdd
        rw [List.mem_singleton] at hq
        subst hq
        exact ⟨by simp [KDNode.toList], hdd⟩
      · simp at hq
    have hL : p ∈ rangeQuery l center radius (d + 1) →
        p ∈ KDNode.toList (.node v l r) ∧
          squaredDistance p center ≤ radius * radius := by
      intro h2
      have h3 := IHl (d + 1) h2
      refine ⟨?_, h3.2⟩
      simp only [KDNode.toList, List.mem_cons, List.mem_append]
      tauto
    have hR : p ∈ rangeQuery r center radius (d + 1) →
        p ∈ KDNode.toList (.node v l r) ∧
          squaredDistance p center ≤ radius * radius := by
      intro h2
      have h3 := IHr (d + 1) h2
      refine ⟨?_, h3.2⟩
      simp only [KDNode.toList, List.mem_cons, List.mem_append]
      tauto
    split at hp
    · rcases List.mem_append.mp hp with hp | hp
      · split at hp
        · rcases List.mem_append.mp hp with hp | hp
          · exact hnode hp
          · exact hL hp
        · exact hnode hp
      · exact hR hp
    · split at hp
      · rcases List.mem_append.mp hp with hp | hp
        · exact hnode hp
        · exact hL hp
      · exact hnode hp

theorem mem_if_append_left {c : Prop} [Decidable c] {q : Vector} {l1 l2 : List Vector}
    (h : q ∈ l1) : q ∈ (if c then l1 ++ l2 else l1) := by
  split
  · exact List.mem_append_left _ h
  · exact h

theorem mem_if_append_right {c : Prop} [Decidable c] {q : Vector} {l1 l2 : List Vector}
    (hc : c) (h : q ∈ l2) : q ∈ (if c then l1 ++ l2 else l1) := by
  rw [if_pos hc]
  exact List.mem_append_right _ h

theorem rangeQuery_complete (k : ℕ) (hk : 0 < k) (t : KDNode) (center : Vector)
    (radius : ℚ) (d : ℕ) (hinv : KDInv k t d) (hc : center.Components.length = k)
    (hr : 0 ≤ radius) (hdims : ∀ q ∈ t.toList, q.Components.length = k)
    (p : Vector) (hp : p ∈ t.toList)
    (hd : squaredDistance p center ≤ radius * radius) :
    p ∈ rangeQuery t center radius d := by
  induction t generalizing d with
  | nil => simp [KDNode.toList] at hp
  | node v l r IHl IHr =>
    obtain ⟨hvk, hlb, hrb, hinvl, hinvr⟩ := hinv
    simp only [rangeQuery]
    have haxis : d % v.Components.length = d % k := by rw [hvk]
    rw [haxis]
    have hax_lt : d % k < k := Nat.mod_lt d hk
    simp only [KDNode.toList, List.mem_cons, List.mem_append] at hp
    rcases hp with rfl | hp | hp
    · -- the point is the node itself
      apply mem_if_append_left
      apply mem_if_append_left
      rw [if_pos hd]
      simp
    · -- the point lies in the left subtree
      have hpk : p.Components.length = k := hdims p (by simp [KDNode.toList]; tauto)
      have hterm := term_le_squaredDistance p center (d % k)
        (by rw [hpk, hc]) (by omega)
      have habs := abs_bound_of_sq_le _ radius (hterm.trans hd) hr
      have hbound : compAt center (d % k) - radius ≤ compAt v (d % k) := by
        have h1 : compAt center (d % k) - radius ≤ compAt p (d % k) := by
          linarith [habs.1]
        exact h1.trans (hlb p hp)
      apply mem_if_append_left
      apply mem_if_append_right
      · constructor
        · simp [KDNode.not_isNil_of_mem hp]
        · exact hbound
      · exact IHl (d + 1) hinvl (fun q hq => hdims q (by simp [KDNode.toList]; tauto)) hp
    · -- the point lies in the right subtree
      have hpk : p.Components.length = k := hdims p (by simp [KDNode.toList]; tauto)
      have hterm := term_le_squaredDistance p center (d % k)
        (by rw [hpk, hc]) (by omega)
      have habs := abs_bound_of_sq_le _ radius (hterm.trans hd) hr
      have hbound : compAt center (d % k) + radius ≥ compAt v (d % k) := by
        have h1 : compAt p (d % k) ≤ compAt center (d % k) + radius := by
          linarith [habs.2]
        exact (hrb p hp).trans h1
      apply mem_if_append_right
      · constructor
        · simp [KDNode.not_isNil_of_mem hp]
        · exact hbound
      · exact IHr (d + 1) hinvr (fun q hq => hdims q (by simp [KDNode.toList]; tauto)) hp

/-! ## C2: range query membership -/

/-- **C2 counterexample.** The claim quantifies over *any* radius.  For the
one-point set `{(0)}`, center `(0)` shifted to `(1, [0])`'s components and
radius `-1`, the stored point is returned by `RangeQuery` (its squared
distance `0` satisfies `0 ≤ (-1)·(-1)`), yet its Euclidean distance `0` is
not `≤ -1`.  So "p is in the result iff distance(p, center) ≤ radius" fails
for negative radii. -/
theorem rangeQuery_negative_radius_counterexample :
    (⟨0, [0]⟩ : Vector) ∈ (BuildKDTree [⟨0, [0]⟩]).RangeQuery ⟨1, [0]⟩ (-1) ∧
    ¬ (Real.sqrt ((squaredDistance (⟨0, [0]⟩ : Vector) (⟨1, [0]⟩ : Vector) : ℚ) : ℝ)
        ≤ (((-1 : ℚ) : ℝ))) := by
  constructor
  · with_unfolding_all decide
  · have h0 : squaredDistance (⟨0, [0]⟩ : Vector) (⟨1, [0]⟩ : Vector) = 0 := by
      with_unfolding_all decide
    rw [h0]
    push_cast
    rw [Real.sqrt_zero]
    norm_num

/-- **C2 (amended).** For every k-d tree built by `BuildKDTree` from points of
equal (positive) dimensionality, every center of that dimensionality and
every *non-negative* radius, a point `p` is in `RangeQuery(center, radius)`
iff `p` is one of the stored points and its Euclidean distance to the center
is at most the radius.  (The counterexample above forces restricting the
claim's "any radius" to `radius ≥ 0`.) -/
theorem rangeQuery_mem_iff (pts : List Vector) (center : Vector) (radius : ℚ)
    (k : ℕ) (hk : 0 < k) (hlen : ∀ p ∈ pts, p.Components.length = k)
    (hc : center.Components.length = k) (hr : 0 ≤ radius) (p : Vector) :
    p ∈ (BuildKDTree pts).RangeQuery center radius ↔
      p ∈ pts ∧
        Real.sqrt ((squaredDistance p center : ℚ) : ℝ) ≤ ((radius : ℚ) : ℝ) := by
  have hrR : (0 : ℝ) ≤ ((radius : ℚ) : ℝ) := by exact_mod_cast hr
  rw [KDTree.RangeQuery, BuildKDTree]
  constructor
  · intro hp
    have hs := rangeQuery_sound _ center radius 0 p hp
    refine ⟨(build_toList_perm pts 0).mem_iff.mp hs.1, ?_⟩
    rw [Real.sqrt_le_left hrR]
    have hq : squaredDistance p center ≤ radius ^ 2 := by
      rw [pow_two]; exact hs.2
    exact_mod_cast hq
  · rintro ⟨hmem, hdist⟩
    rw [Real.sqrt_le_left hrR] at hdist
    have hd : squaredDistance p center ≤ radius * radius := by
      rw [← pow_two]
      exact_mod_cast hdist
    exact rangeQuery_complete k hk _ center radius 0 (build_KDInv k hk pts 0 hlen)
      hc hr (build_dims hlen 0) p ((build_toList_perm pts 0).mem_iff.mpr hmem) hd

/-- Witness for the amended C2 at a concrete two-point set. -/
theorem rangeQuery_mem_iff_witness :
    (⟨1, [3]⟩ : Vector) ∈ (BuildKDTree [⟨0, [0]⟩, ⟨1, [3]⟩]).RangeQuery ⟨2, [1]⟩ 2 ↔
      (⟨1, [3]⟩ : Vector) ∈ [(⟨0, [0]⟩ : Vector), ⟨1, [3]⟩] ∧
        Real.sqrt ((squaredDistance (⟨1, [3]⟩ : Vector) (⟨2, [1]⟩ : Vector) : ℚ) : ℝ)
          ≤ (((2 : ℚ)) : ℝ) :=
  rangeQuery_mem_iff [⟨0, [0]⟩, ⟨1, [3]⟩] ⟨2, [1]⟩ 2 1 (by decide) (by decide)
    (by decide) (by with_unfolding_all decide) ⟨1, [3]⟩

/-! ## k-d tree: nearest neighbour -/

theorem nearest_basic (t : KDNode) (target : Vector) :
    ∀ (depth : ℕ) (best : Option Vector) (bestDist : ℚ),
      (nearest t target depth best bestDist).2 ≤ bestDist ∧
      (0 ≤ bestDist → 0 ≤ (nearest t target depth best bestDist).2) ∧
      (nearest t target depth best bestDist = (best, bestDist) ∨
        ∃ w ∈ t.toList, (nearest t target depth best bestDist).1 = some w ∧
          (nearest t target depth best bestDist).2 = squaredDistance w target) := by
  induction t with
  | nil =>
    intro depth best bestDist
    rw [nearest]
    exact ⟨le_refl _, fun h => h, Or.inl rfl⟩
  | node v l r IHl IHr =>
    intro depth best bestDist
    rw [nearest]
    have hmemv : v ∈ KDNode.toList (.node v l r) := by simp [KDNode.toList]
    have hmeml : ∀ w ∈ l.toList, w ∈ KDNode.toList (.node v l r) := by
      intro w hw; simp [KDNode.toList]; tauto
    have hmemr : ∀ w ∈ r.toList, w ∈ KDNode.toList (.node v l r) := by
      intro w hw; simp [KDNode.toList]; tauto
    by_cases hdir : compAt target (depth % target.Components.length) <
        compAt v (depth % target.Components.length)
    · simp only [if_pos hdir]
      by_cases h1 : squaredDistance v target < bestDist
      · simp only [if_pos h1]
        obtain ⟨hle1, hnn1, hprov1⟩ := IHl (depth + 1) (some v) (squaredDistance v target)
        split
        next hgo =>
          obtain ⟨hle2, hnn2, hprov2⟩ := IHr (depth + 1)
            (nearest l target (depth + 1) (some v) (squaredDistance v target)).1
            (nearest l target (depth + 1) (some v) (squaredDistance v target)).2
          refine ⟨hle2.trans (hle1.trans (le_of_lt h1)), ?_, ?_⟩
          · intro _
            exact hnn2 (hnn1 (squaredDistance_nonneg v target))
          · rcases hprov2 with heq | ⟨w, hw, hw1, hw2⟩
            · rcases hprov1 with heq1 | ⟨w, hw, hw1, hw2⟩
              · rw [heq, heq1]
                exact Or.inr ⟨v, hmemv, rfl, rfl⟩
              · refine Or.inr ⟨w, hmeml w hw, ?_, ?_⟩
                · rw [heq, ← hw1]
                · rw [heq, ← hw2]
            · exact Or.inr ⟨w, hmemr w hw, hw1, hw2⟩
        next hstay =>
          refine ⟨hle1.trans (le_of_lt h1), fun _ => hnn1 (squaredDistance_nonneg v target), ?_⟩
          rcases hprov1 with heq1 | ⟨w, hw, hw1, hw2⟩
          · rw [heq1]
            exact Or.inr ⟨v, hmemv, rfl, rfl⟩
          · exact Or.inr ⟨w, hmeml w hw, hw1, hw2⟩
      · simp only [if_neg h1]
        obtain ⟨hle1, hnn1, hprov1⟩ := IHl (depth + 1) best bestDist
        split
        next hgo =>
          obtain ⟨hle2, hnn2, hprov2⟩ := IHr (depth + 1)
            (nearest l target (depth + 1) best bestDist).1
            (nearest l target (depth + 1) best bestDist).2
          refine ⟨hle2.trans hle1, fun h0 => hnn2 (hnn1 h0), ?_⟩
          rcases hprov2 with heq | ⟨w, hw, hw1, hw2⟩
          · rcases hprov1 with heq1 | ⟨w, hw, hw1, hw2⟩
            · rw [heq, heq1]
              exact Or.inl rfl
            · refine Or.inr ⟨w, hmeml w hw, ?_, ?_⟩
              · rw [heq, ← hw1]
              · rw [heq, ← hw2]
          · exact Or.inr ⟨w, hmemr w hw, hw1, hw2⟩
        next hstay =>
          refine ⟨hle1, hnn1, ?_⟩
          rcases hprov1 with heq1 | ⟨w, hw, hw1, hw2⟩
          · exact Or.inl heq1
          · exact Or.inr ⟨w, hmeml w hw, hw1, hw2⟩
    · simp only [if_neg hdir]
      by_cases h1 : squaredDistance v target < bestDist
      · simp only [if_pos h1]
        obtain ⟨hle1, hnn1, hprov1⟩ := IHr (depth + 1) (some v) (squaredDistance v target)
        split
        next hgo =>
          obtain ⟨hle2, hnn2, hprov2⟩ := IHl (depth + 1)
            (nearest r target (depth + 1) (some v) (squaredDistance v target)).1
            (nearest r target (depth + 1) (some v) (squaredDistance v target)).2
          refine ⟨hle2.trans (hle1.trans (le_of_lt h1)), ?_, ?_⟩
          · intro _
            exact hnn2 (hnn1 (squaredDistance_nonneg v target))
          · rcases hprov2 with heq | ⟨w, hw, hw1, hw2⟩
            · rcases hprov1 with heq1 | ⟨w, hw, hw1, hw2⟩
              · rw [heq, heq1]
                exact Or.inr ⟨v, hmemv, rfl, rfl⟩
              · refine Or.inr ⟨w, hmemr w hw, ?_, ?_⟩
                · rw [heq, ← hw1]
                · rw [heq, ← hw2]
            · exact Or.inr ⟨w, hmeml w hw, hw1, hw2⟩
        next hstay =>
          refine ⟨hle1.trans (le_of_lt h1), fun _ => hnn1 (squaredDistance_nonneg v target), ?_⟩
          rcases hprov1 with heq1 | ⟨w, hw, hw1, hw2⟩
          · rw [heq1]
            exact Or.inr ⟨v, hmemv, rfl, rfl⟩
          · exact Or.inr ⟨w, hmemr w hw, hw1, hw2⟩
      · simp only [if_neg h1]
        obtain ⟨hle1, hnn1, hprov1⟩ := IHr (depth + 1) best bestDist
        split
        next hgo =>
          obtain ⟨hle2, hnn2, hprov2⟩ := IHl (depth + 1)
            (nearest r target (depth + 1) best bestDist).1
            (nearest r target (depth + 1) best bestDist).2
          refine ⟨hle2.trans hle1, fun h0 => hnn2 (hnn1 h0), ?_⟩
          rcases hprov2 with heq | ⟨w, hw, hw1, hw2⟩
          · rcases hprov1 with heq1 | ⟨w, hw, hw1, hw2⟩
            · rw [heq, heq1]
              exact Or.inl rfl
            · refine Or.inr ⟨w, hmemr w hw, ?_, ?_⟩
              · rw [heq, ← hw1]
              · rw [heq, ← hw2]
          · exact Or.inr ⟨w, hmeml w hw, hw1, hw2⟩
        next hstay =>
          refine ⟨hle1, hnn1, ?_⟩
          rcases hprov1 with heq1 | ⟨w, hw, hw1, hw2⟩
          · exact Or.inl heq1
          · exact Or.inr ⟨w, hmemr w hw, hw1, hw2⟩

theorem nearest_finds_zero (k : ℕ) (target : Vector)
    (htl : target.Components.length = k) (t : KDNode) :
    ∀ (depth : ℕ) (best : Option Vector) (bestDist : ℚ),
      KDInv k t depth → 0 ≤ bestDist →
      (∃ p ∈ t.toList, p.Components = target.Components) →
      (nearest t target depth best bestDist).2 = 0 := by
  induction t with
  | nil =>
    intro depth best bestDist _ _ hp
    simp [KDNode.toList] at hp
  | node v l r IHl IHr =>
    intro depth best bestDist hinv h0 hp
    obtain ⟨hvk, hlb, hrb, hinvl, hinvr⟩ := hinv
    rw [nearest, htl]
    obtain ⟨p, hpmem, hpc⟩ := hp
    have hpcomp : ∀ i, compAt p i = compAt target i := by
      intro i; rw [compAt, compAt, hpc]
    have hd1nn : 0 ≤ (if squaredDistance v target < bestDist
        then squaredDistance v target else bestDist) := by
      split
      · exact squaredDistance_nonneg v target
      · exact h0
    simp only [KDNode.toList, List.mem_cons, List.mem_append] at hpmem
    rcases hpmem with rfl | hpl | hpr
    · -- the node itself matches the target
      have hz : squaredDistance p target = 0 := squaredDistance_eq_zero_of_comps _ _ hpc
      have hd1 : (if squaredDistance p target < bestDist
          then squaredDistance p target else bestDist) = 0 := by
        rcases lt_or_le 0 bestDist with hpos | hneg
        · rw [if_pos (by rw [hz]; exact hpos), hz]
        · have : bestDist = 0 := le_antisymm hneg h0
          rw [this, hz]
          simp
      by_cases hdir : compAt target (depth % k) < compAt p (depth % k)
      · simp only [if_pos hdir, hd1]
        have hb := nearest_basic l target (depth + 1)
          (if squaredDistance p target < bestDist then some p else best) 0
        have hres : (nearest l target (depth + 1)
            (if squaredDistance p target < bestDist then some p else best) 0).2 = 0 :=
          le_antisymm hb.1 (hb.2.1 (le_refl 0))
        rw [hres]
        rw [if_neg (by intro hcon; exact absurd hcon (not_lt.mpr (mul_self_nonneg _)))]
        exact hres
      · simp only [if_neg hdir, hd1]
        have hb := nearest_basic r target (depth + 1)
          (if squaredDistance p target < bestDist then some p else best) 0
        have hres : (nearest r target (depth + 1)
            (if squaredDistance p target < bestDist then some p else best) 0).2 = 0 :=
          le_antisymm hb.1 (hb.2.1 (le_refl 0))
        rw [hres]
        rw [if_neg (by intro hcon; exact absurd hcon (not_lt.mpr (mul_self_nonneg _)))]
        exact hres
    · -- the matching point lies in the left subtree
      by_cases hdir : compAt target (depth % k) < compAt v (depth % k)
      · simp only [if_pos hdir]
        have hres := IHl (depth + 1)
          (if squaredDistance v target < bestDist then some v else best)
          (if squaredDistance v target < bestDist then squaredDistance v target
            else bestDist) hinvl hd1nn ⟨p, hpl, hpc⟩
        rw [hres]
        rw [if_neg (by intro hcon; exact absurd hcon (not_lt.mpr (mul_self_nonneg _)))]
        exact hres
      · simp only [if_neg hdir]
        -- the search goes right first; the matching point sits exactly on the plane
        have heqax : compAt v (depth % k) = compAt target (depth % k) := by
          have h1 : compAt p (depth % k) ≤ compAt v (depth % k) := hlb p hpl
          have h2 : compAt v (depth % k) ≤ compAt target (depth % k) := not_lt.mp hdir
          have h3 : compAt p (depth % k) = compAt target (depth % k) := hpcomp _
          linarith
        have hb := nearest_basic r target (depth + 1)
          (if squaredDistance v target < bestDist then some v else best)
          (if squaredDistance v target < bestDist then squaredDistance v target
            else bestDist)
        have hrnn : 0 ≤ (nearest r target (depth + 1)
            (if squaredDistance v target < bestDist then some v else best)
            (if squaredDistance v target < bestDist then squaredDistance v target
              else bestDist)).2 := hb.2.1 hd1nn
        rcases lt_or_le 0 ((nearest r target (depth + 1)
            (if squaredDistance v target < bestDist then some v else best)
            (if squaredDistance v target < bestDist then squaredDistance v target
              else bestDist)).2) with hpos | hle
        · rw [if_pos (by rw [heqax, sub_self, mul_zero]; exact hpos)]
          exact IHl (depth + 1) _ _ hinvl (le_of_lt hpos) ⟨p, hpl, hpc⟩
        · have hz : (nearest r target (depth + 1)
              (if squaredDistance v target < bestDist then some v else best)
              (if squaredDistance v target < bestDist then squaredDistance v target
                else bestDist)).2 = 0 := le_antisymm hle hrnn
          rw [hz]
          rw [if_neg (by intro hcon; exact absurd hcon (not_lt.mpr (mul_self_nonneg _)))]
          exact hz
    · -- the matching point lies in the right subtree
      by_cases hdir : compAt target (depth % k) < compAt v (depth % k)
      · -- impossible: the right subtree is bounded below by the node on this axis
        exfalso
        have h1 : compAt v (depth % k) ≤ compAt p (depth % k) := hrb p hpr
        have h3 : compAt p (depth % k) = compAt target (depth % k) := hpcomp _
        linarith
      · simp only [if_neg hdir]
        have hres := IHr (depth + 1)
          (if squaredDistance v target < bestDist then some v else best)
          (if squaredDistance v target < bestDist then squaredDistance v target
            else bestDist) hinvr hd1nn ⟨p, hpr, hpc⟩
        rw [hres]
        rw [if_neg (by intro hcon; exact absurd hcon (not_lt.mpr (mul_self_nonneg _)))]
        exact hres

/-- **C6.** For every k-d tree built from a non-empty set of points of equal
(positive) dimensionality and every target vector whose components equal
those of some stored point, `FindNearest(target)` returns a point with
exactly those components together with distance 0. -/
theorem findNearest_present (pts : List Vector) (k : ℕ) (hk : 0 < k)
    (hlen : ∀ p ∈ pts, p.Components.length = k) (target : Vector)
    (htl : target.Components.length = k)
    (hex : ∃ p ∈ pts, p.Components = target.Components) :
    ∃ w : Vector, (BuildKDTree pts).FindNearest target = some (w, 0) ∧
      w.Components = target.Components := by
  have hinv := build_KDInv k hk pts 0 hlen
  have hex2 : ∃ p ∈ (build pts 0).toList, p.Components = target.Components := by
    obtain ⟨p, hp, hpc⟩ := hex
    exact ⟨p, (build_toList_perm pts 0).mem_iff.mpr hp, hpc⟩
  have hmfnn : (0 : ℚ) ≤ maxFloat64 := by rw [maxFloat64]; norm_num
  have hzero := nearest_finds_zero k target htl (build pts 0) 0 none maxFloat64
    hinv hmfnn hex2
  have hb := nearest_basic (build pts 0) target 0 none maxFloat64
  rcases hb.2.2 with heq | ⟨w, hwmem, hw1, hw2⟩
  · exfalso
    rw [heq] at hzero
    simp only [maxFloat64] at hzero
    norm_num at hzero
  · have hcomps : w.Components = target.Components := by
      apply comps_eq_of_squaredDistance_eq_zero w target
      · rw [build_dims hlen 0 w hwmem, htl]
      · rw [← hw2]
        exact hzero
    refine ⟨w, ?_, hcomps⟩
    have hresEq : nearest (build pts 0) target 0 none maxFloat64 = (some w, 0) := by
      rw [Prod.ext_iff]
      exact ⟨hw1, hzero⟩
    rw [KDTree.FindNearest, BuildKDTree]
    rw [hresEq]

/-- Witness for C6 at a concrete two-point set. -/
theorem findNearest_present_witness :
    ∃ w : Vector,
      (BuildKDTree [⟨0, [1, 2]⟩, ⟨1, [3, 4]⟩]).FindNearest ⟨9, [3, 4]⟩
        = some (w, 0) ∧ w.Components = (⟨9, [3, 4]⟩ : Vector).Components :=
  findNearest_present [⟨0, [1, 2]⟩, ⟨1, [3, 4]⟩] 2 (by decide) (by decide)
    ⟨9, [3, 4]⟩ (by decide) (by with_unfolding_all decide)

/-! ## Dijkstra: the input graph is never written -/

theorem runAux_frame (fuel : ℕ) : ∀ (s : DijkstraSearch) (g : Graph) (cid : ℤ)
    (resp : Response) (g2 : Graph),
    runAux fuel s g cid = some (resp, g2) → g2 = g := by
  induction fuel with
  | zero => intro s g cid resp g2 h; simp [runAux] at h
  | succ n ih =>
    intro s g cid resp g2 h
    simp only [runAux] at h
    split at h
    · exact ((Prod.ext_iff.mp (Option.some.inj h)).2).symm
    · split at h
      · split at h
        · exact ((Prod.ext_iff.mp (Option.some.inj h)).2).symm
        · exact ih _ _ _ _ _ h
      · split at h
        · exact ((Prod.ext_iff.mp (Option.some.inj h)).2).symm
        · exact ih _ _ _ _ _ h

/-- C8: `Run` never mutates the input graph `g`: its `Nodes`,
`OutgoingEdges` and `IncomingEdges` are the same before and after the call
(in the model the graph is threaded through the loop as read-only state and
returned; only the engine fields `pq`, `visited`, `previous`, `costs` are
written). -/
theorem run_never_mutates_graph (s : DijkstraSearch) (g : Graph) (fuel : ℕ)
    (resp : Response) (g2 : Graph) (h : s.Run g fuel = some (resp, g2)) :
    g2.Nodes = g.Nodes ∧ g2.OutgoingEdges = g.OutgoingEdges ∧
      g2.IncomingEdges = g.IncomingEdges := by
  have := runAux_frame fuel s g 0 resp g2 h
  subst this
  exact ⟨rfl, rfl, rfl⟩

/-- Witness for C8 at a concrete one-source run on the empty graph. -/
theorem run_never_mutates_graph_witness :
    (((NewDijkstra ⟨[0], []⟩).Run EmptyGraph 2).map
        (fun r => r.2.Nodes)) = some EmptyGraph.Nodes := by
  cases hr : (NewDijkstra ⟨[0], []⟩).Run EmptyGraph 2 with
  | none =>
    have hs : ((NewDijkstra ⟨[0], []⟩).Run EmptyGraph 2).isSome = true := by
      with_unfolding_all rfl
    rw [hr] at hs
    simp at hs
  | some r =>
    have := run_never_mutates_graph (NewDijkstra ⟨[0], []⟩) EmptyGraph 2 r.1 r.2
      (by rw [hr])
    show some r.2.Nodes = some EmptyGraph.Nodes
    rw [this.1]

/-! ## Dijkstra: basic facts about adjacency access and paths -/

theorem atIdx_mem {r : Relations} {i : ℤ} (h : r.atIdx i ≠ []) : r.atIdx i ∈ r := by
  unfold Relations.atIdx at *
  by_cases h0 : 0 ≤ i
  · rw [if_pos h0] at *
    by_cases hlt : i.toNat < r.length
    · rw [List.getD_eq_getElem r [] hlt]
      exact List.getElem_mem hlt
    · rw [List.getD_eq_default r [] (by omega)] at h
      exact absurd rfl h
  · rw [if_neg h0] at h
    exact absurd rfl h

theorem mem_atIdx_weight_nonneg (g : Graph) (hnn : g.Nonneg) {u : ℤ} {e : Edge}
    (he : e ∈ g.OutgoingEdges.atIdx u) : 0 ≤ e.Weight := by
  have hne : g.OutgoingEdges.atIdx u ≠ [] := by
    intro hemp; rw [hemp] at he; exact absurd he (List.not_mem_nil e)
  exact hnn _ (atIdx_mem hne) e he

theorem mem_atIdx_target_valid (g : Graph) (hwf : g.WF) {u : ℤ} {e : Edge}
    (he : e ∈ g.OutgoingEdges.atIdx u) : 0 ≤ e.ID ∧ e.ID < (g.n : ℤ) := by
  have hne : g.OutgoingEdges.atIdx u ≠ [] := by
    intro hemp; rw [hemp] at he; exact absurd he (List.not_mem_nil e)
  exact hwf.2.2.2 _ (atIdx_mem hne) e he

theorem nodeAt_ID (g : Graph) (hwf : g.WF) {i : ℤ} (h0 : 0 ≤ i)
    (hn : i < (g.n : ℤ)) : (g.nodeAt i).ID = i := by
  unfold Graph.nodeAt
  rw [if_pos h0]
  have hlt : i.toNat < g.n := (Int.toNat_lt h0).mpr hn
  have := hwf.2.2.1 i.toNat hlt
  rw [this]
  exact Int.toNat_of_nonneg h0

theorem pathCost_head {g : Graph} {s v : ℤ} {c : ℚ} {l : List ℤ}
    (hp : PathCost g s v c l) : ∃ t, l = v :: t := by
  cases hp with
  | nil => exact ⟨[], rfl⟩
  | cons hp' he => exact ⟨_, rfl⟩

theorem pathCost_nonneg (g : Graph) (hnn : g.Nonneg) {s v : ℤ} {c : ℚ}
    {l : List ℤ} (hp : PathCost g s v c l) : 0 ≤ c := by
  induction hp with
  | nil => exact le_refl 0
  | cons hp' he ih =>
    have := mem_atIdx_weight_nonneg g hnn he
    linarith

theorem pathCost_valid (g : Graph) (hwf : g.WF) {s v : ℤ} {c : ℚ} {l : List ℤ}
    (h0 : 0 ≤ s) (hsn : s < (g.n : ℤ)) (hp : PathCost g s v c l) :
    (0 ≤ v ∧ v < (g.n : ℤ)) ∧ ∀ x ∈ l, 0 ≤ x ∧ x < (g.n : ℤ) := by
  induction hp with
  | nil =>
    refine ⟨⟨h0, hsn⟩, ?_⟩
    intro x hx
    rw [List.mem_singleton] at hx
    subst hx
    exact ⟨h0, hsn⟩
  | cons hp' he ih =>
    have hv := mem_atIdx_target_valid g hwf he
    refine ⟨hv, ?_⟩
    intro x hx
    rcases List.mem_cons.mp hx with rfl | hx2
    · exact hv
    · exact ih.2 x hx2

theorem pathCost_suffix (g : Graph) (hnn : g.Nonneg) {s v : ℤ} {c : ℚ}
    {l : List ℤ} (hp : PathCost g s v c l) :
    ∀ x ∈ l, ∃ c2 l2, PathCost g s x c2 l2 ∧ c2 ≤ c ∧ l2 <:+ l := by
  induction hp with
  | nil =>
    intro x hx
    rw [List.mem_singleton] at hx
    subst hx
    exact ⟨0, [x], .nil, le_refl 0, List.suffix_refl _⟩
  | cons hp' he ih =>
    intro x hx
    have hw := mem_atIdx_weight_nonneg g hnn he
    rcases List.mem_cons.mp hx with rfl | hx2
    · exact ⟨_, _, .cons hp' he, le_refl _, List.suffix_refl _⟩
    · obtain ⟨c2, l2, hp2, hle, hsuf⟩ := ih x hx2
      exact ⟨c2, l2, hp2, by linarith, hsuf.trans (List.suffix_cons _ _)⟩

theorem pathCost_nodup (g : Graph) (hnn : g.Nonneg) :
    ∀ (n : ℕ) {s v : ℤ} {c : ℚ} {l : List ℤ}, l.length ≤ n →
    PathCost g s v c l → ∃ c2 l2, PathCost g s v c2 l2 ∧ c2 ≤ c ∧ l2.Nodup := by
  intro n
  induction n with
  | zero =>
    intro s v c l hlen hp
    obtain ⟨t, rfl⟩ := pathCost_head hp
    simp at hlen
  | succ n ih =>
    intro s v c l hlen hp
    cases hp with
    | nil => exact ⟨0, [s], .nil, le_refl 0, List.nodup_singleton s⟩
    | cons hp' he =>
      rename_i u c' l' e
      have hw := mem_atIdx_weight_nonneg g hnn he
      obtain ⟨c2, l2, hp2, hle2, hnd2⟩ :=
        ih (by simp only [List.length_cons] at hlen; omega) hp'
      by_cases hmem : e.ID ∈ l2
      · obtain ⟨c3, l3, hp3, hle3, hsuf⟩ := pathCost_suffix g hnn hp2 e.ID hmem
        exact ⟨c3, l3, hp3, by linarith, List.Nodup.sublist hsuf.sublist hnd2⟩
      · exact ⟨c2 + e.Weight, e.ID :: l2, .cons hp2 he,
          by linarith, List.nodup_cons.mpr ⟨hmem, hnd2⟩⟩

/-! ## Dijkstra: weight sums and the simple-path bound -/

theorem sum_map_eq_range_sum (f : List Edge → ℚ) : ∀ (L : List (List Edge)),
    (L.map f).sum = ∑ i ∈ Finset.range L.length, f (L.getD i []) := by
  intro L
  induction L with
  | nil => simp
  | cons a t ih =>
    simp only [List.map_cons, List.sum_cons, List.length_cons]
    rw [Finset.sum_range_succ']
    simp only [List.getD_cons_succ, List.getD_cons_zero]
    rw [ih]
    ring

theorem totalWeight_eq_range (g : Graph) :
    totalWeight g =
      ∑ i ∈ Finset.range g.OutgoingEdges.length, sumOutAt g (i : ℤ) := by
  rw [totalWeight, sum_map_eq_range_sum]
  apply Finset.sum_congr rfl
  intro i hi
  simp only [sumOutAt, Relations.atIdx]
  rw [if_pos (by positivity)]
  congr 1

theorem sumOutAt_nonneg (g : Graph) (hnn : g.Nonneg) (v : ℤ) :
    0 ≤ sumOutAt g v := by
  apply List.sum_nonneg
  intro x hx
  obtain ⟨e, he, rfl⟩ := List.mem_map.mp hx
  exact mem_atIdx_weight_nonneg g hnn he

theorem totalWeight_nonneg (g : Graph) (hnn : g.Nonneg) : 0 ≤ totalWeight g := by
  rw [totalWeight_eq_range]
  apply Finset.sum_nonneg
  intro i _
  exact sumOutAt_nonneg g hnn _

theorem weight_le_sumOutAt (g : Graph) (hnn : g.Nonneg) {u : ℤ} {e : Edge}
    (he : e ∈ g.OutgoingEdges.atIdx u) : e.Weight ≤ sumOutAt g u := by
  apply List.single_le_sum
  · intro x hx
    obtain ⟨e2, he2, rfl⟩ := List.mem_map.mp hx
    exact mem_atIdx_weight_nonneg g hnn he2
  · exact List.mem_map_of_mem Edge.Weight he

theorem sumOut_nodup_le (g : Graph) (hwf : g.WF) (hnn : g.Nonneg) (l : List ℤ)
    (hnd : l.Nodup) (hval : ∀ x ∈ l, 0 ≤ x ∧ x < (g.n : ℤ)) :
    (l.map (sumOutAt g)).sum ≤ totalWeight g := by
  classical
  have hmapnd : (l.map Int.toNat).Nodup := by
    apply List.Nodup.map_on ?_ hnd
    intro x hx y hy hxy
    have hx0 := (hval x hx).1
    have hy0 := (hval y hy).1
    omega
  have heq1 : (l.map (sumOutAt g)).sum
      = ((l.map Int.toNat).map (fun i : ℕ => sumOutAt g (i : ℤ))).sum := by
    rw [List.map_map]
    congr 1
    apply List.map_congr_left
    intro x hx
    have hx0 := (hval x hx).1
    simp only [Function.comp]
    rw [Int.toNat_of_nonneg hx0]
  have heq2 : ((l.map Int.toNat).map (fun i : ℕ => sumOutAt g (i : ℤ))).sum
      = ∑ i ∈ (l.map Int.toNat).toFinset, sumOutAt g (i : ℤ) :=
    (List.sum_toFinset _ hmapnd).symm
  rw [heq1, heq2, totalWeight_eq_range]
  apply Finset.sum_le_sum_of_subset_of_nonneg
  · intro i hi
    rw [List.mem_toFinset] at hi
    obtain ⟨x, hx, rfl⟩ := List.mem_map.mp hi
    have := hval x hx
    rw [Finset.mem_range, hwf.1]
    simp only [Graph.n] at this ⊢
    omega
  · intro i _ _
    exact sumOutAt_nonneg g hnn _

theorem pathCost_le_tail_sum (g : Graph) (hnn : g.Nonneg) {s v : ℤ} {c : ℚ}
    {l : List ℤ} (hp : PathCost g s v c l) : l.Nodup →
    c ≤ (l.tail.map (sumOutAt g)).sum := by
  induction hp with
  | nil => intro _; simp
  | cons hp' he ih =>
    intro hnd
    have hnd0 := (List.nodup_cons.mp hnd).2
    have hc' := ih hnd0
    obtain ⟨t, rfl⟩ := pathCost_head hp'
    have hw := weight_le_sumOutAt g hnn he
    simp only [List.map_cons, List.sum_cons, List.tail_cons] at *
    linarith

theorem pathCost_nodup_bound (g : Graph) (hwf : g.WF) (hnn : g.Nonneg)
    {s v : ℤ} {c : ℚ} {l : List ℤ} (h0 : 0 ≤ s) (hsn : s < (g.n : ℤ))
    (hp : PathCost g s v c l) (hnd : l.Nodup) :
    c + sumOutAt g v ≤ totalWeight g := by
  have h1 := pathCost_le_tail_sum g hnn hp hnd
  have hval := (pathCost_valid g hwf h0 hsn hp).2
  have h2 := sumOut_nodup_le g hwf hnn l hnd hval
  obtain ⟨t, rfl⟩ := pathCost_head hp
  simp only [List.map_cons, List.sum_cons, List.tail_cons] at *
  linarith

theorem pathCost_min_bound (g : Graph) (hwf : g.WF) (hnn : g.Nonneg)
    {s v : ℤ} {c : ℚ} {l : List ℤ} (h0 : 0 ≤ s) (hsn : s < (g.n : ℤ))
    (hp : PathCost g s v c l)
    (hmin : ∀ c2 l2, PathCost g s v c2 l2 → c ≤ c2) :
    c + sumOutAt g v ≤ totalWeight g := by
  obtain ⟨c2, l2, hp2, hle2, hnd2⟩ := pathCost_nodup g hnn l.length (le_refl _) hp
  have hb := pathCost_nodup_bound g hwf hnn h0 hsn hp2 hnd2
  have := hmin c2 l2 hp2
  linarith

theorem shortest_succ_bound (g : Graph) (hwf : g.WF) (hnn : g.Nonneg)
    {srcs : List ℤ} (hsrc : ∀ x ∈ srcs, 0 ≤ x ∧ x < (g.n : ℤ))
    {u : ℤ} {cu : ℚ} (hshort : IsShortest g srcs u cu) {ge : Edge}
    (hge : ge ∈ g.OutgoingEdges.atIdx u) :
    cu + ge.Weight ≤ totalWeight g := by
  obtain ⟨s0, hs0, l0, hp0⟩ := hshort.1
  have hmin : ∀ c2 l2, PathCost g s0 u c2 l2 → cu ≤ c2 :=
    fun c2 l2 h => hshort.2 s0 hs0 c2 l2 h
  have hb := pathCost_min_bound g hwf hnn (hsrc s0 hs0).1 (hsrc s0 hs0).2 hp0 hmin
  have hw := weight_le_sumOutAt g hnn hge
  linarith

/-! ## Dijkstra: small-step facts about the engine operations -/

theorem GetCost_some {costs : Costs} {id : ℤ} {v : ℚ} (h : costs id = some v) :
    costs.GetCost id = (v, none) := by
  simp [Costs.GetCost, h]

theorem GetCost_none {costs : Costs} {id : ℤ} (h : costs id = none) :
    costs.GetCost id = (INFINITE, some "path not found") := by
  simp [Costs.GetCost, h]

theorem store_same (costs : Costs) (i : ℤ) (v : ℚ) :
    (costs.store i v) i = some v := by simp [Costs.store]

theorem store_other (costs : Costs) {i j : ℤ} (v : ℚ) (h : j ≠ i) :
    (costs.store i v) j = costs j := by simp [Costs.store, h]

theorem bitset_set_same (b : Bitset) (i : ℤ) (v : Bool) :
    (b.Set i v) i = v := by simp [Bitset.Set]

theorem bitset_set_other (b : Bitset) {i j : ℤ} (v : Bool) (h : j ≠ i) :
    (b.Set i v) j = b j := by simp [Bitset.Set, h]

theorem Insert_root_stable (h : Heap) (n : HNode) (hne : h.items ≠ [])
    (hle : (nthH h.items 0).Cost ≤ n.Cost) :
    nthH (h.Insert n).items 0 = nthH h.items 0 := by
  have hpos : 0 < h.items.length := List.length_pos.mpr hne
  rw [Heap.Insert]
  have hidx : (h.items ++ [n]).length - 1 = h.items.length := by simp
  rw [hidx]
  have h1 : nthH (h.items ++ [n]) 0 = nthH h.items 0 := by
    simp only [nthH]
    exact List.getD_append _ _ _ 0 hpos
  have h2 : nthH (h.items ++ [n]) h.items.length = n := by
    simp only [nthH]
    rw [List.getD_eq_getElem _ _ (by simp)]
    exact List.getElem_concat_length _ _ _ rfl _
  rw [heapifyUpAux_root_stable _ _ (by simp) hpos (by rw [h1, h2]; exact hle)]
  exact h1

theorem Relax_visited (s : DijkstraSearch) (v : Node) (cid : ℤ) (w d : ℚ)
    (h : s.wasVisited v.ID = true) : s.Relax v cid w d = s := by
  rw [DijkstraSearch.Relax]
  simp [h]

theorem Relax_no_improve (s : DijkstraSearch) (v : Node) (cid : ℤ) (w d : ℚ)
    (h : s.wasVisited v.ID = false)
    (h2 : ¬ (s.costs.read0 (minD s.pq).Value + w < (s.costs.GetCost v.ID).1)) :
    s.Relax v cid w d = s := by
  rw [DijkstraSearch.Relax]
  simp only [h, Bool.false_eq_true, not_false_eq_true, if_true, if_neg h2]

theorem Relax_improve (s : DijkstraSearch) (v : Node) (cid : ℤ) (w d : ℚ)
    (h : s.wasVisited v.ID = false)
    (h2 : s.costs.read0 (minD s.pq).Value + w < (s.costs.GetCost v.ID).1) :
    s.Relax v cid w d =
      { s with
        costs := s.costs.store v.ID (s.costs.read0 (minD s.pq).Value + w)
        pq := s.pq.Insert ⟨v.ID, s.costs.read0 (minD s.pq).Value + w,
          (minD s.pq).Depth + 1, cid, s.costs.read0 (minD s.pq).Value + d⟩ } := by
  rw [DijkstraSearch.Relax]
  simp only [h, Bool.false_eq_true, not_false_eq_true, if_true, if_pos h2]

/-! ## Dijkstra: reachability pushes costs to the frontier -/

theorem frontier_reach (g : Graph) (hnn : g.Nonneg)
    {srcs : List ℤ} {s : DijkstraSearch} (hInv : DInv g srcs s) :
    ∀ src ∈ srcs, ∀ v c l, PathCost g src v c l → s.visited v = false →
    ∃ x cx, s.visited x = false ∧ s.costs x = some cx ∧ cx ≤ c := by
  intro src hsrc v c l hp
  induction hp with
  | nil =>
    intro hvis
    exact ⟨src, 0, hvis, hInv.cost_src src hsrc, le_refl 0⟩
  | cons hp' he ih =>
    intro hvis
    have hw := mem_atIdx_weight_nonneg g hnn he
    rename_i u c' l' e
    by_cases hu : s.visited u = true
    · obtain ⟨cu, hcu, hshort⟩ := hInv.visited_cost u hu
      obtain ⟨cw, hcw, hcwle⟩ := hInv.visited_relaxed u cu hu hcu e he
      have hlow := hshort.2 src hsrc c' l' hp'
      exact ⟨e.ID, cw, hvis, hcw, by linarith⟩
    · obtain ⟨x, cx, h1, h2, h3⟩ := ih (Bool.not_eq_true _ ▸ hu)
      exact ⟨x, cx, h1, h2, by linarith⟩

/-- The key step: a freshly popped minimum carries the exact shortest cost. -/
theorem fresh_min_optimal (g : Graph) (hnn : g.Nonneg)
    {srcs : List ℤ} {s : DijkstraSearch} (hInv : DInv g srcs s)
    (hne : s.pq.items ≠ [])
    (hfresh : s.visited (nthH s.pq.items 0).Value = false) :
    s.costs (nthH s.pq.items 0).Value = some (nthH s.pq.items 0).Cost ∧
    IsShortest g srcs (nthH s.pq.items 0).Value (nthH s.pq.items 0).Cost := by
  have he0mem : nthH s.pq.items 0 ∈ s.pq.items := nthH_mem (List.length_pos.mpr hne)
  obtain ⟨cv, hcv, hcvle⟩ := hInv.entry_cost _ he0mem
  obtain ⟨e1, he1mem, he1v, he1c⟩ := hInv.frontier _ cv hcv hfresh
  have hge := root_min s.pq.items hInv.heap e1 he1mem
  rw [he1c] at hge
  have hcveq : cv = (nthH s.pq.items 0).Cost := le_antisymm hcvle hge
  rw [hcveq] at hcv
  refine ⟨hcv, hInv.entry_path _ he0mem, ?_⟩
  intro src hsrc c2 l2 hp2
  obtain ⟨x, cx, hx1, hx2, hx3⟩ :=
    frontier_reach g hnn hInv src hsrc _ c2 l2 hp2 hfresh
  obtain ⟨e2, he2mem, he2v, he2c⟩ := hInv.frontier x cx hx2 hx1
  have hge2 := root_min s.pq.items hInv.heap e2 he2mem
  rw [he2c] at hge2
  linarith

/-! ## Dijkstra: the initial state satisfies the invariant -/

theorem atIdx_nil (i : ℤ) : Relations.atIdx [] i = [] := by
  unfold Relations.atIdx
  split <;> simp

theorem newDijkstra_fold (tgt : ℤ) :
    ∀ (todo done : List ℤ) (s0 : DijkstraSearch),
    (HeapProp s0.pq.items ∧
      (∀ e ∈ s0.pq.items,
        e.Cost = 0 ∧ e.Previous = 0 ∧ e.Dist = 0 ∧ e.Value ∈ done) ∧
      (∀ v ∈ done, ∃ e ∈ s0.pq.items, e.Value = v ∧ e.Cost = 0) ∧
      (∀ v, s0.costs v = if v ∈ done then some 0 else none) ∧
      s0.visited = NewBigInt ∧ s0.previous = EmptyGraph ∧ s0.target = tgt) →
    (HeapProp (todo.foldl (fun s v =>
      { s with
        costs := s.costs.store v 0
        pq := s.pq.Insert ⟨v, 0, 0, 0, 0⟩
        sources := s.sources.Set v true }) s0).pq.items ∧
      (∀ e ∈ (todo.foldl (fun s v =>
      { s with
        costs := s.costs.store v 0
        pq := s.pq.Insert ⟨v, 0, 0, 0, 0⟩
        sources := s.sources.Set v true }) s0).pq.items,
        e.Cost = 0 ∧ e.Previous = 0 ∧ e.Dist = 0 ∧ e.Value ∈ done ++ todo) ∧
      (∀ v ∈ done ++ todo, ∃ e ∈ (todo.foldl (fun s v =>
      { s with
        costs := s.costs.store v 0
        pq := s.pq.Insert ⟨v, 0, 0, 0, 0⟩
        sources := s.sources.Set v true }) s0).pq.items, e.Value = v ∧ e.Cost = 0) ∧
      (∀ v, (todo.foldl (fun s v =>
      { s with
        costs := s.costs.store v 0
        pq := s.pq.Insert ⟨v, 0, 0, 0, 0⟩
        sources := s.sources.Set v true }) s0).costs v
          = if v ∈ done ++ todo then some 0 else none) ∧
      (todo.foldl (fun s v =>
      { s with
        costs := s.costs.store v 0
        pq := s.pq.Insert ⟨v, 0, 0, 0, 0⟩
        sources := s.sources.Set v true }) s0).visited = NewBigInt ∧
      (todo.foldl (fun s v =>
      { s with
        costs := s.costs.store v 0
        pq := s.pq.Insert ⟨v, 0, 0, 0, 0⟩
        sources := s.sources.Set v true }) s0).previous = EmptyGraph ∧
      (todo.foldl (fun s v =>
      { s with
        costs := s.costs.store v 0
        pq := s.pq.Insert ⟨v, 0, 0, 0, 0⟩
        sources := s.sources.Set v true }) s0).target = tgt) := by
  intro todo
  induction todo with
  | nil =>
    intro done s0 h
    simpa using h
  | cons a t ih =>
    intro done s0 h
    obtain ⟨hheap, hent, hcov, hcost, hvis, hprev, htgt⟩ := h
    simp only [List.foldl_cons]
    have hstep : HeapProp (s0.pq.Insert ⟨a, 0, 0, 0, 0⟩).items ∧
        (∀ e ∈ (s0.pq.Insert ⟨a, 0, 0, 0, 0⟩).items,
          e.Cost = 0 ∧ e.Previous = 0 ∧ e.Dist = 0 ∧ e.Value ∈ done ++ [a]) ∧
        (∀ v ∈ done ++ [a], ∃ e ∈ (s0.pq.Insert ⟨a, 0, 0, 0, 0⟩).items,
          e.Value = v ∧ e.Cost = 0) ∧
        (∀ v, (s0.costs.store a 0) v = if v ∈ done ++ [a] then some 0 else none) := by
      refine ⟨Insert_heapProp _ _ hheap, ?_, ?_, ?_⟩
      · intro e he
        have := (Insert_perm s0.pq ⟨a, 0, 0, 0, 0⟩).mem_iff.mp he
        rcases List.mem_cons.mp this with rfl | hold
        · exact ⟨rfl, rfl, rfl, by simp⟩
        · obtain ⟨h1, h2, h3, h4⟩ := hent e hold
          exact ⟨h1, h2, h3, by simp [h4]⟩
      · intro v hv
        rcases List.mem_append.mp hv with hvd | hva
        · obtain ⟨e, he, h1, h2⟩ := hcov v hvd
          refine ⟨e, ?_, h1, h2⟩
          exact (Insert_perm s0.pq ⟨a, 0, 0, 0, 0⟩).mem_iff.mpr (List.mem_cons_of_mem _ he)
        · rw [List.mem_singleton] at hva
          subst hva
          refine ⟨⟨v, 0, 0, 0, 0⟩, ?_, rfl, rfl⟩
          exact (Insert_perm s0.pq ⟨v, 0, 0, 0, 0⟩).mem_iff.mpr (List.mem_cons_self _ _)
      · intro v
        by_cases hva : v = a
        · subst hva
          rw [store_same]
          simp
        · rw [store_other _ _ hva, hcost v]
          by_cases hvd : v ∈ done
          · simp [hvd]
          · simp [hvd, hva]
    have := ih (done ++ [a])
      { s0 with
        costs := s0.costs.store a 0
        pq := s0.pq.Insert ⟨a, 0, 0, 0, 0⟩
        sources := s0.sources.Set a true }
      ⟨hstep.1, hstep.2.1, hstep.2.2.1, hstep.2.2.2, hvis, hprev, htgt⟩
    simpa [List.append_assoc] using this

theorem newDijkstra_DInv (g : Graph) (hnn : g.Nonneg) (c : Criteria)
    (hsrc : ∀ x ∈ c.Source, 0 ≤ x ∧ x < (g.n : ℤ)) :
    DInv g c.Source (NewDijkstra c) := by
  have hND : NewDijkstra c = c.Source.foldl (fun s v =>
      { s with
        costs := s.costs.store v 0
        pq := s.pq.Insert ⟨v, 0, 0, 0, 0⟩
        sources := s.sources.Set v true })
      ⟨Create, NewBigInt, EmptyGraph, fun _ => none, NewBigInt,
        if 0 < c.Targets.length then c.Targets.headD (-1) else -1⟩ := rfl
  have h0 := newDijkstra_fold
    (if 0 < c.Targets.length then c.Targets.headD (-1) else -1) c.Source []
    ⟨Create, NewBigInt, EmptyGraph, fun _ => none, NewBigInt,
      if 0 < c.Targets.length then c.Targets.headD (-1) else -1⟩
    ⟨Create_heapProp, by simp [Create], by simp, by simp, rfl, rfl, rfl⟩
  simp only [List.nil_append] at h0
  rw [hND]
  obtain ⟨hheap, hent, hcov, hcost, hvis, hprev, htgt⟩ := h0
  exact
   {
    heap := hheap
    cost_path := by
        intro v cv hv
        rw [hcost v] at hv
        by_cases hmem : v ∈ c.Source
        · rw [if_pos hmem] at hv
          obtain rfl : (0 : ℚ) = cv := Option.some.inj hv
          exact ⟨⟨v, hmem, [v], PathCost.nil⟩, le_refl 0, totalWeight_nonneg g hnn⟩
        · rw [if_neg hmem] at hv
          exact absurd hv (by simp)
    cost_src := by
        intro v hv
        rw [hcost v, if_pos hv]
    cost_valid := by
        intro v hv
        rw [hcost v] at hv
        by_cases hmem : v ∈ c.Source
        · exact hsrc v hmem
        · rw [if_neg hmem] at hv
          exact absurd hv (by simp)
    visited_cost := by
        intro v hv
        rw [hvis] at hv
        exact absurd hv (by simp [NewBigInt])
    tree_ids := by
        intro k hk
        rw [hprev] at hk
        simp [EmptyGraph] at hk
    tree_len_out := by
        rw [hprev]
        rfl
    tree_len_in := by
        rw [hprev]
        rfl
    tree_rank_vis := by
        intro k hk
        rw [hprev] at hk
        simp [EmptyGraph] at hk
    vis_tree := by
        intro v hv
        rw [hvis] at hv
        exact absurd hv (by simp [NewBigInt])
    tree_edge := by
        intro p _ te hte
        rw [hprev] at hte
        rw [show EmptyGraph.OutgoingEdges = [] from rfl, atIdx_nil] at hte
        exact absurd hte (List.not_mem_nil te)
    tree_in_edge := by
        intro q _ te hte
        rw [hprev] at hte
        rw [show EmptyGraph.IncomingEdges = [] from rfl, atIdx_nil] at hte
        exact absurd hte (List.not_mem_nil te)
    tree_src_edge := by
        intro kk h1 h2 _
        rw [hprev] at h2
        simp [EmptyGraph] at h2
        omega
    entry_path := by
        intro e he
        obtain ⟨h1, _, _, h4⟩ := hent e he
        exact ⟨e.Value, h4, [e.Value], h1 ▸ PathCost.nil⟩
    entry_cost := by
        intro e he
        obtain ⟨h1, _, _, h4⟩ := hent e he
        rw [hcost e.Value, if_pos h4]
        exact ⟨0, rfl, by rw [h1]⟩
    entry_src := by
        intro e he _
        obtain ⟨h1, h2, h3, _⟩ := hent e he
        exact ⟨h1, h2, h3⟩
    entry_prov := by
        intro e he
        obtain ⟨h1, h2, h3, h4⟩ := hent e he
        exact Or.inl ⟨h2, h1, h3, h4⟩
    visited_relaxed := by
        intro u cu hu
        rw [hvis] at hu
        exact absurd hu (by simp [NewBigInt])
    frontier := by
        intro v cv hv _
        rw [hcost v] at hv
        by_cases hmem : v ∈ c.Source
        · rw [if_pos hmem] at hv
          obtain rfl : (0 : ℚ) = cv := Option.some.inj hv
          obtain ⟨e, he, h1, h2⟩ := hcov v hmem
          exact ⟨e, he, h1, h2⟩
        · rw [if_neg hmem] at hv
          exact absurd hv (by simp) }

/-! ## Dijkstra: utilities for the step proofs -/

theorem wasVisited_eq (s : DijkstraSearch) (i : ℤ) :
    s.wasVisited i = s.visited i := rfl

theorem read0_of_some {costs : Costs} {i : ℤ} {v : ℚ} (h : costs i = some v) :
    costs.read0 i = v := by simp [Costs.read0, h]

theorem Insert_ne_nil (h : Heap) (n : HNode) : (h.Insert n).items ≠ [] := by
  have := Insert_length h n
  intro hh
  rw [hh] at this
  simp at this

theorem Insert_mem_new (h : Heap) (n : HNode) : n ∈ (h.Insert n).items :=
  (Insert_perm h n).mem_iff.mpr (List.mem_cons_self _ _)

theorem Insert_mem_of_mem (h : Heap) (n : HNode) {e : HNode} (he : e ∈ h.items) :
    e ∈ (h.Insert n).items :=
  (Insert_perm h n).mem_iff.mpr (List.mem_cons_of_mem _ he)

theorem Insert_mem_elim (h : Heap) (n : HNode) {e : HNode}
    (he : e ∈ (h.Insert n).items) : e = n ∨ e ∈ h.items :=
  List.mem_cons.mp ((Insert_perm h n).mem_iff.mp he)

theorem DeleteMin_mem (h : Heap) (hne : h.items ≠ []) {e : HNode}
    (he : e ∈ (h.DeleteMin).items) : e ∈ h.items :=
  (DeleteMin_perm h hne).mem_iff.mpr (List.mem_cons_of_mem _ he)

theorem DeleteMin_mem_of_ne_root (h : Heap) (hne : h.items ≠ []) {e : HNode}
    (he : e ∈ h.items) (hner : e ≠ nthH h.items 0) : e ∈ (h.DeleteMin).items := by
  have := (DeleteMin_perm h hne).mem_iff.mp he
  rcases List.mem_cons.mp this with h1 | h2
  · exact absurd h1 hner
  · exact h2

theorem mem_atIdx_append_nil (r : Relations) (i : ℤ) (e : Edge) :
    e ∈ ((r ++ [[]]) : Relations).atIdx i ↔ e ∈ r.atIdx i := by
  unfold Relations.atIdx
  split
  next h0 =>
    by_cases hlt : i.toNat < r.length
    · rw [List.getD_append _ _ _ _ hlt]
    · rw [List.getD_eq_default _ _ (le_of_not_lt hlt)]
      by_cases heq : i.toNat = r.length
      · rw [List.getD_append_right _ _ _ _ (le_of_not_lt hlt), heq]
        simp
      · rw [List.getD_eq_default _ _ (by simp; omega)]
  next => rfl

theorem nodeAt_keep {g1 g2 : Graph} {nd : Node}
    (h : g2.Nodes = g1.Nodes ++ [nd]) {k : ℤ} (hk : 0 ≤ k)
    (hlt : k.toNat < g1.Nodes.length) : g2.nodeAt k = g1.nodeAt k := by
  unfold Graph.nodeAt
  rw [if_pos hk, if_pos hk, h, List.getD_append _ _ _ _ hlt]

theorem nodeAt_append_last {g1 g2 : Graph} {nd : Node}
    (h : g2.Nodes = g1.Nodes ++ [nd]) :
    g2.nodeAt (g1.Nodes.length : ℤ) = nd := by
  unfold Graph.nodeAt
  rw [if_pos (by positivity), h]
  rw [List.getD_eq_getElem _ _ (by simp)]
  exact List.getElem_concat_length _ _ _ (by omega) _

theorem set_visited_self (s : DijkstraSearch) {v : ℤ} (h : s.visited v = true) :
    { s with visited := s.visited.Set v true } = s := by
  have hv : s.visited.Set v true = s.visited := by
    funext j
    unfold Bitset.Set
    by_cases hj : j = v
    · rw [if_pos hj, hj, h]
    · rw [if_neg hj]
  rw [hv]

/-! ## Dijkstra: a stale pop leaves the state unchanged and is dropped -/

theorem ExitInv_pq (g : Graph) {srcs : List ℤ} {s : DijkstraSearch}
    (h : ExitInv g srcs s) (pq2 : Heap) : ExitInv g srcs { s with pq := pq2 } :=
  { cost_path := h.cost_path, cost_src := h.cost_src,
    cost_valid := h.cost_valid, visited_cost := h.visited_cost,
    tree_ids := h.tree_ids, tree_len_out := h.tree_len_out,
    tree_len_in := h.tree_len_in, tree_rank_vis := h.tree_rank_vis,
    vis_tree := h.vis_tree, tree_edge := h.tree_edge,
    tree_in_edge := h.tree_in_edge, tree_src_edge := h.tree_src_edge }

theorem DInv_deleteMin (g : Graph) {srcs : List ℤ} {s : DijkstraSearch}
    (hInv : DInv g srcs s) (hne : s.pq.items ≠ [])
    (hrootvis : s.visited (nthH s.pq.items 0).Value = true) :
    DInv g srcs { s with pq := s.pq.DeleteMin } := by
  refine
    { toExitInv := ExitInv_pq g hInv.toExitInv _
      heap := DeleteMin_heapProp s.pq hInv.heap
      entry_path := fun e he => hInv.entry_path e (DeleteMin_mem s.pq hne he)
      entry_cost := fun e he => hInv.entry_cost e (DeleteMin_mem s.pq hne he)
      entry_src := fun e he => hInv.entry_src e (DeleteMin_mem s.pq hne he)
      entry_prov := fun e he => hInv.entry_prov e (DeleteMin_mem s.pq hne he)
      visited_relaxed := hInv.visited_relaxed
      frontier := ?_ }
  intro v cv hcv hvis
  obtain ⟨e, he, h1, h2⟩ := hInv.frontier v cv hcv hvis
  refine ⟨e, ?_, h1, h2⟩
  apply DeleteMin_mem_of_ne_root s.pq hne he
  intro heq
  rw [heq] at h1
  rw [h1] at hrootvis
  rw [hrootvis] at hvis
  exact Bool.noConfusion hvis

theorem relaxEdges_stale (g : Graph) (hwf : g.WF) {srcs : List ℤ}
    {s : DijkstraSearch} (hInv : DInv g srcs s) {u : ℤ} (cid : ℤ)
    (hne : s.pq.items ≠ []) (hroot : (nthH s.pq.items 0).Value = u)
    (hvis : s.visited u = true) :
    relaxEdges g s cid u = s := by
  obtain ⟨cu, hcu, _⟩ := hInv.visited_cost u hvis
  have hstep : ∀ ge ∈ g.OutgoingEdges.atIdx u,
      s.Relax (g.nodeAt ge.ID) cid ge.Weight ge.Metadata.Distance = s := by
    intro ge hge
    have hxv := mem_atIdx_target_valid g hwf hge
    have hxid : (g.nodeAt ge.ID).ID = ge.ID := nodeAt_ID g hwf hxv.1 hxv.2
    by_cases hvx : s.visited ge.ID = true
    · apply Relax_visited
      rw [wasVisited_eq, hxid]
      exact hvx
    · obtain ⟨cw, hcw, hcwle⟩ := hInv.visited_relaxed u cu hvis hcu ge hge
      apply Relax_no_improve
      · rw [wasVisited_eq, hxid]
        exact Bool.not_eq_true _ ▸ hvx
      · rw [hxid, minD_eq s.pq hne, hroot, read0_of_some hcu, GetCost_some hcw]
        exact not_lt.mpr hcwle
  rw [relaxEdges]
  have haux : ∀ (l : List Edge), (∀ e ∈ l, e ∈ g.OutgoingEdges.atIdx u) →
      l.foldl (fun acc e =>
        acc.Relax (g.nodeAt e.ID) cid e.Weight e.Metadata.Distance) s = s := by
    intro l
    induction l with
    | nil => intro _; rfl
    | cons a t ih =>
      intro hl
      rw [List.foldl_cons, hstep a (hl a (List.mem_cons_self _ _))]
      exact ih (fun e he => hl e (List.mem_cons_of_mem _ he))
  exact haux _ (fun e he => he)

/-! ## Dijkstra: the fresh pop installs the tree node and its edge -/

theorem bitset_set_true_mono {b : Bitset} {j : ℤ} (i : ℤ) (h : b j = true) :
    (b.Set i true) j = true := by
  unfold Bitset.Set
  split <;> first | rfl | exact h

theorem bitset_set_false_elim {b : Bitset} {i j : ℤ}
    (h : (b.Set i true) j = false) : j ≠ i ∧ b j = false := by
  unfold Bitset.Set at h
  by_cases hj : j = i
  · rw [if_pos hj] at h
    exact absurd h (by simp)
  · rw [if_neg hj] at h
    exact ⟨hj, h⟩

theorem AddNode_eq (g : Graph) (nd : Node) :
    g.AddNode nd = (⟨g.Nodes ++ [{ nd with ID := (g.Nodes.length : ℤ) }],
      g.IncomingEdges ++ [[]], g.OutgoingEdges ++ [[]]⟩,
      (g.Nodes.length : ℤ)) := rfl

theorem addPrevious_eq (s : DijkstraSearch) :
    s.addPrevious =
      (⟨s.pq, s.visited,
        (if (minD s.pq).Previous ≠ (s.previous.Nodes.length : ℤ) then
          ((s.previous.AddNode ⟨0, 0, (minD s.pq).Value⟩).1.RelateNodes
            ⟨(minD s.pq).Previous, 0, 0⟩ ⟨(s.previous.Nodes.length : ℤ), 0, 0⟩
            (minD s.pq).Cost .LeftToRight ⟨0, (minD s.pq).Dist, ""⟩)
        else (s.previous.AddNode ⟨0, 0, (minD s.pq).Value⟩).1),
        s.costs, s.sources, s.target⟩,
      (s.previous.Nodes.length : ℤ)) := rfl

theorem addPrevious_tree (g : Graph) {srcs : List ℤ} {s : DijkstraSearch}
    (hInv : DInv g srcs s)
    (hF : 0 ≤ (minD s.pq).Previous ∧
      (minD s.pq).Previous < (s.previous.Nodes.length : ℤ) + 1) :
    s.addPrevious.1.previous.Nodes
      = s.previous.Nodes ++
        [⟨(s.previous.Nodes.length : ℤ), 0, (minD s.pq).Value⟩] ∧
    s.addPrevious.1.previous.OutgoingEdges.length
      = s.previous.Nodes.length + 1 ∧
    s.addPrevious.1.previous.IncomingEdges.length
      = s.previous.Nodes.length + 1 ∧
    (∀ x e, e ∈ s.addPrevious.1.previous.OutgoingEdges.atIdx x ↔
      (e ∈ s.previous.OutgoingEdges.atIdx x ∨
        ((minD s.pq).Previous ≠ (s.previous.Nodes.length : ℤ) ∧
          x = (minD s.pq).Previous ∧
          e = ⟨(s.previous.Nodes.length : ℤ), (minD s.pq).Cost,
            ⟨0, (minD s.pq).Dist, ""⟩⟩))) ∧
    (∀ x e, e ∈ s.addPrevious.1.previous.IncomingEdges.atIdx x ↔
      (e ∈ s.previous.IncomingEdges.atIdx x ∨
        ((minD s.pq).Previous ≠ (s.previous.Nodes.length : ℤ) ∧
          x = (s.previous.Nodes.length : ℤ) ∧
          e = ⟨(minD s.pq).Previous, (minD s.pq).Cost,
            ⟨0, (minD s.pq).Dist, ""⟩⟩))) := by
  have hlo := hInv.tree_len_out
  have hli := hInv.tree_len_in
  simp only [addPrevious_eq]
  by_cases hcc : (minD s.pq).Previous = (s.previous.Nodes.length : ℤ)
  · rw [if_neg (not_not_intro hcc)]
    simp only [AddNode_eq]
    refine ⟨trivial, by simp [hlo], by simp [hli], ?_, ?_⟩
    · intro x e
      constructor
      · intro h
        exact Or.inl ((mem_atIdx_append_nil _ _ _).mp h)
      · intro h
        rcases h with h | ⟨hne2, _, _⟩
        · exact (mem_atIdx_append_nil _ _ _).mpr h
        · exact absurd hcc hne2
    · intro x e
      constructor
      · intro h
        exact Or.inl ((mem_atIdx_append_nil _ _ _).mp h)
      · intro h
        rcases h with h | ⟨hne2, _, _⟩
        · exact (mem_atIdx_append_nil _ _ _).mpr h
        · exact absurd hcc hne2
  · rw [if_pos hcc]
    simp only [AddNode_eq]
    have hout1 : ((⟨s.previous.Nodes ++ [⟨(s.previous.Nodes.length : ℤ), 0,
        (minD s.pq).Value⟩], s.previous.IncomingEdges ++ [[]],
        s.previous.OutgoingEdges ++ [[]]⟩ : Graph)).OutgoingEdges.length
        = s.previous.Nodes.length + 1 := by simp [hlo]
    have hin1 : ((⟨s.previous.Nodes ++ [⟨(s.previous.Nodes.length : ℤ), 0,
        (minD s.pq).Value⟩], s.previous.IncomingEdges ++ [[]],
        s.previous.OutgoingEdges ++ [[]]⟩ : Graph)).IncomingEdges.length
        = s.previous.Nodes.length + 1 := by simp [hli]
    refine ⟨rfl, ?_, ?_, ?_, ?_⟩
    · rw [Graph.RelateNodes, addIn_outgoing, addOut_out_length]
      exact hout1
    · rw [Graph.RelateNodes, addIn_in_length, addOut_incoming]
      exact hin1
    · intro x e
      rw [mem_relate_out_ltr _ _ _ _ _ hF.1
        (by rw [hout1]
            show (minD s.pq).Previous.toNat < s.previous.Nodes.length + 1
            omega)]
      rw [mem_atIdx_append_nil]
      constructor
      · intro h
        rcases h with h | ⟨h1, h2⟩
        · exact Or.inl h
        · exact Or.inr ⟨hcc, h1, h2⟩
      · intro h
        rcases h with h | ⟨_, h1, h2⟩
        · exact Or.inl h
        · exact Or.inr ⟨h1, h2⟩
    · intro x e
      rw [mem_relate_in_ltr _ _ _ _ _ (by positivity)
        (by rw [hin1]
            show ((s.previous.Nodes.length : ℤ)).toNat < s.previous.Nodes.length + 1
            omega)]
      rw [mem_atIdx_append_nil]
      constructor
      · intro h
        rcases h with h | ⟨h1, h2⟩
        · exact Or.inl h
        · exact Or.inr ⟨hcc, h1, h2⟩
      · intro h
        rcases h with h | ⟨_, h1, h2⟩
        · exact Or.inl h
        · exact Or.inr ⟨h1, h2⟩

theorem mid_of_fresh (g : Graph) (hwf : g.WF) (hnn : g.Nonneg)
    {srcs : List ℤ} {s : DijkstraSearch} (hInv : DInv g srcs s)
    (hne : s.pq.items ≠ [])
    (hfresh : s.visited (minD s.pq).Value = false) :
    MidInv g srcs (minD s.pq).Value (minD s.pq).Cost (minD s.pq)
      { s.addPrevious.1 with
        visited := s.addPrevious.1.visited.Set (minD s.pq).Value true } ∧
    s.addPrevious.2 = (s.previous.Nodes.length : ℤ) ∧
    s.addPrevious.1.previous.Nodes.length = s.previous.Nodes.length + 1 ∧
    rankAt s.addPrevious.1.previous (s.previous.Nodes.length : ℤ)
      = (minD s.pq).Value ∧
    s.addPrevious.1.target = s.target := by
  have hmn : minD s.pq = nthH s.pq.items 0 := minD_eq s.pq hne
  have hroot_mem : minD s.pq ∈ s.pq.items := by
    rw [hmn]
    exact nthH_mem (List.length_pos.mpr hne)
  have hkey := fresh_min_optimal g hnn hInv hne (by rw [← hmn]; exact hfresh)
  rw [← hmn] at hkey
  obtain ⟨hkc, hks⟩ := hkey
  have hprov := hInv.entry_prov _ hroot_mem
  have hF : 0 ≤ (minD s.pq).Previous ∧
      (minD s.pq).Previous < (s.previous.Nodes.length : ℤ) + 1 := by
    rcases hprov with ⟨hp0, _, _, _⟩ | ⟨u2, cu2, ge, _, _, _, _, _, _, hb0, hbn, _⟩
    · rw [hp0]
      exact ⟨le_refl 0, by positivity⟩
    · exact ⟨hb0, by linarith⟩
  obtain ⟨hTn, hTlo, hTli, hTout, hTin⟩ := addPrevious_tree g hInv hF
  have hlen1 : s.addPrevious.1.previous.Nodes.length
      = s.previous.Nodes.length + 1 := by
    rw [hTn]
    simp
  have hrank_pres : ∀ k : ℤ, 0 ≤ k → k < (s.previous.Nodes.length : ℤ) →
      rankAt s.addPrevious.1.previous k = rankAt s.previous k := by
    intro k hk hlt
    unfold rankAt
    rw [nodeAt_keep hTn hk (by omega)]
  have hrank_new : rankAt s.addPrevious.1.previous
      (s.previous.Nodes.length : ℤ) = (minD s.pq).Value := by
    unfold rankAt
    rw [nodeAt_append_last hTn]
  refine ⟨?_, rfl, hlen1, hrank_new, rfl⟩
  exact
   {
    heap := hInv.heap
    pq_ne := hne
    root_eq := hmn.symm
    e0_val := rfl
    e0_cost := rfl
    u_vis := bitset_set_same s.visited _ true
    u_cost := hkc
    u_short := hks
    entry_path := hInv.entry_path
    entry_cost := hInv.entry_cost
    entry_src := hInv.entry_src
    cost_path := hInv.cost_path
    cost_src := hInv.cost_src
    cost_valid := hInv.cost_valid
    visited_cost := by
        intro v hv
        by_cases hveq : v = (minD s.pq).Value
        · subst hveq
          exact ⟨(minD s.pq).Cost, hkc, hks⟩
        · have hv2 : (s.visited.Set (minD s.pq).Value true) v = true := hv
          rw [bitset_set_other _ _ hveq] at hv2
          exact hInv.visited_cost v hv2
    tree_ids := by
        intro k hk
        have hk2 : k < s.previous.Nodes.length + 1 := by
          have hk3 : k < s.addPrevious.1.previous.Nodes.length := hk
          rw [hlen1] at hk3
          exact hk3
        show (s.addPrevious.1.previous.Nodes.getD k default).ID = (k : ℤ)
        rw [hTn]
        by_cases hlt : k < s.previous.Nodes.length
        · rw [List.getD_append _ _ _ _ hlt]
          exact hInv.tree_ids k hlt
        · have hk4 : k = s.previous.Nodes.length := by omega
          subst hk4
          rw [List.getD_eq_getElem _ _ (by simp)]
          rw [List.getElem_concat_length _ _ _ rfl]
    tree_len_out := by
        show s.addPrevious.1.previous.OutgoingEdges.length
          = s.addPrevious.1.previous.Nodes.length
        rw [hTlo, hlen1]
    tree_len_in := by
        show s.addPrevious.1.previous.IncomingEdges.length
          = s.addPrevious.1.previous.Nodes.length
        rw [hTli, hlen1]
    tree_rank_vis := by
        intro k hk
        have hk2 : k < s.previous.Nodes.length + 1 := by
          have hk3 : k < s.addPrevious.1.previous.Nodes.length := hk
          rw [hlen1] at hk3
          exact hk3
        show (s.visited.Set (minD s.pq).Value true)
          (rankAt s.addPrevious.1.previous (k : ℤ)) = true
        by_cases hlt : k < s.previous.Nodes.length
        · rw [hrank_pres (k : ℤ) (by positivity) (by exact_mod_cast hlt)]
          exact bitset_set_true_mono _ (hInv.tree_rank_vis k hlt)
        · have hk4 : k = s.previous.Nodes.length := by omega
          subst hk4
          rw [hrank_new]
          exact bitset_set_same s.visited _ true
    vis_tree := by
        intro v hv
        by_cases hveq : v = (minD s.pq).Value
        · subst hveq
          refine ⟨s.previous.Nodes.length, ?_, hrank_new⟩
          show s.previous.Nodes.length < s.addPrevious.1.previous.Nodes.length
          rw [hlen1]
          omega
        · have hv2 : (s.visited.Set (minD s.pq).Value true) v = true := hv
          rw [bitset_set_other _ _ hveq] at hv2
          obtain ⟨k, hk1, hk2⟩ := hInv.vis_tree v hv2
          refine ⟨k, ?_, ?_⟩
          · show k < s.addPrevious.1.previous.Nodes.length
            rw [hlen1]
            omega
          · rw [hrank_pres (k : ℤ) (by positivity) (by exact_mod_cast hk1)]
            exact hk2
    tree_edge := by
        intro p hp te hte
        have hte2 := (hTout p te).mp hte
        rcases hte2 with hold | ⟨hne2, hx, hedge⟩
        · obtain ⟨hb1, hb2, hb3, hb4, ⟨cw, hcw, hcwe⟩, hmir, hprv⟩ :=
            hInv.tree_edge p hp te hold
          refine ⟨?_, hb2, ?_, hb4, ?_, ?_, ?_⟩
          · show p < (s.addPrevious.1.previous.Nodes.length : ℤ)
            rw [hlen1]
            push_cast
            linarith
          · show te.ID < (s.addPrevious.1.previous.Nodes.length : ℤ)
            rw [hlen1]
            push_cast
            linarith
          · refine ⟨cw, ?_, hcwe⟩
            show s.costs (rankAt s.addPrevious.1.previous te.ID) = some cw
            rw [hrank_pres te.ID hb2 hb3]
            exact hcw
          · exact (hTin te.ID _).mpr (Or.inl hmir)
          · rcases hprv with ⟨hp0, hw0, hm0, hrsrc⟩ | ⟨ge, cp, h1, h2, h3, h4, h5⟩
            · refine Or.inl ⟨hp0, hw0, hm0, ?_⟩
              rw [hrank_pres te.ID hb2 hb3]
              exact hrsrc
            · refine Or.inr ⟨ge, cp, ?_, ?_, ?_, h4, h5⟩
              · rw [hrank_pres p hp hb1]
                exact h1
              · rw [hrank_pres te.ID hb2 hb3]
                exact h2
              · show s.costs (rankAt s.addPrevious.1.previous p) = some cp
                rw [hrank_pres p hp hb1]
                exact h3
        · subst hx
          subst hedge
          refine ⟨?_, by positivity, ?_, ?_, ?_, ?_, ?_⟩
          · show (minD s.pq).Previous
              < (s.addPrevious.1.previous.Nodes.length : ℤ)
            rw [hlen1]
            push_cast
            linarith [hF.2]
          · show ((s.previous.Nodes.length : ℤ))
              < (s.addPrevious.1.previous.Nodes.length : ℤ)
            rw [hlen1]
            push_cast
            linarith
          · exact fun h => hne2 h.symm
          · refine ⟨(minD s.pq).Cost, ?_, rfl⟩
            show s.costs (rankAt s.addPrevious.1.previous
              (s.previous.Nodes.length : ℤ)) = some (minD s.pq).Cost
            rw [hrank_new]
            exact hkc
          · exact (hTin (s.previous.Nodes.length : ℤ) _).mpr
              (Or.inr ⟨hne2, rfl, rfl⟩)
          · rcases hprov with ⟨hp0, hc0, hd0, hsm⟩ |
              ⟨u2, cu2, ge, hvu2, hcu2, hge, hgeid, hcost, hdist, hb0, hbn, hrk⟩
            · refine Or.inl ⟨hp0, hc0, ?_, ?_⟩
              · show (⟨0, (minD s.pq).Dist, ""⟩ : MetaData) = ⟨0, 0, ""⟩
                rw [hd0]
              · rw [hrank_new]
                exact hsm
            · refine Or.inr ⟨ge, cu2, ?_, ?_, ?_, hcost, hdist⟩
              · rw [hrank_pres _ hb0 hbn, hrk]
                exact hge
              · show ge.ID = rankAt s.addPrevious.1.previous
                  (s.previous.Nodes.length : ℤ)
                rw [hrank_new]
                exact hgeid
              · show s.costs (rankAt s.addPrevious.1.previous
                  (minD s.pq).Previous) = some cu2
                rw [hrank_pres _ hb0 hbn, hrk]
                exact hcu2
    tree_in_edge := by
        intro q hq te hte
        rcases (hTin q te).mp hte with hold | ⟨hne2, hx, hedge⟩
        · obtain ⟨h1, h2⟩ := hInv.tree_in_edge q hq te hold
          exact ⟨h1, (hTout te.ID _).mpr (Or.inl h2)⟩
        · subst hx
          subst hedge
          refine ⟨hF.1, ?_⟩
          exact (hTout (minD s.pq).Previous _).mpr (Or.inr ⟨hne2, rfl, rfl⟩)
    tree_src_edge := by
        intro kk h1 h2 h3
        have h2x : kk < (s.addPrevious.1.previous.Nodes.length : ℤ) := h2
        rw [hlen1] at h2x
        push_cast at h2x
        by_cases hlt : kk < (s.previous.Nodes.length : ℤ)
        · have h3x : rankAt s.previous kk ∈ srcs := by
            have h3y : rankAt s.addPrevious.1.previous kk ∈ srcs := h3
            rw [hrank_pres kk (by linarith) hlt] at h3y
            exact h3y
          exact (hTout 0 _).mpr
            (Or.inl (hInv.tree_src_edge kk h1 hlt h3x))
        · have hkk : kk = (s.previous.Nodes.length : ℤ) := by omega
          subst hkk
          have h3y : (minD s.pq).Value ∈ srcs := by
            have h3z : rankAt s.addPrevious.1.previous
              (s.previous.Nodes.length : ℤ) ∈ srcs := h3
            rw [hrank_new] at h3z
            exact h3z
          obtain ⟨hc0, hp0, hd0⟩ := hInv.entry_src _ hroot_mem h3y
          have hne2 : (minD s.pq).Previous ≠ (s.previous.Nodes.length : ℤ) := by
            rw [hp0]
            intro hcon
            rw [← hcon] at h1
            exact absurd h1 (lt_irrefl 0)
          refine (hTout 0 _).mpr (Or.inr ⟨hne2, hp0.symm, ?_⟩)
          rw [hc0, hd0]
    entry_prov := by
        intro e he
        rcases hInv.entry_prov e he with hl |
          ⟨u2, cu2, ge, hv2, hc2, hge, hid, hco, hdi, hb0, hbn, hrk⟩
        · exact Or.inl hl
        · refine Or.inr ⟨u2, cu2, ge, bitset_set_true_mono _ hv2, hc2, hge,
            hid, hco, hdi, hb0, ?_, ?_⟩
          · show e.Previous < (s.addPrevious.1.previous.Nodes.length : ℤ)
            rw [hlen1]
            push_cast
            linarith
          · rw [hrank_pres _ hb0 hbn]
            exact hrk
    vrx := by
        intro u2 cu2 hv2 hne3 hc2
        have hv2x : (s.visited.Set (minD s.pq).Value true) u2 = true := hv2
        rw [bitset_set_other _ _ hne3] at hv2x
        exact hInv.visited_relaxed u2 cu2 hv2x hc2
    frontier := by
        intro v cv hcv hvis2
        have hvis2x : (s.visited.Set (minD s.pq).Value true) v = false := hvis2
        obtain ⟨_, hvF⟩ := bitset_set_false_elim hvis2x
        exact hInv.frontier v cv hcv hvF }

/-! ## Dijkstra: a single relaxation preserves the mid-loop invariant -/

theorem relax_improve_mid (g : Graph) (hwf : g.WF) (hnn : g.Nonneg)
    {srcs : List ℤ} (hsrcv : ∀ x ∈ srcs, 0 ≤ x ∧ x < (g.n : ℤ))
    {u : ℤ} {cu : ℚ} {e0 : HNode} {s : DijkstraSearch}
    (hM : MidInv g srcs u cu e0 s) {cid : ℤ}
    (hcid0 : 0 ≤ cid) (hcidlt : cid < (s.previous.Nodes.length : ℤ))
    (hcidrk : rankAt s.previous cid = u)
    {ge : Edge} (hge : ge ∈ g.OutgoingEdges.atIdx u)
    (hvx : s.visited ge.ID = false)
    (hGC : cu + ge.Weight < (s.costs.GetCost ge.ID).1) :
    MidInv g srcs u cu e0
        (s.Relax (g.nodeAt ge.ID) cid ge.Weight ge.Metadata.Distance) ∧
    (∃ cw, (s.Relax (g.nodeAt ge.ID) cid ge.Weight
        ge.Metadata.Distance).costs ge.ID = some cw ∧ cw ≤ cu + ge.Weight) ∧
    (∀ v cv, s.costs v = some cv →
      ∃ cv2, (s.Relax (g.nodeAt ge.ID) cid ge.Weight
        ge.Metadata.Distance).costs v = some cv2 ∧ cv2 ≤ cv) ∧
    (∀ v, s.visited v = true → (s.Relax (g.nodeAt ge.ID) cid ge.Weight
      ge.Metadata.Distance).costs v = s.costs v) ∧
    (s.Relax (g.nodeAt ge.ID) cid ge.Weight
      ge.Metadata.Distance).previous = s.previous ∧
    (s.Relax (g.nodeAt ge.ID) cid ge.Weight
      ge.Metadata.Distance).visited = s.visited ∧
    (s.Relax (g.nodeAt ge.ID) cid ge.Weight
      ge.Metadata.Distance).target = s.target := by
  have hxv := mem_atIdx_target_valid g hwf hge
  have hxid : (g.nodeAt ge.ID).ID = ge.ID := nodeAt_ID g hwf hxv.1 hxv.2
  have hw0 : 0 ≤ ge.Weight := mem_atIdx_weight_nonneg g hnn hge
  have hcu0 : 0 ≤ cu := (hM.cost_path u cu hM.u_cost).2.1
  have hcuB : cu + ge.Weight ≤ totalWeight g :=
    shortest_succ_bound g hwf hnn hsrcv hM.u_short hge
  have hmnv : (minD s.pq).Value = u := by
    rw [minD_eq s.pq hM.pq_ne, hM.root_eq, hM.e0_val]
  have hread : s.costs.read0 (minD s.pq).Value = cu := by
    rw [hmnv]
    exact read0_of_some hM.u_cost
  have heq := Relax_improve s (g.nodeAt ge.ID) cid ge.Weight
    ge.Metadata.Distance (by rw [wasVisited_eq, hxid]; exact hvx)
    (by rw [hxid, hread]; exact hGC)
  rw [hxid, hread] at heq
  rw [heq]
  have hlt : ∀ cv, s.costs ge.ID = some cv → cu + ge.Weight < cv := by
    intro cv h
    rw [GetCost_some h] at hGC
    exact hGC
  have hxnsrc : ge.ID ∉ srcs := by
    intro hmem
    have h0 := hM.cost_src ge.ID hmem
    have := hlt 0 h0
    linarith
  obtain ⟨s0, hs0, l0, hp0⟩ := hM.u_short.1
  have hxpath : PathCost g s0 ge.ID (cu + ge.Weight) (ge.ID :: l0) :=
    .cons hp0 hge
  have hdec : ∀ v cv, s.costs v = some cv →
      ∃ cv2, (s.costs.store ge.ID (cu + ge.Weight)) v = some cv2 ∧ cv2 ≤ cv := by
    intro v cv h
    by_cases hv : v = ge.ID
    · subst hv
      exact ⟨cu + ge.Weight, store_same _ _ _, le_of_lt (hlt cv h)⟩
    · exact ⟨cv, by rw [store_other _ _ hv]; exact h, le_refl cv⟩
  have hviskeep : ∀ v, s.visited v = true →
      (s.costs.store ge.ID (cu + ge.Weight)) v = s.costs v := by
    intro v hv
    have hvne : v ≠ ge.ID := by
      intro h
      subst h
      rw [hv] at hvx
      exact Bool.noConfusion hvx
    rw [store_other _ _ hvne]
  have hrootst : nthH (s.pq.Insert ⟨ge.ID, cu + ge.Weight,
      (minD s.pq).Depth + 1, cid, cu + ge.Metadata.Distance⟩).items 0 = e0 := by
    rw [Insert_root_stable s.pq _ hM.pq_ne
      (by rw [hM.root_eq, hM.e0_cost]; show cu ≤ cu + ge.Weight; linarith)]
    exact hM.root_eq
  have hrv_of_bounds : ∀ q : ℤ, 0 ≤ q → q < (s.previous.Nodes.length : ℤ) →
      s.visited (rankAt s.previous q) = true := by
    intro q h0 hq
    have := hM.tree_rank_vis q.toNat (by omega)
    rw [Int.toNat_of_nonneg h0] at this
    exact this
  refine ⟨?_, ⟨cu + ge.Weight, store_same _ _ _, le_refl _⟩, hdec,
    hviskeep, rfl, rfl, rfl⟩
  exact
   {
    heap := Insert_heapProp _ _ hM.heap
    pq_ne := Insert_ne_nil _ _
    root_eq := hrootst
    e0_val := hM.e0_val
    e0_cost := hM.e0_cost
    u_vis := hM.u_vis
    u_cost := by
        show (s.costs.store ge.ID (cu + ge.Weight)) u = some cu
        rw [hviskeep u hM.u_vis]
        exact hM.u_cost
    u_short := hM.u_short
    entry_path := by
        intro e he
        rcases Insert_mem_elim _ _ he with rfl | hold
        · exact ⟨s0, hs0, ge.ID :: l0, hxpath⟩
        · exact hM.entry_path e hold
    entry_cost := by
        intro e he
        rcases Insert_mem_elim _ _ he with rfl | hold
        · exact ⟨cu + ge.Weight, store_same _ _ _, le_refl _⟩
        · obtain ⟨cv, hcv, hle⟩ := hM.entry_cost e hold
          obtain ⟨cv2, h2, hle2⟩ := hdec e.Value cv hcv
          exact ⟨cv2, h2, le_trans hle2 hle⟩
    entry_src := by
        intro e he hmem
        rcases Insert_mem_elim _ _ he with rfl | hold
        · exact absurd hmem hxnsrc
        · exact hM.entry_src e hold hmem
    entry_prov := by
        intro e he
        rcases Insert_mem_elim _ _ he with rfl | hold
        · refine Or.inr ⟨u, cu, ge, hM.u_vis, ?_, hge, rfl, rfl, rfl,
            hcid0, hcidlt, hcidrk⟩
          show (s.costs.store ge.ID (cu + ge.Weight)) u = some cu
          rw [hviskeep u hM.u_vis]
          exact hM.u_cost
        · rcases hM.entry_prov e hold with hl |
            ⟨u2, cu2, ge2, hv2, hc2, hge2, hid2, hco2, hdi2, hb0, hbn, hrk⟩
          · exact Or.inl hl
          · refine Or.inr ⟨u2, cu2, ge2, hv2, ?_, hge2, hid2, hco2, hdi2,
              hb0, hbn, hrk⟩
            show (s.costs.store ge.ID (cu + ge.Weight)) u2 = some cu2
            rw [hviskeep u2 hv2]
            exact hc2
    cost_path := by
        intro v cv hcv
        by_cases hv : v = ge.ID
        · subst hv
          have hcveq : cv = cu + ge.Weight := by
            have hcvx : (s.costs.store ge.ID (cu + ge.Weight)) ge.ID
                = some cv := hcv
            rw [store_same] at hcvx
            exact (Option.some.inj hcvx).symm
          subst hcveq
          exact ⟨⟨s0, hs0, ge.ID :: l0, hxpath⟩, by linarith, hcuB⟩
        · have hcv2 : s.costs v = some cv := by
            rw [← store_other s.costs (cu + ge.Weight) hv]
            exact hcv
          exact hM.cost_path v cv hcv2
    cost_src := by
        intro v hmem
        have hvne : v ≠ ge.ID := by
          intro h
          subst h
          exact hxnsrc hmem
        show (s.costs.store ge.ID (cu + ge.Weight)) v = some 0
        rw [store_other _ _ hvne]
        exact hM.cost_src v hmem
    cost_valid := by
        intro v hv
        by_cases hveq : v = ge.ID
        · subst hveq
          exact hxv
        · apply hM.cost_valid v
          have hv2 : ((s.costs.store ge.ID (cu + ge.Weight)) v).isSome
              = true := hv
          rw [store_other _ _ hveq] at hv2
          exact hv2
    visited_cost := by
        intro v hv
        obtain ⟨cv, hcv, hsh⟩ := hM.visited_cost v hv
        refine ⟨cv, ?_, hsh⟩
        show (s.costs.store ge.ID (cu + ge.Weight)) v = some cv
        rw [hviskeep v hv]
        exact hcv
    tree_ids := hM.tree_ids
    tree_len_out := hM.tree_len_out
    tree_len_in := hM.tree_len_in
    tree_rank_vis := hM.tree_rank_vis
    vis_tree := hM.vis_tree
    tree_edge := by
        intro p hp te hte
        obtain ⟨hb1, hb2, hb3, hb4, ⟨cw, hcw, hcwe⟩, hmir, hprv⟩ :=
          hM.tree_edge p hp te hte
        refine ⟨hb1, hb2, hb3, hb4, ?_, hmir, ?_⟩
        · refine ⟨cw, ?_, hcwe⟩
          show (s.costs.store ge.ID (cu + ge.Weight))
            (rankAt s.previous te.ID) = some cw
          rw [hviskeep _ (hrv_of_bounds te.ID hb2 hb3)]
          exact hcw
        · rcases hprv with hl | ⟨ge2, cp, h1, h2, h3, h4, h5⟩
          · exact Or.inl hl
          · refine Or.inr ⟨ge2, cp, h1, h2, ?_, h4, h5⟩
            show (s.costs.store ge.ID (cu + ge.Weight))
              (rankAt s.previous p) = some cp
            rw [hviskeep _ (hrv_of_bounds p hp hb1)]
            exact h3
    tree_in_edge := hM.tree_in_edge
    tree_src_edge := hM.tree_src_edge
    vrx := by
        intro u2 cu2 hv2 hne2 hc2
        have hc2x : (s.costs.store ge.ID (cu + ge.Weight)) u2 = some cu2 := hc2
        rw [hviskeep u2 hv2] at hc2x
        intro ge2 hge2
        obtain ⟨cw, hcw, hle⟩ := hM.vrx u2 cu2 hv2 hne2 hc2x ge2 hge2
        obtain ⟨cw2, h2, hle2⟩ := hdec ge2.ID cw hcw
        exact ⟨cw2, h2, le_trans hle2 hle⟩
    frontier := by
        intro v cv hcv hvis
        by_cases hveq : v = ge.ID
        · subst hveq
          have hcveq : cv = cu + ge.Weight := by
            have hcvx : (s.costs.store ge.ID (cu + ge.Weight)) ge.ID
                = some cv := hcv
            rw [store_same] at hcvx
            exact (Option.some.inj hcvx).symm
          subst hcveq
          exact ⟨_, Insert_mem_new s.pq _, rfl, rfl⟩
        · have hcv2 : s.costs v = some cv := by
            rw [← store_other s.costs (cu + ge.Weight) hveq]
            exact hcv
          obtain ⟨e, he, he1, he2⟩ := hM.frontier v cv hcv2 hvis
          exact ⟨e, Insert_mem_of_mem s.pq _ he, he1, he2⟩ }

theorem relax_step (g : Graph) (hwf : g.WF) (hnn : g.Nonneg)
    (hB : totalWeight g < INFINITE) {srcs : List ℤ}
    (hsrcv : ∀ x ∈ srcs, 0 ≤ x ∧ x < (g.n : ℤ))
    {u : ℤ} {cu : ℚ} {e0 : HNode} {s : DijkstraSearch}
    (hM : MidInv g srcs u cu e0 s) {cid : ℤ}
    (hcid0 : 0 ≤ cid) (hcidlt : cid < (s.previous.Nodes.length : ℤ))
    (hcidrk : rankAt s.previous cid = u)
    {ge : Edge} (hge : ge ∈ g.OutgoingEdges.atIdx u) :
    MidInv g srcs u cu e0
        (s.Relax (g.nodeAt ge.ID) cid ge.Weight ge.Metadata.Distance) ∧
    (∃ cw, (s.Relax (g.nodeAt ge.ID) cid ge.Weight
        ge.Metadata.Distance).costs ge.ID = some cw ∧ cw ≤ cu + ge.Weight) ∧
    (∀ v cv, s.costs v = some cv →
      ∃ cv2, (s.Relax (g.nodeAt ge.ID) cid ge.Weight
        ge.Metadata.Distance).costs v = some cv2 ∧ cv2 ≤ cv) ∧
    (∀ v, s.visited v = true → (s.Relax (g.nodeAt ge.ID) cid ge.Weight
      ge.Metadata.Distance).costs v = s.costs v) ∧
    (s.Relax (g.nodeAt ge.ID) cid ge.Weight
      ge.Metadata.Distance).previous = s.previous ∧
    (s.Relax (g.nodeAt ge.ID) cid ge.Weight
      ge.Metadata.Distance).visited = s.visited ∧
    (s.Relax (g.nodeAt ge.ID) cid ge.Weight
      ge.Metadata.Distance).target = s.target := by
  have hxv := mem_atIdx_target_valid g hwf hge
  have hxid : (g.nodeAt ge.ID).ID = ge.ID := nodeAt_ID g hwf hxv.1 hxv.2
  by_cases hvx : s.visited ge.ID = true
  · have heq : s.Relax (g.nodeAt ge.ID) cid ge.Weight ge.Metadata.Distance
        = s := Relax_visited _ _ _ _ _ (by rw [wasVisited_eq, hxid]; exact hvx)
    rw [heq]
    obtain ⟨cx, hcx, hshx⟩ := hM.visited_cost ge.ID hvx
    obtain ⟨s0, hs0, l0, hp0⟩ := hM.u_short.1
    have hxpath : PathCost g s0 ge.ID (cu + ge.Weight) (ge.ID :: l0) :=
      .cons hp0 hge
    have hbound := hshx.2 s0 hs0 _ _ hxpath
    exact ⟨hM, ⟨cx, hcx, hbound⟩, fun v cv h => ⟨cv, h, le_refl cv⟩,
      fun v _ => rfl, rfl, rfl, rfl⟩
  · have hvx2 : s.visited ge.ID = false := Bool.not_eq_true _ ▸ hvx
    cases hcx : s.costs ge.ID with
    | some cx =>
      by_cases himp : cu + ge.Weight < cx
      · exact relax_improve_mid g hwf hnn hsrcv hM hcid0 hcidlt hcidrk hge hvx2
          (by rw [GetCost_some hcx]; exact himp)
      · have hmnv : (minD s.pq).Value = u := by
          rw [minD_eq s.pq hM.pq_ne, hM.root_eq, hM.e0_val]
        have hread : s.costs.read0 (minD s.pq).Value = cu := by
          rw [hmnv]
          exact read0_of_some hM.u_cost
        have heq : s.Relax (g.nodeAt ge.ID) cid ge.Weight ge.Metadata.Distance
            = s := Relax_no_improve _ _ _ _ _
          (by rw [wasVisited_eq, hxid]; exact hvx2)
          (by rw [hxid, hread, GetCost_some hcx]; exact himp)
        rw [heq]
        exact ⟨hM, ⟨cx, hcx, not_lt.mp himp⟩, fun v cv h => ⟨cv, h, le_refl cv⟩,
          fun v _ => rfl, rfl, rfl, rfl⟩
    | none =>
      have hcuB := shortest_succ_bound g hwf hnn hsrcv hM.u_short hge
      exact relax_improve_mid g hwf hnn hsrcv hM hcid0 hcidlt hcidrk hge hvx2
        (by rw [GetCost_none hcx]; exact lt_of_le_of_lt hcuB hB)

theorem relax_fold (g : Graph) (hwf : g.WF) (hnn : g.Nonneg)
    (hB : totalWeight g < INFINITE) {srcs : List ℤ}
    (hsrcv : ∀ x ∈ srcs, 0 ≤ x ∧ x < (g.n : ℤ)) {u : ℤ} {cu : ℚ} {e0 : HNode} :
    ∀ (es : List Edge) (s : DijkstraSearch), MidInv g srcs u cu e0 s →
    (∀ e ∈ es, e ∈ g.OutgoingEdges.atIdx u) →
    ∀ (cid : ℤ), 0 ≤ cid → cid < (s.previous.Nodes.length : ℤ) →
    rankAt s.previous cid = u →
    MidInv g srcs u cu e0 (es.foldl (fun acc e =>
      acc.Relax (g.nodeAt e.ID) cid e.Weight e.Metadata.Distance) s) ∧
    (∀ ge ∈ es, ∃ cw, (es.foldl (fun acc e =>
      acc.Relax (g.nodeAt e.ID) cid e.Weight e.Metadata.Distance) s).costs
        ge.ID = some cw ∧ cw ≤ cu + ge.Weight) ∧
    (∀ v cv, s.costs v = some cv → ∃ cv2, (es.foldl (fun acc e =>
      acc.Relax (g.nodeAt e.ID) cid e.Weight e.Metadata.Distance) s).costs v
        = some cv2 ∧ cv2 ≤ cv) ∧
    (∀ v, s.visited v = true → (es.foldl (fun acc e =>
      acc.Relax (g.nodeAt e.ID) cid e.Weight e.Metadata.Distance) s).costs v
        = s.costs v) ∧
    (es.foldl (fun acc e =>
      acc.Relax (g.nodeAt e.ID) cid e.Weight e.Metadata.Distance) s).previous
      = s.previous ∧
    (es.foldl (fun acc e =>
      acc.Relax (g.nodeAt e.ID) cid e.Weight e.Metadata.Distance) s).visited
      = s.visited ∧
    (es.foldl (fun acc e =>
      acc.Relax (g.nodeAt e.ID) cid e.Weight e.Metadata.Distance) s).target
      = s.target := by
  intro es
  induction es with
  | nil =>
    intro s hM _ cid h1 h2 h3
    exact ⟨hM, by simp, fun v cv h => ⟨cv, h, le_refl cv⟩, fun v _ => rfl,
      rfl, rfl, rfl⟩
  | cons a t ih =>
    intro s hM hes cid h1 h2 h3
    obtain ⟨hM1, ⟨cwa, hcwa, hlea⟩, hdec1, hkeep1, hprev1, hvis1, htgt1⟩ :=
      relax_step g hwf hnn hB hsrcv hM h1 h2 h3 (hes a (List.mem_cons_self _ _))
    simp only [List.foldl_cons]
    obtain ⟨hM2, hrel2, hdec2, hkeep2, hprev2, hvis2, htgt2⟩ :=
      ih (s.Relax (g.nodeAt a.ID) cid a.Weight a.Metadata.Distance) hM1
        (fun e he => hes e (List.mem_cons_of_mem _ he)) cid h1
        (by rw [hprev1]; exact h2) (by rw [hprev1]; exact h3)
    refine ⟨hM2, ?_, ?_, ?_, ?_, ?_, ?_⟩
    · intro geb hgeb
      rcases List.mem_cons.mp hgeb with rfl | hmem
      · obtain ⟨cw2, hc2, hle2⟩ := hdec2 geb.ID cwa hcwa
        exact ⟨cw2, hc2, le_trans hle2 hlea⟩
      · exact hrel2 geb hmem
    · intro v cv h
      obtain ⟨cv1, hc1, hl1⟩ := hdec1 v cv h
      obtain ⟨cv2, hc2, hl2⟩ := hdec2 v cv1 hc1
      exact ⟨cv2, hc2, le_trans hl2 hl1⟩
    · intro v hv
      rw [hkeep2 v (by rw [hvis1]; exact hv), hkeep1 v hv]
    · rw [hprev2, hprev1]
    · rw [hvis2, hvis1]
    · rw [htgt2, htgt1]

theorem dinv_after_relax (g : Graph) {srcs : List ℤ} {u : ℤ} {cu : ℚ}
    {e0 : HNode} (s3 : DijkstraSearch) (hM : MidInv g srcs u cu e0 s3)
    (hrel : ∀ ge ∈ g.OutgoingEdges.atIdx u,
      ∃ cw, s3.costs ge.ID = some cw ∧ cw ≤ cu + ge.Weight) :
    DInv g srcs { s3 with pq := s3.pq.DeleteMin } := by
  have hInv3 : DInv g srcs s3 :=
    { toExitInv := hM.toExitInv
      heap := hM.heap
      entry_path := hM.entry_path
      entry_cost := hM.entry_cost
      entry_src := hM.entry_src
      entry_prov := hM.entry_prov
      visited_relaxed := by
        intro u2 cu2 hv2 hc2 ge hge
        by_cases hu2 : u2 = u
        · subst hu2
          have hcu2 : cu = cu2 := by
            rw [hM.u_cost] at hc2
            exact Option.some.inj hc2
          rw [← hcu2]
          exact hrel ge hge
        · exact hM.vrx u2 cu2 hv2 hu2 hc2 ge hge
      frontier := hM.frontier }
  exact DInv_deleteMin g hInv3 hM.pq_ne
    (by rw [hM.root_eq, hM.e0_val]; exact hM.u_vis)

theorem isFinished_iff (s : DijkstraSearch) :
    s.isFinished = true ↔ s.pq.items = [] := by
  unfold DijkstraSearch.isFinished Heap.IsEmpty
  rw [beq_iff_eq, List.length_eq_zero]

theorem reachTarget_elim {s : DijkstraSearch} {v : ℤ}
    (h : s.reachTarget v = true) : 0 ≤ s.target ∧ v = s.target := by
  unfold DijkstraSearch.reachTarget at h
  rw [Bool.and_eq_true] at h
  constructor
  · have h1 := h.1
    rw [decide_eq_true_eq] at h1
    exact h1
  · have h2 := h.2
    rw [beq_iff_eq] at h2
    exact h2

/-! ## Dijkstra: the main loop invariant theorem -/

theorem runAux_spec (g : Graph) (hwf : g.WF) (hnn : g.Nonneg)
    (hB : totalWeight g < INFINITE) {srcs : List ℤ}
    (hsrcv : ∀ x ∈ srcs, 0 ≤ x ∧ x < (g.n : ℤ)) :
    ∀ (fuel : ℕ) (s : DijkstraSearch) (cid : ℤ) (resp : Response) (g2 : Graph),
    DInv g srcs s → runAux fuel s g cid = some (resp, g2) →
    ∃ sf : DijkstraSearch, resp.SearchSpace = sf.previous ∧
      resp.Costs = sf.costs ∧ sf.target = s.target ∧ ExitInv g srcs sf ∧
      ((DInv g srcs sf ∧ sf.pq.items = []) ∨
        (0 ≤ sf.target ∧ sf.visited sf.target = true)) := by
  intro fuel
  induction fuel with
  | zero =>
    intro s cid resp g2 _ h
    simp [runAux] at h
  | succ n ih =>
    intro s cid resp g2 hInv h
    simp only [runAux] at h
    split at h
    next hfin =>
      injection Option.some.inj h with h1 h2
      subst h1
      exact ⟨s, rfl, rfl, rfl, hInv.toExitInv,
        Or.inl ⟨hInv, (isFinished_iff s).mp hfin⟩⟩
    next hfin =>
      have hne : s.pq.items ≠ [] := fun hcon => hfin ((isFinished_iff s).mpr hcon)
      split at h
      next hfr =>
        have hfresh : s.visited (minD s.pq).Value = false :=
          Bool.not_eq_true _ ▸ hfr
        obtain ⟨hMid, hap2, hlen, hrank, htgtAP⟩ :=
          mid_of_fresh g hwf hnn hInv hne hfresh
        split at h
        next ht =>
          injection Option.some.inj h with h1 h2
          subst h1
          refine ⟨{ s.addPrevious.1 with
              visited := s.addPrevious.1.visited.Set (minD s.pq).Value true },
            rfl, rfl, htgtAP, hMid.toExitInv, Or.inr ?_⟩
          · have ht2 : ({ s.addPrevious.1 with
                visited := s.addPrevious.1.visited.Set (minD s.pq).Value true
                } : DijkstraSearch).reachTarget (minD s.pq).Value = true := ht
            obtain ⟨htg0, htgv⟩ := reachTarget_elim ht2
            refine ⟨htg0, ?_⟩
            rw [← htgv]
            exact bitset_set_same _ _ true
        next ht =>
          have hcid0 : (0 : ℤ) ≤ s.addPrevious.2 := by
            rw [hap2]
            positivity
          have hcidlt : s.addPrevious.2
              < (s.addPrevious.1.previous.Nodes.length : ℤ) := by
            rw [hap2, hlen]
            push_cast
            linarith
          have hcidrk : rankAt s.addPrevious.1.previous s.addPrevious.2
              = (minD s.pq).Value := by
            rw [hap2]
            exact hrank
          obtain ⟨hM3, hrel3, hdec3, hkeep3, hprev3, hvis3, htgt3⟩ :=
            relax_fold g hwf hnn hB hsrcv
              (g.OutgoingEdges.atIdx (minD s.pq).Value)
              { s.addPrevious.1 with
                visited := s.addPrevious.1.visited.Set (minD s.pq).Value true }
              hMid (fun e he => he) s.addPrevious.2 hcid0 hcidlt hcidrk
          have hInv4 := dinv_after_relax g _ hM3 hrel3
          obtain ⟨sf, hh1, hh2, hh3, hh4, hh5⟩ :=
            ih _ s.addPrevious.2 resp g2 hInv4 h
          refine ⟨sf, hh1, hh2, ?_, hh4, hh5⟩
          rw [hh3]
          exact htgt3.trans htgtAP
      next hfr =>
        have hvv : s.visited (minD s.pq).Value = true := not_not.mp hfr
        have hS2s : ({ s with
            visited := s.visited.Set (minD s.pq).Value true }
            : DijkstraSearch) = s := set_visited_self s hvv
        have hroot : (nthH s.pq.items 0).Value = (minD s.pq).Value := by
          rw [← minD_eq s.pq hne]
        split at h
        next ht =>
          injection Option.some.inj h with h1 h2
          subst h1
          refine ⟨s, rfl, rfl, rfl, hInv.toExitInv, Or.inr ?_⟩
          · have ht2 : ({ s with
                visited := s.visited.Set (minD s.pq).Value true }
                : DijkstraSearch).reachTarget (minD s.pq).Value = true := ht
            rw [hS2s] at ht2
            obtain ⟨htg0, htgv⟩ := reachTarget_elim ht2
            exact ⟨htg0, by rw [← htgv]; exact hvv⟩
        next ht =>
          have hrelstale : relaxEdges g s cid (minD s.pq).Value = s :=
            relaxEdges_stale g hwf hInv cid hne hroot hvv
          have hInv4 : DInv g srcs
              { relaxEdges g ({ s with
                  visited := s.visited.Set (minD s.pq).Value true })
                  cid (minD s.pq).Value with
                pq := (relaxEdges g ({ s with
                  visited := s.visited.Set (minD s.pq).Value true })
                  cid (minD s.pq).Value).pq.DeleteMin } := by
            rw [hS2s, hrelstale]
            exact DInv_deleteMin g hInv hne (by rw [hroot]; exact hvv)
          have hXt : (relaxEdges g ({ s with
              visited := s.visited.Set (minD s.pq).Value true })
              cid (minD s.pq).Value).target = s.target := by
            rw [hS2s, hrelstale]
          obtain ⟨sf, hh1, hh2, hh3, hh4, hh5⟩ := ih _ cid resp g2 hInv4 h
          refine ⟨sf, hh1, hh2, ?_, hh4, hh5⟩
          rw [hh3]
          exact hXt

/-! ## Dijkstra: consequences at the exits -/

theorem exhausted_all_visited (g : Graph) (hnn : g.Nonneg) {srcs : List ℤ}
    {sf : DijkstraSearch} (hInv : DInv g srcs sf) (hemp : sf.pq.items = []) :
    ∀ v, ReachableFrom g srcs v → sf.visited v = true := by
  rintro v ⟨src, hsrc, c, l, hp⟩
  by_contra hnv
  have hnv2 : sf.visited v = false := Bool.not_eq_true _ ▸ hnv
  obtain ⟨x, cx, hx1, hx2, hx3⟩ :=
    frontier_reach g hnn hInv src hsrc v c l hp hnv2
  obtain ⟨e, he, _, _⟩ := hInv.frontier x cx hx2 hx1
  rw [hemp] at he
  exact absurd he (List.not_mem_nil e)

theorem NewDijkstra_target (c : Criteria) :
    (NewDijkstra c).target = c.target := by
  have hND : NewDijkstra c = c.Source.foldl (fun s v =>
      { s with
        costs := s.costs.store v 0
        pq := s.pq.Insert ⟨v, 0, 0, 0, 0⟩
        sources := s.sources.Set v true })
      ⟨Create, NewBigInt, EmptyGraph, fun _ => none, NewBigInt,
        if 0 < c.Targets.length then c.Targets.headD (-1) else -1⟩ := rfl
  have haux : ∀ (l : List ℤ) (s0 : DijkstraSearch),
      (l.foldl (fun s v =>
        { s with
          costs := s.costs.store v 0
          pq := s.pq.Insert ⟨v, 0, 0, 0, 0⟩
          sources := s.sources.Set v true }) s0).target = s0.target := by
    intro l
    induction l with
    | nil => intro s0; rfl
    | cons a t ih =>
      intro s0
      rw [List.foldl_cons]
      exact ih _
  rw [hND, haux]
  rfl

theorem run_spec (g : Graph) (hwf : g.WF) (hnn : g.Nonneg)
    (hB : totalWeight g < INFINITE) (c : Criteria)
    (hsrcv : ∀ x ∈ c.Source, 0 ≤ x ∧ x < (g.n : ℤ))
    (fuel : ℕ) (resp : Response) (g2 : Graph)
    (hrun : (NewDijkstra c).Run g fuel = some (resp, g2)) :
    ∃ sf : DijkstraSearch, resp.SearchSpace = sf.previous ∧
      resp.Costs = sf.costs ∧ sf.target = c.target ∧
      ExitInv g c.Source sf ∧
      ((DInv g c.Source sf ∧ sf.pq.items = []) ∨
        (0 ≤ sf.target ∧ sf.visited sf.target = true)) := by
  obtain ⟨sf, h1, h2, h3, h4, h5⟩ := runAux_spec g hwf hnn hB hsrcv fuel
    (NewDijkstra c) 0 resp g2 (newDijkstra_DInv g hnn c hsrcv) hrun
  exact ⟨sf, h1, h2, h3.trans (NewDijkstra_target c), h4, h5⟩

/-- C1 (amended): for every well-formed graph with non-negative edge weights
whose total weight stays below the `INFINITE` sentinel, and every `Criteria`
with distinct valid sources, the `Costs` map of the `Run` response maps
every reachable node to the true shortest-path cost (minimum over all
sources) **provided no early-termination return fires** (no non-negative
configured target, or an unreachable one); the configured early-termination
target itself always receives its true shortest-path cost when it is
reachable.  (The original claim promised this for every reachable target
even with early termination; the early return leaves later targets' costs
stale, see the counterexample.) -/
theorem dijkstra_costs_shortest (g : Graph) (hwf : g.WF) (hnn : g.Nonneg)
    (hB : totalWeight g < INFINITE) (c : Criteria) (hsrc : SourcesOK g c.Source)
    (fuel : ℕ) (resp : Response) (g2 : Graph)
    (hrun : (NewDijkstra c).Run g fuel = some (resp, g2)) :
    (NoEarlyStop g c → ∀ v, ReachableFrom g c.Source v →
      ∃ cv, resp.Costs v = some cv ∧ IsShortest g c.Source v cv) ∧
    (0 ≤ c.target → ReachableFrom g c.Source c.target →
      ∃ cv, resp.Costs c.target = some cv ∧
        IsShortest g c.Source c.target cv) := by
  obtain ⟨sf, h1, h2, h3, h4, h5⟩ :=
    run_spec g hwf hnn hB c hsrc.2.2 fuel resp g2 hrun
  constructor
  · intro hnes v hreach
    rcases h5 with ⟨hInvf, hemp⟩ | ⟨htg0, htgv⟩
    · have hv := exhausted_all_visited g hnn hInvf hemp v hreach
      obtain ⟨cv, hcv, hsh⟩ := hInvf.visited_cost v hv
      exact ⟨cv, by rw [h2]; exact hcv, hsh⟩
    · exfalso
      rcases hnes with hlt | hnreach
      · rw [h3] at htg0
        linarith
      · obtain ⟨cv, hcv, hsh⟩ := h4.visited_cost sf.target htgv
        obtain ⟨s0, hs0, l0, hp0⟩ := hsh.1
        apply hnreach
        rw [← h3]
        exact ⟨s0, hs0, cv, l0, hp0⟩
  · intro htg0 hreach
    rcases h5 with ⟨hInvf, hemp⟩ | ⟨_, htgv⟩
    · have hv := exhausted_all_visited g hnn hInvf hemp c.target hreach
      obtain ⟨cv, hcv, hsh⟩ := hInvf.visited_cost _ hv
      exact ⟨cv, by rw [h2]; exact hcv, hsh⟩
    · rw [h3] at htgv
      obtain ⟨cv, hcv, hsh⟩ := h4.visited_cost c.target htgv
      exact ⟨cv, by rw [h2]; exact hcv, hsh⟩

/-- C3 (amended): every edge of the returned `SearchSpace` runs LeftToRight
from the predecessor's tree id `p` to the child's tree id `te.ID` (with the
incoming mirror entry present, and conversely every incoming entry mirrors an
outgoing one); its weight equals the child's TOTAL accumulated cost, not the
cost delta, and its metadata distance equals the predecessor's total cost
plus the traversed edge's distance metadata, not the distance delta (for the
artificial edges that attach additional sources to tree node 0, weight and
distance are 0). -/
theorem searchSpace_edges (g : Graph) (hwf : g.WF) (hnn : g.Nonneg)
    (hB : totalWeight g < INFINITE) (c : Criteria) (hsrc : SourcesOK g c.Source)
    (fuel : ℕ) (resp : Response) (g2 : Graph)
    (hrun : (NewDijkstra c).Run g fuel = some (resp, g2)) :
    (∀ p : ℤ, 0 ≤ p → ∀ te ∈ resp.SearchSpace.OutgoingEdges.atIdx p,
      (⟨p, te.Weight, te.Metadata⟩ : Edge)
          ∈ resp.SearchSpace.IncomingEdges.atIdx te.ID ∧
      te.ID ≠ p ∧ 0 ≤ te.ID ∧
      (∃ cw, resp.Costs (rankAt resp.SearchSpace te.ID) = some cw ∧
        te.Weight = cw) ∧
      ((p = 0 ∧ te.Weight = 0 ∧ te.Metadata = ⟨0, 0, ""⟩ ∧
          rankAt resp.SearchSpace te.ID ∈ c.Source) ∨
        (∃ ge cp, ge ∈ g.OutgoingEdges.atIdx (rankAt resp.SearchSpace p) ∧
          ge.ID = rankAt resp.SearchSpace te.ID ∧
          resp.Costs (rankAt resp.SearchSpace p) = some cp ∧
          te.Weight = cp + ge.Weight ∧
          te.Metadata.Distance = cp + ge.Metadata.Distance))) ∧
    (∀ q : ℤ, 0 ≤ q → ∀ te ∈ resp.SearchSpace.IncomingEdges.atIdx q,
      (⟨q, te.Weight, te.Metadata⟩ : Edge)
        ∈ resp.SearchSpace.OutgoingEdges.atIdx te.ID) := by
  obtain ⟨sf, h1, h2, h3, h4, h5⟩ :=
    run_spec g hwf hnn hB c hsrc.2.2 fuel resp g2 hrun
  constructor
  · intro p hp te hte
    rw [h1] at hte
    obtain ⟨hb1, hb2, hb3, hb4, ⟨cw, hcw, hcwe⟩, hmir, hprv⟩ :=
      h4.tree_edge p hp te hte
    rw [h1, h2]
    exact ⟨hmir, hb4, hb2, ⟨cw, hcw, hcwe⟩, hprv⟩
  · intro q hq te hte
    rw [h1] at hte
    rw [h1]
    exact (h4.tree_in_edge q hq te hte).2

/-- C7: `GetCost` returns the stored cost with a nil error exactly when the
id is a key of the map, and otherwise returns `INFINITE` with the
`"path not found"` error; after a run, a node unreachable from every source
is absent from the returned `Costs`, so `GetCost` on it yields the error. -/
theorem getCost_spec :
    (∀ (costs : Costs) (id : ℤ) (v : ℚ), costs id = some v →
      costs.GetCost id = (v, none)) ∧
    (∀ (costs : Costs) (id : ℤ), costs id = none →
      costs.GetCost id = (INFINITE, some "path not found")) ∧
    (∀ (costs : Costs) (id : ℤ),
      (costs.GetCost id).2 = none ↔ (costs id).isSome = true) ∧
    (∀ (g : Graph), g.WF → g.Nonneg → totalWeight g < INFINITE →
      ∀ (c : Criteria), SourcesOK g c.Source →
      ∀ (fuel : ℕ) (resp : Response) (g2 : Graph),
      (NewDijkstra c).Run g fuel = some (resp, g2) →
      ∀ v : ℤ, ¬ ReachableFrom g c.Source v →
        resp.Costs v = none ∧
        resp.Costs.GetCost v = (INFINITE, some "path not found")) := by
  refine ⟨fun costs id v h => GetCost_some h,
    fun costs id h => GetCost_none h, ?_, ?_⟩
  · intro costs id
    cases h : costs id with
    | none =>
      rw [GetCost_none h]
      simp
    | some v =>
      rw [GetCost_some h]
      simp
  · intro g hwf hnn hB c hsrc fuel resp g2 hrun v hnreach
    obtain ⟨sf, h1, h2, h3, h4, h5⟩ :=
      run_spec g hwf hnn hB c hsrc.2.2 fuel resp g2 hrun
    have hnone : resp.Costs v = none := by
      cases hcv : resp.Costs v with
      | none => rfl
      | some cv =>
        exfalso
        rw [h2] at hcv
        obtain ⟨⟨s0, hs0, l0, hp0⟩, _, _⟩ := h4.cost_path v cv hcv
        exact hnreach ⟨s0, hs0, cv, l0, hp0⟩
    exact ⟨hnone, GetCost_none hnone⟩

/-- C10: in the returned `SearchSpace`, every tree node of positive id whose
rank is one of the configured sources is attached to tree node 0 by a
LeftToRight edge of weight 0 (and zero metadata), mirrored in the incoming
lists, even though no such edge exists in the input graph — a consequence of
`NewDijkstra` creating every initial frontier entry with `Previous = 0`;
moreover when no early termination fires, every source other than the rank
of tree node 0 does get such a tree node. -/
theorem multi_source_tree_edges (g : Graph) (hwf : g.WF) (hnn : g.Nonneg)
    (hB : totalWeight g < INFINITE) (c : Criteria) (hsrc : SourcesOK g c.Source)
    (fuel : ℕ) (resp : Response) (g2 : Graph)
    (hrun : (NewDijkstra c).Run g fuel = some (resp, g2)) :
    (∀ k : ℤ, 0 < k → k < (resp.SearchSpace.Nodes.length : ℤ) →
      rankAt resp.SearchSpace k ∈ c.Source →
      (⟨k, 0, ⟨0, 0, ""⟩⟩ : Edge)
          ∈ resp.SearchSpace.OutgoingEdges.atIdx 0 ∧
      (⟨0, 0, ⟨0, 0, ""⟩⟩ : Edge)
          ∈ resp.SearchSpace.IncomingEdges.atIdx k) ∧
    (NoEarlyStop g c → ∀ v ∈ c.Source, v ≠ rankAt resp.SearchSpace 0 →
      ∃ k : ℤ, 0 < k ∧ k < (resp.SearchSpace.Nodes.length : ℤ) ∧
        rankAt resp.SearchSpace k = v) := by
  obtain ⟨sf, h1, h2, h3, h4, h5⟩ :=
    run_spec g hwf hnn hB c hsrc.2.2 fuel resp g2 hrun
  constructor
  · intro k hk1 hk2 hk3
    rw [h1] at hk2 hk3 ⊢
    have hout := h4.tree_src_edge k hk1 hk2 hk3
    refine ⟨hout, ?_⟩
    have hedge := h4.tree_edge 0 (le_refl 0) _ hout
    exact hedge.2.2.2.2.2.1
  · intro hnes v hv hvne
    have hreach : ReachableFrom g c.Source v := ⟨v, hv, 0, [v], PathCost.nil⟩
    have hvis : sf.visited v = true := by
      rcases h5 with ⟨hInvf, hemp⟩ | ⟨htg0, htgv⟩
      · exact exhausted_all_visited g hnn hInvf hemp v hreach
      · exfalso
        rcases hnes with hlt | hnreach
        · rw [h3] at htg0
          linarith
        · obtain ⟨cv, hcv, hsh⟩ := h4.visited_cost sf.target htgv
          obtain ⟨s0, hs0, l0, hp0⟩ := hsh.1
          apply hnreach
          rw [← h3]
          exact ⟨s0, hs0, cv, l0, hp0⟩
    obtain ⟨k, hk1, hk2⟩ := h4.vis_tree v hvis
    have hkne : k ≠ 0 := by
      intro hk0
      subst hk0
      apply hvne
      rw [h1]
      exact hk2.symm
    refine ⟨(k : ℤ), ?_, ?_, ?_⟩
    · have hkpos : 0 < k := Nat.pos_of_ne_zero hkne
      exact_mod_cast hkpos
    · rw [h1]
      exact_mod_cast hk1
    · rw [h1]
      exact hk2

/-! ## Concrete witnesses and counterexamples for the Dijkstra claims -/

set_option maxRecDepth 8000

/-- C1 counterexample: with source `[0]` and targets `[1, 2]` on `cexGraph`
(`0 → 1` weight 1, `0 → 2` weight 5, `1 → 2` weight 1), the run returns as
soon as target 1 is finalized, leaving `Costs[2] = 5` though the true
shortest cost of the reachable configured target 2 is `0 + 1 + 1 = 2`. -/
theorem dijkstra_earlystop_counterexample :
    (2 : ℤ) ∈ cexCrit.Targets ∧
    cexResp.Costs 2 = some 5 ∧
    ReachableFrom cexGraph cexCrit.Source 2 ∧
    ¬ IsShortest cexGraph cexCrit.Source 2 5 := by
  have he1 : (⟨1, 1, ⟨0, 0, ""⟩⟩ : Edge)
      ∈ cexGraph.OutgoingEdges.atIdx 0 := by with_unfolding_all decide
  have he2 : (⟨2, 1, ⟨0, 0, ""⟩⟩ : Edge)
      ∈ cexGraph.OutgoingEdges.atIdx 1 := by with_unfolding_all decide
  have hpath : PathCost cexGraph 0 2 (0 + 1 + 1) [2, 1, 0] :=
    PathCost.cons (PathCost.cons PathCost.nil he1) he2
  refine ⟨by with_unfolding_all decide, by with_unfolding_all rfl, ?_, ?_⟩
  · exact ⟨0, by with_unfolding_all decide, 0 + 1 + 1, [2, 1, 0], hpath⟩
  · intro hsh
    have hle := hsh.2 0 (by with_unfolding_all decide) (0 + 1 + 1) [2, 1, 0]
      hpath
    norm_num at hle

/-- Witness for C1: the same graph without early termination (no targets)
gives node 2 its true shortest cost. -/
theorem dijkstra_costs_shortest_witness :
    ∃ cv, okResp.Costs 2 = some cv ∧
      IsShortest cexGraph okCrit.Source 2 cv := by
  have hrun : (NewDijkstra okCrit).Run cexGraph 10
      = some (okResp, cexGraph) := by with_unfolding_all rfl
  have hwf : cexGraph.WF := by
    unfold Graph.WF
    with_unfolding_all decide
  have hnn : cexGraph.Nonneg := by
    unfold Graph.Nonneg
    with_unfolding_all decide
  have hB : totalWeight cexGraph < INFINITE := by with_unfolding_all decide
  have hsrc : SourcesOK cexGraph okCrit.Source := by
    unfold SourcesOK
    with_unfolding_all decide
  have he1 : (⟨1, 1, ⟨0, 0, ""⟩⟩ : Edge)
      ∈ cexGraph.OutgoingEdges.atIdx 0 := by with_unfolding_all decide
  have he2 : (⟨2, 1, ⟨0, 0, ""⟩⟩ : Edge)
      ∈ cexGraph.OutgoingEdges.atIdx 1 := by with_unfolding_all decide
  exact (dijkstra_costs_shortest cexGraph hwf hnn hB okCrit hsrc 10 okResp
    cexGraph hrun).1 (Or.inl (by with_unfolding_all decide)) 2
    ⟨0, by with_unfolding_all decide, 0 + 1 + 1, [2, 1, 0],
      PathCost.cons (PathCost.cons PathCost.nil he1) he2⟩

/-- C3 counterexample: in the chain `0 → 1 → 2` (weight 1 each), the tree
edge into node 2 has weight 2 — the child's total cost — while the cost
delta between the two tree nodes is `2 - 1 = 1`; its metadata distance is 1
(parent total cost plus edge distance 0), not a distance delta of 0. -/
theorem treeEdge_not_delta_counterexample :
    chainResp.SearchSpace.OutgoingEdges.atIdx 1 = [⟨2, 2, ⟨0, 1, ""⟩⟩] ∧
    chainResp.Costs (rankAt chainResp.SearchSpace 2) = some 2 ∧
    chainResp.Costs (rankAt chainResp.SearchSpace 1) = some 1 ∧
    (2 : ℚ) ≠ 2 - 1 :=
  ⟨by with_unfolding_all rfl, by with_unfolding_all rfl,
    by with_unfolding_all rfl, by norm_num⟩

/-- Witness for C3 at the chain graph: the tree edge `1 → 2` is mirrored in
the incoming lists and weighs the child's total cost. -/
theorem searchSpace_edges_witness :
    (⟨1, 2, ⟨0, 1, ""⟩⟩ : Edge)
        ∈ chainResp.SearchSpace.IncomingEdges.atIdx 2 ∧
    (∃ cw, chainResp.Costs (rankAt chainResp.SearchSpace 2) = some cw ∧
      (2 : ℚ) = cw) := by
  have hrun : (NewDijkstra okCrit).Run chainGraph 10
      = some (chainResp, chainGraph) := by with_unfolding_all rfl
  have hwf : chainGraph.WF := by
    unfold Graph.WF
    with_unfolding_all decide
  have hnn : chainGraph.Nonneg := by
    unfold Graph.Nonneg
    with_unfolding_all decide
  have hB : totalWeight chainGraph < INFINITE := by with_unfolding_all decide
  have hsrc : SourcesOK chainGraph okCrit.Source := by
    unfold SourcesOK
    with_unfolding_all decide
  have h := (searchSpace_edges chainGraph hwf hnn hB okCrit hsrc 10 chainResp
    chainGraph hrun).1 1 (by norm_num) ⟨2, 2, ⟨0, 1, ""⟩⟩
    (by with_unfolding_all decide)
  exact ⟨h.1, h.2.2.2.1⟩

/-- Endpoints of paths from 0 in `chainGraph` stay within `{0, 1, 2}`. -/
theorem chain_paths_bounded : ∀ (v : ℤ) (c : ℚ) (l : List ℤ),
    PathCost chainGraph 0 v c l → v = 0 ∨ v = 1 ∨ v = 2 := by
  intro v c l hp
  induction hp with
  | nil => exact Or.inl rfl
  | cons hp2 he ih =>
    rename_i u c2 l2 e
    rcases ih with rfl | rfl | rfl
    · have h0 : chainGraph.OutgoingEdges.atIdx 0
          = [⟨1, 1, ⟨0, 0, ""⟩⟩] := by with_unfolding_all rfl
      rw [h0, List.mem_singleton] at he
      rw [he]
      exact Or.inr (Or.inl rfl)
    · have h1 : chainGraph.OutgoingEdges.atIdx 1
          = [⟨2, 1, ⟨0, 0, ""⟩⟩] := by with_unfolding_all rfl
      rw [h1, List.mem_singleton] at he
      rw [he]
      exact Or.inr (Or.inr rfl)
    · have h2 : chainGraph.OutgoingEdges.atIdx 2 = [] := by
        with_unfolding_all rfl
      rw [h2] at he
      exact absurd he (List.not_mem_nil e)

/-- Node 3 of `chainGraph` is unreachable from the source. -/
theorem chain_unreachable3 : ¬ ReachableFrom chainGraph okCrit.Source 3 := by
  rintro ⟨s0, hs0, c, l, hp⟩
  have hs0x : s0 = 0 := by
    have hmem : s0 ∈ ([0] : List ℤ) := hs0
    simpa using hmem
  subst hs0x
  rcases chain_paths_bounded 3 c l hp with h | h | h <;> norm_num at h

/-- Witness for C7 at the chain graph: the unreachable node 3 is absent from
the returned costs, and `GetCost` yields the sentinel with the error. -/
theorem getCost_spec_witness :
    chainResp.Costs 3 = none ∧
    chainResp.Costs.GetCost 3 = (INFINITE, some "path not found") := by
  have hrun : (NewDijkstra okCrit).Run chainGraph 10
      = some (chainResp, chainGraph) := by with_unfolding_all rfl
  have hwf : chainGraph.WF := by
    unfold Graph.WF
    with_unfolding_all decide
  have hnn : chainGraph.Nonneg := by
    unfold Graph.Nonneg
    with_unfolding_all decide
  have hB : totalWeight chainGraph < INFINITE := by with_unfolding_all decide
  have hsrc : SourcesOK chainGraph okCrit.Source := by
    unfold SourcesOK
    with_unfolding_all decide
  exact getCost_spec.2.2.2 chainGraph hwf hnn hB okCrit hsrc 10 chainResp
    chainGraph hrun 3 chain_unreachable3

/-- Witness for C10 on two isolated sources: the second source's tree node
hangs off tree node 0 by a weight-0 edge that has no counterpart in the
input graph. -/
theorem multi_source_tree_edges_witness :
    (⟨1, 0, ⟨0, 0, ""⟩⟩ : Edge)
        ∈ msResp.SearchSpace.OutgoingEdges.atIdx 0 ∧
    (⟨0, 0, ⟨0, 0, ""⟩⟩ : Edge)
        ∈ msResp.SearchSpace.IncomingEdges.atIdx 1 := by
  have hrun : (NewDijkstra msCrit).Run msGraph 10
      = some (msResp, msGraph) := by with_unfolding_all rfl
  have hwf : msGraph.WF := by
    unfold Graph.WF
    with_unfolding_all decide
  have hnn : msGraph.Nonneg := by
    unfold Graph.Nonneg
    with_unfolding_all decide
  have hB : totalWeight msGraph < INFINITE := by with_unfolding_all decide
  have hsrc : SourcesOK msGraph msCrit.Source := by
    unfold SourcesOK
    with_unfolding_all decide
  exact (multi_source_tree_edges msGraph hwf hnn hB msCrit hsrc 10 msResp
    msGraph hrun).1 1 (by norm_num) (by with_unfolding_all decide)
    (by with_unfolding_all decide)

end GraphSearch
